import Mathlib

/-!
# gnark: constraint-system builder and BLS381 specialization

A shallow embedding of `backend/r1cs/r1cs_bls381.go` (the curve-specialization
pass `toBLS381`) and of the constraint-building API of `frontend/cs_api.go`,
together with the properties the specification states about them.

Go maps are embedded as association lists with at most one entry per key;
a Go panic is embedded as `none`.
-/

namespace Gnark

/-! ## Go maps -/

/-- A Go `map[κ]ν`: association list, read through `GoMap.get`, written through `GoMap.set`. -/
abbrev GoMap (κ ν : Type) := List (κ × ν)

/-- Map read `m[k]` in its two-valued form `v, ok := m[k]`. -/
def GoMap.get {κ ν : Type} [DecidableEq κ] (m : GoMap κ ν) (k : κ) : Option ν :=
  match m with
  | [] => none
  | (k', v) :: rest => if k' = k then some v else GoMap.get rest k

/-- Map write `m[k] = v`: the entry of `k`, if any, is replaced. -/
def GoMap.set {κ ν : Type} [DecidableEq κ] (m : GoMap κ ν) (k : κ) (v : ν) : GoMap κ ν :=
  match m with
  | [] => [(k, v)]
  | (k', v') :: rest => if k' = k then (k, v) :: rest else (k', v') :: GoMap.set rest k v

/-! ## `fr.Element` of BLS381 (external library `gurvy/bls381/fr`) -/

/-- The modulus of the scalar field of BLS12-381. -/
def frModulus : Nat :=
  52435875175126190479447740508185965837690552500527637822603658699938581184513

/-- An `fr.Element`, held as its canonical representative in `[0, frModulus)`. -/
abbrev Element := Nat

/-- The call `e.SetBigInt(&b)`: the representative of `b` modulo the field modulus
(`big.Int.Mod` is the Euclidean modulus, so the result is never negative). -/
def Element.SetBigInt (b : Int) : Element := (b % (frModulus : Int)).toNat

/-- The call `e.SetOne()`. -/
def Element.SetOne : Element := 1

/-- The call `z.Neg(&x)`. -/
def Element.Neg (x : Element) : Element := if x = 0 then 0 else frModulus - x

/-- The call `e.SetUint64(v)`. -/
def Element.SetUint64 (v : Nat) : Element := v % frModulus

/-- The call `e.IsZero()`. -/
def Element.IsZero (e : Element) : Bool := decide (e = 0)

/-- The call `e.Equal(&x)`. -/
def Element.Equal (e x : Element) : Bool := decide (e = x)

/-- The `n` low-order bytes of `e`, most significant first. -/
def bytesBE : Nat → Nat → List Nat
  | 0, _ => []
  | n + 1, e => bytesBE n (e / 256) ++ [e % 256]

/-- The call `e.Bytes()`: the canonical representative as 32 big-endian bytes. -/
def Element.Bytes (e : Element) : List Nat := bytesBE 32 e

/-- One hexadecimal digit, lower case as `encoding/hex` writes it. -/
def hexDigit (d : Nat) : Char :=
  match d with
  | 0 => '0' | 1 => '1' | 2 => '2' | 3 => '3' | 4 => '4' | 5 => '5' | 6 => '6' | 7 => '7'
  | 8 => '8' | 9 => '9' | 10 => 'a' | 11 => 'b' | 12 => 'c' | 13 => 'd' | 14 => 'e'
  | _ => 'f'

/-- The characters of `hex.EncodeToString(bs)`: two digits per byte, high nibble first. -/
def hexChars : List Nat → List Char
  | [] => []
  | b :: bs => hexDigit (b / 16) :: hexDigit (b % 16) :: hexChars bs

/-- The call `hex.EncodeToString(bs)`. -/
def hexEncodeToString (bs : List Nat) : String := String.mk (hexChars bs)

/-! ## `term.Term` (package `backend/r1cs/term`) -/

/-- The constant `maxInt = int(^uint(0) >> 1)` on a 64-bit platform: the value that
`SpecialValueInt` returns for a term without an inline special value. -/
def maxInt : Int := 9223372036854775807

/-- Modelled from the spec: the values a `term.Term` can carry inline, -1, 0, 1 and 2. -/
inductive SpecialValue where
  | minusOne
  | zero
  | one
  | two
deriving DecidableEq, Repr

/-- The integer an inline special value stands for. -/
def SpecialValue.toInt : SpecialValue → Int
  | .minusOne => -1
  | .zero => 0
  | .one => 1
  | .two => 2

/-- Modelled from the spec: the type `term.Term`, whose declaration is not among the
sources. A term names a wire (`constraintID`), and carries its coefficient either inline,
as one of the special values -1, 0, 1, 2, or as an index into a coefficient table. -/
structure Term where
  constraintID : Nat
  coeffID : Nat
  special : Option SpecialValue
deriving DecidableEq, Repr

/-- Modelled from the spec: the accessor `t.ConstraintID()` of `term.Term`, the wire id. -/
def Term.ConstraintID (t : Term) : Nat := t.constraintID

/-- Modelled from the spec: the accessor `t.CoeffID()` of `term.Term`, the index into the
coefficient table. -/
def Term.CoeffID (t : Term) : Nat := t.coeffID

/-- Modelled from the spec: the accessor `t.SpecialValueInt()` of `term.Term`: the inline
value, `maxInt` when there is none (the test `specialValue != maxInt` of `getCoeffIdx`). -/
def Term.SpecialValueInt (t : Term) : Int :=
  match t.special with
  | some s => s.toInt
  | none => maxInt

/-- Modelled from the spec: the constructor `term.NewTerm(constraintID, coeffID,
specialValue)`: a special value other than -1, 0, 1, 2 (in particular `maxInt`) leaves
the term without inline value. -/
def NewTerm (constraintID coeffID : Nat) (specialValue : Int) : Term :=
  { constraintID := constraintID
    coeffID := coeffID
    special :=
      if specialValue = -1 then some .minusOne
      else if specialValue = 0 then some .zero
      else if specialValue = 1 then some .one
      else if specialValue = 2 then some .two
      else none }

/-! ## The two R1CS representations -/

/-- Modelled from the spec: one rank-1 constraint `L * R = O` with its solver hint. The
declarations of `r1cs.R1C` and `backend_bls381.R1C` are not among the sources; the fields
are those that `toBLS381` reads and writes, the same for both. -/
structure R1C where
  L : List Term
  R : List Term
  O : List Term
  Solver : Nat
deriving DecidableEq, Repr

/-- Modelled from the spec: the generic R1CS `UntypedR1CS`, whose declaration is not among
the sources; the fields are those that `toBLS381` reads. Coefficients are
arbitrary-precision integers. -/
structure UntypedR1CS where
  NbWires : Nat
  NbPublicWires : Nat
  NbPrivateWires : Nat
  PrivateWires : List String
  PublicWires : List String
  WireTags : GoMap Nat (List String)
  NbConstraints : Nat
  NbCOConstraints : Nat
  Constraints : List R1C
  Coefficients : List Int
deriving DecidableEq, Repr

/-- Modelled from the spec: the curve-bound R1CS `backend_bls381.R1CS`, whose declaration
is not among the sources; the fields are those that `toBLS381` writes. Coefficients are
field elements. -/
structure R1CS where
  NbWires : Nat
  NbPublicWires : Nat
  NbPrivateWires : Nat
  PrivateWires : List String
  PublicWires : List String
  WireTags : GoMap Nat (List String)
  NbConstraints : Nat
  NbCOConstraints : Nat
  Constraints : List R1C
  Coefficients : List Element
deriving DecidableEq, Repr

/-! ## `toBLS381` -/

/-- The two variables the closure `getCoeffIdx` captures and mutates:
`toReturn.Coefficients` and `lookupTable`. -/
structure CoeffState where
  Coefficients : List Element
  lookupTable : GoMap String Nat
deriving DecidableEq, Repr

/-- The constant `eOne`. -/
def eOne : Element := Element.SetOne

/-- The constant `eMinusOne`. -/
def eMinusOne : Element := Element.Neg eOne

/-- The constant `eTwo`. -/
def eTwo : Element := Element.SetUint64 2

/-- The closure `getCoeffIdx` of `toBLS381`. It returns the triple
`(constraintID, coeffID, specialValue)` and the state it leaves; `none` stands for the
index-out-of-range panic of `r1cs.Coefficients[uTerm.CoeffID()]`. -/
def getCoeffIdx (coefficients : List Int) (st : CoeffState) (uTerm : Term) :
    Option ((Nat × Nat × Int) × CoeffState) :=
  let constraintID := uTerm.ConstraintID
  let specialValue := uTerm.SpecialValueInt
  if specialValue ≠ maxInt then
    some ((constraintID, 0, specialValue), st)
  else
    match coefficients[uTerm.CoeffID]? with
    | none => none
    | some b =>
      let e := Element.SetBigInt b
      if e.IsZero then some ((constraintID, 0, 0), st)
      else if e.Equal eOne then some ((constraintID, 0, 1), st)
      else if e.Equal eMinusOne then some ((constraintID, 0, -1), st)
      else if e.Equal eTwo then some ((constraintID, 0, 2), st)
      else
        let key := hexEncodeToString e.Bytes
        match st.lookupTable.get key with
        | some idx => some ((constraintID, idx, specialValue), st)
        | none =>
          let coeffID := st.Coefficients.length
          some ((constraintID, coeffID, specialValue),
            { Coefficients := st.Coefficients ++ [e]
              lookupTable := st.lookupTable.set key coeffID })

/-- One of the three inner loops of `toBLS381`:
`to.X[j] = term.NewTerm(getCoeffIdx(from.X[j]))` for `j` from 0 upwards. -/
def convertExpression (coefficients : List Int) :
    CoeffState → List Term → Option (List Term × CoeffState)
  | st, [] => some ([], st)
  | st, t :: ts =>
    match getCoeffIdx coefficients st t with
    | none => none
    | some (r, st1) =>
      match convertExpression coefficients st1 ts with
      | none => none
      | some (out, st2) => some (NewTerm r.1 r.2.1 r.2.2 :: out, st2)

/-- The body of the outer loop of `toBLS381` for one constraint: `L`, then `R`, then `O`. -/
def convertConstraint (coefficients : List Int) (st : CoeffState) (src : R1C) :
    Option (R1C × CoeffState) :=
  match convertExpression coefficients st src.L with
  | none => none
  | some (l, st1) =>
    match convertExpression coefficients st1 src.R with
    | none => none
    | some (r, st2) =>
      match convertExpression coefficients st2 src.O with
      | none => none
      | some (o, st3) => some ({ L := l, R := r, O := o, Solver := src.Solver }, st3)

/-- The outer loop of `toBLS381`, over the constraints in order. -/
def convertConstraints (coefficients : List Int) :
    CoeffState → List R1C → Option (List R1C × CoeffState)
  | st, [] => some ([], st)
  | st, c :: cs =>
    match convertConstraint coefficients st c with
    | none => none
    | some (d, st1) =>
      match convertConstraints coefficients st1 cs with
      | none => none
      | some (ds, st2) => some (d :: ds, st2)

/-- The method `(r1cs *UntypedR1CS) toBLS381()`. -/
def toBLS381 (r1cs : UntypedR1CS) : Option R1CS :=
  match convertConstraints r1cs.Coefficients ⟨[], []⟩ r1cs.Constraints with
  | none => none
  | some (constraints, st) =>
    some
      { NbWires := r1cs.NbWires
        NbPublicWires := r1cs.NbPublicWires
        NbPrivateWires := r1cs.NbPrivateWires
        PrivateWires := r1cs.PrivateWires
        PublicWires := r1cs.PublicWires
        WireTags := r1cs.WireTags
        NbConstraints := r1cs.NbConstraints
        NbCOConstraints := r1cs.NbCOConstraints
        Constraints := constraints
        Coefficients := st.Coefficients }

/-! ## Specification-level vocabulary for `toBLS381` -/

/-- The special value, if any, that a field element is: the classification that
`getCoeffIdx` makes with `IsZero` and `Equal`, in the order it makes it. -/
def specialOf (e : Element) : Option SpecialValue :=
  if e.IsZero then some .zero
  else if e.Equal eOne then some .one
  else if e.Equal eMinusOne then some .minusOne
  else if e.Equal eTwo then some .two
  else none

/-- The integer coefficient that a term of the generic R1CS denotes: its inline special
value, otherwise the entry of the big-integer table at its coefficient index. -/
def termValue (coefficients : List Int) (t : Term) : Option Int :=
  match t.special with
  | some s => some s.toInt
  | none => coefficients[t.coeffID]?

/-- The field element that a term of the curve-bound R1CS denotes: its inline special
value, otherwise the entry of the element table at its coefficient index. -/
def elementValue (table : List Element) (u : Term) : Option Element :=
  match u.special with
  | some s => some (Element.SetBigInt s.toInt)
  | none => table[u.coeffID]?

/-- The three sides of a constraint. -/
inductive Side where
  | L
  | R
  | O
deriving DecidableEq, Repr

/-- The linear expression on one side of a constraint. -/
def R1C.side (c : R1C) : Side → List Term
  | .L => c.L
  | .R => c.R
  | .O => c.O

/-- The term at position (constraint `i`, side `s`, index `j`), if there is one. -/
def termAt (constraints : List R1C) (i : Nat) (s : Side) (j : Nat) : Option Term :=
  match constraints[i]? with
  | none => none
  | some c => (c.side s)[j]?

/-- Every term without inline special value has its coefficient index inside the table. -/
def ValidIndices (r1cs : UntypedR1CS) : Prop :=
  ∀ c ∈ r1cs.Constraints, ∀ t ∈ c.L ++ c.R ++ c.O,
    t.special = none → t.coeffID < r1cs.Coefficients.length

/-- The relation that `toBLS381` establishes between a term `t` of the input and the term
`u` it emits at the same position, `table` being the output coefficient table. -/
def TermRel (coefficients : List Int) (table : List Element) (t u : Term) : Prop :=
  u.constraintID = t.constraintID ∧
  ∃ b, termValue coefficients t = some b ∧
    u.special = specialOf (Element.SetBigInt b) ∧
    (u.special ≠ none → u.coeffID = 0) ∧
    (u.special = none → table[u.coeffID]? = some (Element.SetBigInt b))

/-- The invariant of the state of `getCoeffIdx`: the table holds distinct, reduced,
non-special elements, and the lookup table maps the key of an element to its index. -/
structure CoeffState.Inv (st : CoeffState) : Prop where
  nodup : st.Coefficients.Nodup
  lt : ∀ e ∈ st.Coefficients, e < frModulus
  notSpecial : ∀ e ∈ st.Coefficients, specialOf e = none
  sound : ∀ e idx, e < frModulus →
    st.lookupTable.get (hexEncodeToString (Element.Bytes e)) = some idx →
    st.Coefficients[idx]? = some e
  complete : ∀ e idx, st.Coefficients[idx]? = some e →
    st.lookupTable.get (hexEncodeToString (Element.Bytes e)) = some idx

/-- The relation that `toBLS381` establishes between a constraint of the input and the
constraint it emits at the same index. -/
def ConstraintRel (coefficients : List Int) (table : List Element) (c d : R1C) : Prop :=
  d.Solver = c.Solver ∧
  ∀ s : Side, List.Forall₂ (TermRel coefficients table) (c.side s) (d.side s)

/-- Two constraints have the same topology: the same solver hint and, side by side and
term by term, the same wire ids. -/
def SameShape (c d : R1C) : Prop :=
  d.Solver = c.Solver ∧
  ∀ s : Side, List.Forall₂ (fun t u : Term => u.constraintID = t.constraintID)
    (c.side s) (d.side s)

/-- A generic R1CS with two constraints. The coefficient 5 is referenced as `5` (table
index 0) and as `frModulus + 5` (index 1); index 2 holds `frModulus + 1`, index 3 holds
`-1`, index 4 holds `7`, and index 5 is referenced by no term. -/
def sampleR1CS : UntypedR1CS :=
  { NbWires := 4
    NbPublicWires := 2
    NbPrivateWires := 2
    PrivateWires := ["a", "c"]
    PublicWires := ["ONE_WIRE", "b"]
    WireTags := [(1, ["t"])]
    NbConstraints := 2
    NbCOConstraints := 2
    Constraints :=
      [ { L := [⟨1, 0, none⟩, ⟨0, 0, some .two⟩], R := [⟨1, 1, none⟩],
          O := [⟨2, 0, some .one⟩], Solver := 0 },
        { L := [⟨1, 2, none⟩], R := [⟨2, 3, none⟩, ⟨3, 4, none⟩],
          O := [⟨3, 0, none⟩], Solver := 1 } ]
    Coefficients := [5, (frModulus : Int) + 5, (frModulus : Int) + 1, -1, 7, 11] }

/-- The curve-bound R1CS that `toBLS381` returns for `sampleR1CS`. -/
def sampleBLS381 : R1CS :=
  { NbWires := 4
    NbPublicWires := 2
    NbPrivateWires := 2
    PrivateWires := ["a", "c"]
    PublicWires := ["ONE_WIRE", "b"]
    WireTags := [(1, ["t"])]
    NbConstraints := 2
    NbCOConstraints := 2
    Constraints :=
      [ { L := [⟨1, 0, none⟩, ⟨0, 0, some .two⟩], R := [⟨1, 0, none⟩],
          O := [⟨2, 0, some .one⟩], Solver := 0 },
        { L := [⟨1, 0, some .one⟩], R := [⟨2, 0, some .minusOne⟩, ⟨3, 1, none⟩],
          O := [⟨3, 0, none⟩], Solver := 1 } ]
    Coefficients := [5, 7] }

/-! ## `frontend`: variables, gates and the constraint system -/

/-- Modelled from the spec: the type `Variable`, whose declaration is not among the
sources. `Compile` reads its two fields: the wire id `constraintID` (0 until the variable
is bound to a wire) and the assigned value `val` (`nil` until one is assigned). -/
structure Variable where
  constraintID : Nat
  val : Option Int
deriving DecidableEq, Repr

/-- Modelled from the spec: the method `id()` of `Variable`, the identifier of its wire. -/
def Variable.id (v : Variable) : Nat := v.constraintID

/-- The constant `oneWireID`: wire 0 is the reserved constant-one wire. -/
def oneWireID : Nat := 0

/-- The global `bOne`, the big integer 1. -/
def bOne : Int := 1

/-- Modelled from the spec: one term of a linear expression, a wire id and the integer
coefficient that multiplies it, as `cs.term` builds it. -/
structure LinearTerm where
  wire : Nat
  coeff : Int
deriving DecidableEq, Repr

/-- Modelled from the spec: the exported type `LinearCombination`, an ordered sequence of
pairs of a variable and a coefficient. -/
abbrev LinearCombination := List (Variable × Int)

/-- Modelled from the spec: the gate catalogue. The declarations of the expression types
are not among the sources; the fields are those that `cs_api.go` writes. -/
inductive Expression where
  | linearExpression (terms : List LinearTerm)
  | booleanExpression (b : Nat)
  | xorExpression (a b : Nat)
  | packExpression (bits : List Nat)
  | unpackExpression (bits : List Nat) (res : Nat)
  | selectExpression (b x y : Nat)
  | lutExpression (b0 b1 : Nat) (lookuptable : List Int)
deriving DecidableEq, Repr

/-- The type assertion `e.(*booleanExpression)` followed by the test `bExpression.b == id`. -/
def Expression.isBooleanFor (e : Expression) (id : Nat) : Bool :=
  match e with
  | .booleanExpression b => decide (b = id)
  | _ => false

/-- The type assertion `e.(*xorExpression)` on a possibly nil expression. -/
def isXorExpression (e : Option Expression) : Bool :=
  match e with
  | some (.xorExpression _ _) => true
  | _ => false

/-- Modelled from the spec: an entry of the expression table, the gate that governs a
wire (`nil` for an input wire). -/
structure Constraint where
  exp : Option Expression
deriving DecidableEq, Repr

/-- Modelled from the spec: the constraint system `CS`, whose declaration is not among
the sources. The fields are those that `cs_api.go` reads and writes, and the counter
from which `addConstraint` takes the id of the next wire. -/
structure CS where
  constraints : GoMap Nat Constraint
  nbConstraints : Nat
  noExpressions : List Expression
  moExpressions : List Expression
  wireNames : GoMap String Unit
  secretWireNames : GoMap Nat String
  publicWireNames : GoMap Nat String
  wireTags : GoMap Nat (List String)
deriving DecidableEq, Repr

/-- Modelled from the spec: `newConstraintSystem`, which is not among the sources. The
new system holds the reserved wire 0 and nothing else. -/
def newConstraintSystem : CS :=
  { constraints := [(0, ⟨none⟩)]
    nbConstraints := 1
    noExpressions := []
    moExpressions := []
    wireNames := []
    secretWireNames := []
    publicWireNames := []
    wireTags := [] }

/-- Modelled from the spec: `cs.addConstraint`, which is not among the sources. It
allocates the next wire id, records the gate that governs the new wire in the expression
table and returns the variable of that wire. -/
def CS.addConstraint (cs : CS) (exp : Option Expression) : Variable × CS :=
  (⟨cs.nbConstraints, none⟩,
    { cs with
      constraints := cs.constraints.set cs.nbConstraints ⟨exp⟩
      nbConstraints := cs.nbConstraints + 1 })

/-- Modelled from the spec: `cs.term`, which is not among the sources: the term of a
linear expression with the given wire and coefficient. -/
def CS.term (_cs : CS) (id : Nat) (coeff : Int) : LinearTerm := ⟨id, coeff⟩

/-- Modelled from the spec: the operands of the arithmetic API, Go values of type
`interface{}`: a variable, a linear combination, a constant in one of the
representations that `backend.FromInterface` converts, or any other value. -/
inductive Operand where
  | variable (v : Variable)
  | linearCombination (l : LinearCombination)
  | bigInt (b : Int)
  | int (i : Int)
  | uint64 (n : Nat)
  | string (s : String)
  | other
deriving DecidableEq, Repr

/-- Modelled from the spec: `backend.FromInterface`, which is not among the sources: the
big integer of a constant operand; it panics on an operand that is not a constant and on
a string that is not a decimal number. -/
def FromInterface (i : Operand) : Option Int :=
  match i with
  | .bigInt b => some b
  | .int n => some n
  | .uint64 n => some (n : Int)
  | .string s => s.toInt?
  | _ => none

/-- The method `CS.MUSTBE_BOOLEAN`: the first loop returns when the assertion list holds
a Boolean gate for the wire, the second when the expression table holds, under the id of
the wire and other than id 0, an XOR gate; otherwise a Boolean gate is appended. -/
def CS.MUSTBE_BOOLEAN (cs : CS) (c : Variable) : CS :=
  if cs.noExpressions.any (fun e => e.isBooleanFor c.id) then cs
  else if cs.constraints.any
      (fun e => decide (e.1 ≠ 0) && (decide (e.1 = c.id) && isXorExpression e.2.exp)) then cs
  else { cs with noExpressions := cs.noExpressions ++ [.booleanExpression c.id] }

/-- The method `CS.XOR`. -/
def CS.XOR (cs : CS) (c1 c2 : Variable) : Variable × CS :=
  let cs1 := cs.MUSTBE_BOOLEAN c1
  let cs2 := cs1.MUSTBE_BOOLEAN c2
  cs2.addConstraint (some (.xorExpression c1.id c2.id))

/-- The loop of `CS.FROM_BINARY`: each input is boolean constrained and its id appended
to the bits of the expression. -/
def CS.packLoop (cs : CS) (bits : List Nat) : List Variable → CS × List Nat
  | [] => (cs, bits)
  | c :: rest => CS.packLoop (cs.MUSTBE_BOOLEAN c) (bits ++ [c.id]) rest

/-- The method `CS.FROM_BINARY`. -/
def CS.FROM_BINARY (cs : CS) (b : List Variable) : Variable × CS :=
  let r := cs.packLoop [] b
  r.1.addConstraint (some (.packExpression r.2))

/-- The method `CS.SELECT`; `none` stands for a panic (`invalid type`, or the panic of
`backend.FromInterface`). -/
def CS.SELECT (cs : CS) (b : Variable) (i1 i2 : Operand) : Option (Variable × CS) :=
  let cs1 := cs.MUSTBE_BOOLEAN b
  match i1 with
  | .variable c1 =>
    match i2 with
    | .variable c2 => some (cs1.addConstraint (some (.selectExpression b.id c1.id c2.id)))
    | _ => none
  | _ =>
    match FromInterface i1 with
    | none => none
    | some c1Bigint =>
      match FromInterface i2 with
      | none => none
      | some c2Bigint =>
        let c1Bigint := c1Bigint - c2Bigint
        some (cs1.addConstraint (some (.linearExpression
          [cs1.term b.id c1Bigint, cs1.term oneWireID bOne])))

/-- The method `CS.SELECT_LUT`. -/
def CS.SELECT_LUT (cs : CS) (c1 c0 : Variable) (lookuptable : List Int) : Variable × CS :=
  let cs1 := cs.MUSTBE_BOOLEAN c0
  let cs2 := cs1.MUSTBE_BOOLEAN c1
  cs2.addConstraint (some (.lutExpression c0.id c1.id lookuptable))

/-- The method `CS.SECRET_INPUT`; `none` stands for either of its two panics. -/
def CS.SECRET_INPUT (cs : CS) (name : String) : Option (Variable × CS) :=
  if name = "" then none
  else
    let r := cs.addConstraint none
    match r.2.wireNames.get name with
    | some _ => none
    | none =>
      some (r.1,
        { r.2 with
          wireNames := r.2.wireNames.set name ()
          secretWireNames := r.2.secretWireNames.set r.1.id name })

/-- The method `CS.PUBLIC_INPUT`; `none` stands for either of its two panics. -/
def CS.PUBLIC_INPUT (cs : CS) (name : String) : Option (Variable × CS) :=
  if name = "" then none
  else
    let r := cs.addConstraint none
    match r.2.wireNames.get name with
    | some _ => none
    | none =>
      some (r.1,
        { r.2 with
          wireNames := r.2.wireNames.set name ()
          publicWireNames := r.2.publicWireNames.set r.1.id name })

/-! ## Specification-level vocabulary for the constraint system -/

/-- The assertion list holds a Boolean gate for the wire `id`. -/
def CS.hasBooleanGate (cs : CS) (id : Nat) : Prop :=
  Expression.booleanExpression id ∈ cs.noExpressions

/-- The wire `id` is the output of an XOR gate: the expression table holds an XOR gate
under `id`. -/
def CS.isXorOutput (cs : CS) (id : Nat) : Prop :=
  ∃ a b, (id, (⟨some (.xorExpression a b)⟩ : Constraint)) ∈ cs.constraints

/-- The wire `id` is known boolean: it has a Boolean gate or is the output of an XOR. -/
def CS.knownBoolean (cs : CS) (id : Nat) : Prop :=
  cs.hasBooleanGate id ∨ cs.isXorOutput id

/-- Every wire id of the expression table and of the two name registries was allocated:
it lies below the counter from which the next wire id is taken. -/
def CS.Allocated (cs : CS) : Prop :=
  (∀ e ∈ cs.constraints, e.1 < cs.nbConstraints) ∧
  (∀ e ∈ cs.secretWireNames, e.1 < cs.nbConstraints) ∧
  (∀ e ∈ cs.publicWireNames, e.1 < cs.nbConstraints)

/-- The name is registered as the name of a secret input. -/
def CS.isSecretName (cs : CS) (name : String) : Prop :=
  ∃ id, (id, name) ∈ cs.secretWireNames

/-- The name is registered as the name of a public input. -/
def CS.isPublicName (cs : CS) (name : String) : Prop :=
  ∃ id, (id, name) ∈ cs.publicWireNames

/-- The global name set holds exactly the names of the two registries. -/
def CS.NamesInSync (cs : CS) : Prop :=
  ∀ name : String,
    (∃ u, (name, u) ∈ cs.wireNames) ↔ (cs.isSecretName name ∨ cs.isPublicName name)

/-- The value of a linear expression under an assignment of values to the wires. -/
def evalLinear (w : Nat → Int) (terms : List LinearTerm) : Int :=
  (terms.map (fun t => t.coeff * w t.wire)).sum

/-- A constraint system with one secret input `b`, on wire 1. -/
def sampleCS : CS :=
  { constraints := [(0, ⟨none⟩), (1, ⟨none⟩)]
    nbConstraints := 2
    noExpressions := []
    moExpressions := []
    wireNames := [("b", ())]
    secretWireNames := [(1, "b")]
    publicWireNames := []
    wireTags := [] }

/-- A constraint system with two secret inputs, on wires 1 and 2, and their XOR, on
wire 3. -/
def sampleXorCS : CS :=
  { constraints := [(0, ⟨none⟩), (1, ⟨none⟩), (2, ⟨none⟩), (3, ⟨some (.xorExpression 1 2)⟩)]
    nbConstraints := 4
    noExpressions := [.booleanExpression 1, .booleanExpression 2]
    moExpressions := []
    wireNames := [("a", ()), ("b", ())]
    secretWireNames := [(1, "a"), (2, "b")]
    publicWireNames := []
    wireTags := [] }

/-- The assignment that gives every wire the value 1. -/
def allOnes : Nat → Int := fun _ => 1

/-- The assignment that gives the one-wire the value 1 and every other wire the value 0. -/
def onlyOneWire : Nat → Int := fun i => if i = 0 then 1 else 0

/-! ## `frontend`: the arithmetic API, tags, bit decomposition and the leaf handler -/

/-- The result of a call of the arithmetic API: the call returns a value, or it panics
with a message; in both cases with the constraint system as the call leaves it. -/
inductive Outcome (α : Type) where
  | ok (value : α) (cs : CS)
  | panic (message : String) (cs : CS)
deriving DecidableEq, Repr

/-- The call returned. -/
def Outcome.isOk {α : Type} (o : Outcome α) : Bool :=
  match o with
  | .ok _ _ => true
  | .panic _ _ => false

/-- The constraint system as the call leaves it. -/
def Outcome.state {α : Type} (o : Outcome α) : CS :=
  match o with
  | .ok _ cs => cs
  | .panic _ cs => cs

/-- Modelled from the spec: the message of the panic of `backend.FromInterface`, whose
text is not among the sources. -/
def fromInterfacePanic : String := "backend.FromInterface: unsupported operand"

/-- The unexported methods of `CS` that the arithmetic API calls and that are not among
the sources, taken as parameters. Each is an operation of the constraint system that
returns the variable of its result; `equal` and `equalConstant` return nothing. -/
structure Helpers where
  add : CS → Variable → Variable → Variable × CS
  addConstant : CS → Variable → Int → Variable × CS
  sub : CS → Variable → Variable → Variable × CS
  subConstant : CS → Variable → Int → Variable × CS
  subConstraint : CS → Int → Variable → Variable × CS
  mul : CS → Variable → Variable → Variable × CS
  mulConstant : CS → Variable → Int → Variable × CS
  mullc : CS → LinearCombination → LinearCombination → Variable × CS
  mullcinterface : CS → LinearCombination → Operand → Variable × CS
  div : CS → Variable → Variable → Variable × CS
  divlc : CS → LinearCombination → LinearCombination → Variable × CS
  divConstantRight : CS → Variable → Int → Variable × CS
  divConstantLeft : CS → Int → Variable → Variable × CS
  equal : CS → Variable → Variable → CS
  equalConstant : CS → Variable → Int → CS

/-- A helper call that returns a variable, as an outcome. -/
def returned (r : Variable × CS) : Outcome Variable := .ok r.1 r.2

/-- The closure `add` of `CS.ADD`. -/
def CS.addPair (h : Helpers) (cs : CS) (i1 i2 : Operand) : Outcome Variable :=
  match i1 with
  | .variable c1 =>
    match i2 with
    | .variable c2 => returned (h.add cs c1 c2)
    | c2 =>
      match FromInterface c2 with
      | none => .panic fromInterfacePanic cs
      | some b => returned (h.addConstant cs c1 b)
  | c1 =>
    match i2 with
    | .variable c2 =>
      match FromInterface c1 with
      | none => .panic fromInterfacePanic cs
      | some b => returned (h.addConstant cs c2 b)
    | _ => .panic "invalid type" cs

/-- The loop of `CS.ADD` over the operands after the second. -/
def CS.addRest (h : Helpers) (cs : CS) (res : Variable) : List Operand → Outcome Variable
  | [] => .ok res cs
  | i :: rest =>
    match CS.addPair h cs (.variable res) i with
    | .ok res' cs' => CS.addRest h cs' res' rest
    | .panic m cs' => .panic m cs'

/-- The method `CS.ADD`. -/
def CS.ADD (h : Helpers) (cs : CS) (i1 i2 : Operand) (rest : List Operand) :
    Outcome Variable :=
  match CS.addPair h cs i1 i2 with
  | .ok res cs' => CS.addRest h cs' res rest
  | .panic m cs' => .panic m cs'

/-- The method `CS.SUB`: in the branch of a variable first operand the inner switch has
the cases `Variable` and `big.Int` and no default, so that every other second operand
falls through to the panic at the end. -/
def CS.SUB (h : Helpers) (cs : CS) (i1 i2 : Operand) : Outcome Variable :=
  match i1 with
  | .variable c1 =>
    match i2 with
    | .variable c2 => returned (h.sub cs c1 c2)
    | .bigInt c2 => returned (h.subConstant cs c1 c2)
    | _ => .panic "invalid type" cs
  | c1 =>
    match FromInterface c1 with
    | none => .panic fromInterfacePanic cs
    | some _c1 =>
      match i2 with
      | .variable c2 => returned (h.subConstraint cs _c1 c2)
      | _ => .panic "invalid type" cs

/-- The closure `mul` of `CS.MUL`. -/
def CS.mulPair (h : Helpers) (cs : CS) (i1 i2 : Operand) : Outcome Variable :=
  match i1 with
  | .linearCombination c1 =>
    match i2 with
    | .linearCombination c2 => returned (h.mullc cs c1 c2)
    | c2 => returned (h.mullcinterface cs c1 c2)
  | .variable c1 =>
    match i2 with
    | .variable c2 => returned (h.mul cs c1 c2)
    | .linearCombination c2 => returned (h.mullcinterface cs c2 (.variable c1))
    | c2 =>
      match FromInterface c2 with
      | none => .panic fromInterfacePanic cs
      | some b => returned (h.mulConstant cs c1 b)
  | c1 =>
    match i2 with
    | .variable c2 =>
      match FromInterface c1 with
      | none => .panic fromInterfacePanic cs
      | some b => returned (h.mulConstant cs c2 b)
    | _ => .panic "invalid type" cs

/-- The loop of `CS.MUL` over the operands after the second. -/
def CS.mulRest (h : Helpers) (cs : CS) (res : Variable) : List Operand → Outcome Variable
  | [] => .ok res cs
  | i :: rest =>
    match CS.mulPair h cs (.variable res) i with
    | .ok res' cs' => CS.mulRest h cs' res' rest
    | .panic m cs' => .panic m cs'

/-- The method `CS.MUL`. -/
def CS.MUL (h : Helpers) (cs : CS) (i1 i2 : Operand) (rest : List Operand) :
    Outcome Variable :=
  match CS.mulPair h cs i1 i2 with
  | .ok res cs' => CS.mulRest h cs' res rest
  | .panic m cs' => .panic m cs'

/-- The method `CS.DIV`. -/
def CS.DIV (h : Helpers) (cs : CS) (i1 i2 : Operand) : Outcome Variable :=
  match i1 with
  | .linearCombination c1 =>
    match i2 with
    | .linearCombination c2 => returned (h.divlc cs c1 c2)
    | _ => .panic "invalid type; only support linear expression DIV linear expression" cs
  | .variable c1 =>
    match i2 with
    | .variable c2 => returned (h.div cs c1 c2)
    | c2 =>
      match FromInterface c2 with
      | none => .panic fromInterfacePanic cs
      | some tmp => returned (h.divConstantRight cs c1 tmp)
  | c1 =>
    match i2 with
    | .variable c2 =>
      match FromInterface c1 with
      | none => .panic fromInterfacePanic cs
      | some tmp => returned (h.divConstantLeft cs tmp c2)
    | _ => .panic "invalid type" cs

/-- The method `CS.MUSTBE_EQ`. -/
def CS.MUSTBE_EQ (h : Helpers) (cs : CS) (i1 i2 : Operand) : Outcome Unit :=
  match i1 with
  | .variable c1 =>
    match i2 with
    | .variable c2 => .ok () (h.equal cs c1 c2)
    | _ =>
      match FromInterface i2 with
      | none => .panic fromInterfacePanic cs
      | some b2 => .ok () (h.equalConstant cs c1 b2)
  | _ =>
    match FromInterface i1 with
    | none => .panic fromInterfacePanic cs
    | some b1 =>
      match i2 with
      | .variable c2 => .ok () (h.equalConstant cs c2 b1)
      | _ => .panic "invalid type: MUSTBE_EQ takes Variables and big.Int only" cs

/-- The method `CS.Tag`; `none` stands for the panic `duplicate tag`. The loop variable
`v` of the source shadows the parameter inside the loop only. -/
def CS.Tag (cs : CS) (v : Variable) (tag : String) : Option CS :=
  if cs.wireTags.any (fun e => e.2.any (fun t => decide (tag = t))) then none
  else
    let cID := v.id
    let tags := (cs.wireTags.get cID).getD []
    let tags := tags ++ [tag]
    some { cs with wireTags := cs.wireTags.set cID tags }

/-- The loop of `CS.TO_BINARY`: each round allocates a wire, boolean constrains it and
appends its id to the bits of the expression. -/
def CS.unpackLoop (cs : CS) (bits : List Variable) (ids : List Nat) :
    Nat → CS × List Variable × List Nat
  | 0 => (cs, bits, ids)
  | n + 1 =>
    let r := cs.addConstraint none
    let cs2 := r.2.MUSTBE_BOOLEAN r.1
    CS.unpackLoop cs2 (bits ++ [r.1]) (ids ++ [r.1.id]) n

/-- The method `CS.TO_BINARY`. The expression is appended to `cs.moExpressions` by
pointer before the loop fills its bits, so the registered gate holds the bits of the
finished loop; nothing else is appended to that list meanwhile. -/
def CS.TO_BINARY (cs : CS) (c : Variable) (nbBits : Nat) : List Variable × CS :=
  let r := cs.unpackLoop [] [] nbBits
  (r.2.1,
    { r.1 with moExpressions := r.1.moExpressions ++ [.unpackExpression r.2.2 c.id] })

/-- Modelled from the spec: the type `attrVisibility`, whose declaration is not among the
sources; the values are those that the leaf handler of `Compile` tests. -/
inductive attrVisibility where
  | unset
  | secret
  | public
deriving DecidableEq, Repr

/-- The argument `tInput` of a leaf handler, a `reflect.Value` holding a `Variable`:
whether it can be set, and the variable it holds. -/
structure Leaf where
  canSet : Bool
  value : Variable
deriving DecidableEq, Repr

/-- The result of a call of the leaf handler: it returns an error value (`nil` on
success), with the leaf and the constraint system as it leaves them, or it panics. -/
inductive HandlerOutcome where
  | returned (err : Option String) (tInput : Leaf) (cs : CS)
  | panicked
deriving DecidableEq, Repr

/-- The closure `handler` of `Compile`. -/
def Compile.handler (cs : CS) (visibility : attrVisibility) (name : String)
    (tInput : Leaf) : HandlerOutcome :=
  if tInput.canSet then
    let v := tInput.value
    if v.constraintID ≠ 0 then
      .returned (some "circuit was already compiled") tInput cs
    else if v.val ≠ none then
      .returned (some "circuit has some assigned values, can't compile") tInput cs
    else
      match visibility with
      | .unset | .secret =>
        match cs.SECRET_INPUT name with
        | none => .panicked
        | some r => .returned none { tInput with value := r.1 } r.2
      | .public =>
        match cs.PUBLIC_INPUT name with
        | none => .panicked
        | some r => .returned none { tInput with value := r.1 } r.2
  else
    .returned (some ("can't set val " ++ name)) tInput cs

/-! ## Specification-level vocabulary for the API -/

/-- The operand is a constant: `backend.FromInterface` converts it. -/
def Operand.isConstant (i : Operand) : Prop := ∃ b, FromInterface i = some b

/-- The operand is neither a `Variable` nor a `LinearCombination`. -/
def Operand.isPlain (i : Operand) : Prop :=
  (∀ v, i ≠ .variable v) ∧ (∀ l, i ≠ .linearCombination l)

/-- The tag list of a wire: the entry of the tag registry, empty when there is none. -/
def CS.tagsOf (cs : CS) (id : Nat) : List String := (cs.wireTags.get id).getD []

/-- The label occurs in the tag list of some wire of the system. -/
def CS.isTagged (cs : CS) (tag : String) : Prop := ∃ e ∈ cs.wireTags, tag ∈ e.2

/-- All the labels of the tag registry, wire after wire. -/
def allTags (m : GoMap Nat (List String)) : List String :=
  match m with
  | [] => []
  | e :: rest => e.2 ++ allTags rest

/-- One call `Tag(v, tag)` of a sequence of calls: a call that panics leaves the system
as it was. -/
def CS.tagStep (cs : CS) (call : Variable × String) : CS :=
  match cs.Tag call.1 call.2 with
  | some cs' => cs'
  | none => cs

/-- A sequence of `Tag` calls, in order. -/
def CS.tagAll (cs : CS) (calls : List (Variable × String)) : CS :=
  calls.foldl CS.tagStep cs

/-- The weighted sum of the values of the bit wires, first bit least significant. -/
def bitSum (w : Nat → Int) : List Nat → Int
  | [] => 0
  | b :: rest => w b + 2 * bitSum w rest

/-- The semantics of the Unpack gate: every bit wire holds 0 or 1 and the weighted sum of
the bits is the value of the unpacked wire. -/
def unpackHolds (w : Nat → Int) (bits : List Nat) (res : Nat) : Prop :=
  (∀ b ∈ bits, w b = 0 ∨ w b = 1) ∧ bitSum w bits = w res

/-- The semantics of the Pack gate: the packed wire holds the weighted sum of the bits. -/
def packHolds (w : Nat → Int) (bits : List Nat) (r : Nat) : Prop :=
  w r = bitSum w bits

/-- A sample of helper methods, to run the API on concrete inputs. The linear operations
allocate a wire governed by the linear combination that the spec describes; the bilinear
ones, whose lowering is not among the sources, allocate the wire of their result only;
the two equalities record the linear combination that must vanish. -/
def sampleHelpers : Helpers :=
  { add := fun cs a b =>
      cs.addConstraint (some (.linearExpression [cs.term a.id 1, cs.term b.id 1]))
    addConstant := fun cs a k =>
      cs.addConstraint (some (.linearExpression [cs.term a.id 1, cs.term oneWireID k]))
    sub := fun cs a b =>
      cs.addConstraint (some (.linearExpression [cs.term a.id 1, cs.term b.id (-1)]))
    subConstant := fun cs a k =>
      cs.addConstraint (some (.linearExpression [cs.term a.id 1, cs.term oneWireID (-k)]))
    subConstraint := fun cs k a =>
      cs.addConstraint (some (.linearExpression [cs.term oneWireID k, cs.term a.id (-1)]))
    mul := fun cs _ _ => cs.addConstraint none
    mulConstant := fun cs a k =>
      cs.addConstraint (some (.linearExpression [cs.term a.id k]))
    mullc := fun cs _ _ => cs.addConstraint none
    mullcinterface := fun cs _ _ => cs.addConstraint none
    div := fun cs _ _ => cs.addConstraint none
    divlc := fun cs _ _ => cs.addConstraint none
    divConstantRight := fun cs _ _ => cs.addConstraint none
    divConstantLeft := fun cs _ _ => cs.addConstraint none
    equal := fun cs a b =>
      { cs with noExpressions := cs.noExpressions ++
          [.linearExpression [cs.term a.id 1, cs.term b.id (-1)]] }
    equalConstant := fun cs a k =>
      { cs with noExpressions := cs.noExpressions ++
          [.linearExpression [cs.term a.id 1, cs.term oneWireID (-k)]] } }

/-- The assignment of values to the wires of `sampleCS` after `TO_BINARY` of wire 1 on
three bits and `FROM_BINARY` of the bits: wire 1 holds 5, the bit wires 2, 3, 4 hold
1, 0, 1 and the packed wire 5 holds 5. -/
def sampleBits : Nat → Int := fun i =>
  if i = 1 then 5 else if i = 2 then 1 else if i = 3 then 0 else if i = 4 then 1
  else if i = 5 then 5 else 0

/-! ## `frontend`: `Save` and `ToAssignment` -/

/-- The curve identifiers `gurvy.ID` (external library `gurvy`); `UNKNOWN` marks a generic
R1CS, bound to no curve. -/
inductive ID where
  | UNKNOWN
  | BN256
  | BLS377
  | BLS381
deriving DecidableEq, Repr

/-- The function `Save`. The interface `r1cs.R1CS` is a type `ρ` with its method
`GetCurveID`, and the serialization writer `encoding.Write`, which is not among the
sources, is a parameter: it acts on the outside world `W` (the file system) and returns
an error value, `nil` on success. -/
def Save {ρ W : Type} (GetCurveID : ρ → ID)
    (Write : W → String → ρ → ID → Option String × W)
    (world : W) (r1cs : ρ) (path : String) : Option String × W :=
  if GetCurveID r1cs = ID.UNKNOWN then
    (some "trying to serialize untyped R1CS", world)
  else
    Write world path r1cs (GetCurveID r1cs)

/-- A sample of the method `GetCurveID`: the generic R1CS is bound to no curve, the output
of `toBLS381` to BLS381. -/
def sampleCurveID : UntypedR1CS ⊕ R1CS → ID
  | .inl _ => ID.UNKNOWN
  | .inr _ => ID.BLS381

/-- A sample writer: the world is the list of the files written, each with its path and
curve identifier; the write always succeeds. -/
def sampleWrite (world : List (String × ID)) (path : String) (_r1cs : UntypedR1CS ⊕ R1CS)
    (curveID : ID) : Option String × List (String × ID) :=
  (none, world ++ [(path, curveID)])

/-- One leaf that `parseType` visits: the visibility and the name it passes to the leaf
handler, and the leaf itself. -/
structure VisitedLeaf where
  visibility : attrVisibility
  name : String
  tInput : Leaf
deriving DecidableEq, Repr

/-- Modelled from the spec: `parseType`, which is not among the sources. The circuit
description is given as the list of the leaves that the traversal reaches, in depth-first
order, excluded leaves left out; the handler is called on each in turn, with the state
that it closes over, and the first error it returns ends the traversal. -/
def parseType {σ : Type} (handler : σ → attrVisibility → String → Leaf → Option String × σ) :
    σ → List VisitedLeaf → Option String × σ
  | s, [] => (none, s)
  | s, l :: rest =>
    match handler s l.visibility l.name l.tInput with
    | (some err, s') => (some err, s')
    | (none, s') => parseType handler s' rest

/-- The closure `extractHandler` of `ToAssignment`; the state is the map `toReturn`. -/
def extractHandler (toReturn : GoMap String Int) (_visibility : attrVisibility)
    (name : String) (tInput : Leaf) : Option String × GoMap String Int :=
  let v := tInput.value
  match v.val with
  | none => (some (name ++ " has no assigned value."), toReturn)
  | some x => (none, toReturn.set name x)

/-- The function `ToAssignment`: the map and the error of the traversal. -/
def ToAssignment (circuit : List VisitedLeaf) : GoMap String Int × Option String :=
  let r := parseType extractHandler [] circuit
  (r.2, r.1)

/-- A circuit description in which two leaves carry the name `x`, with the values 1
and 2. -/
def sampleDuplicate : List VisitedLeaf :=
  [⟨.unset, "x", ⟨true, ⟨0, some 1⟩⟩⟩, ⟨.unset, "x", ⟨true, ⟨0, some 2⟩⟩⟩]

/-- A circuit description with the leaves `a` and `b`, holding 3 and 9. -/
def sampleAssigned : List VisitedLeaf :=
  [⟨.unset, "a", ⟨true, ⟨0, some 3⟩⟩⟩, ⟨.public, "b", ⟨true, ⟨0, some 9⟩⟩⟩]

/-! ## `gadgets/algebra/fields`: `Fp6Elmt` -/

/-- The struct `Fp6Elmt`, three coordinates of type `Fp2Elmt`; the values of `Fp2Elmt` are
taken in a type `F`. -/
structure Fp6Elmt (F : Type) where
  B0 : F
  B1 : F
  B2 : F
deriving DecidableEq, Repr

/-- The struct `Extension`, of which `fp6.go` reads the field `vCube`. -/
structure Extension (F : Type) where
  vCube : F

/-- The methods of `Fp2Elmt` that `fp6.go` calls and that are not among the sources, taken
as parameters, each as the value it leaves in its receiver. -/
structure Fp2Ops (F : Type) where
  Mul : Extension F → F → F → F
  Add : F → F → F
  MulByIm : Extension F → F → F

/-- The memory in which the `Fp6Elmt` values live: the methods take pointers, and two
pointers may be the same address. -/
abbrev Fp6Memory (F : Type) := Nat → Fp6Elmt F

/-- The assignment `p.B0 = x`. -/
def Fp6Memory.setB0 {F : Type} (m : Fp6Memory F) (p : Nat) (x : F) : Fp6Memory F :=
  fun q => if q = p then { m q with B0 := x } else m q

/-- The assignment `p.B1 = x`. -/
def Fp6Memory.setB1 {F : Type} (m : Fp6Memory F) (p : Nat) (x : F) : Fp6Memory F :=
  fun q => if q = p then { m q with B1 := x } else m q

/-- The assignment `p.B2 = x`. -/
def Fp6Memory.setB2 {F : Type} (m : Fp6Memory F) (p : Nat) (x : F) : Fp6Memory F :=
  fun q => if q = p then { m q with B2 := x } else m q

/-- The method `Fp6Elmt.MulByNonResidue`, with receiver `e` and argument `e1`, statement
by statement; `res` is a local variable. -/
def Fp6Elmt.MulByNonResidue {F : Type} (ops : Fp2Ops F) (m : Fp6Memory F) (e e1 : Nat)
    (ext : Extension F) : Fp6Memory F :=
  let resB0 := ops.Mul ext (m e1).B2 ext.vCube
  let m1 := m.setB1 e (m e1).B0
  let m2 := m1.setB2 e (m1 e1).B1
  let m3 := m2.setB0 e resB0
  m3

/-- The method `Fp6Elmt.MulByFp2`, with receiver `e` and arguments `e1` and the value `e2`;
`res` is a local variable. -/
def Fp6Elmt.MulByFp2 {F : Type} (ops : Fp2Ops F) (m : Fp6Memory F) (e e1 : Nat) (e2 : F)
    (ext : Extension F) : Fp6Memory F :=
  let resB0 := ops.Mul ext (m e1).B0 e2
  let resB1 := ops.Mul ext (m e1).B1 e2
  let resB2 := ops.Mul ext (m e1).B2 e2
  let m1 := m.setB0 e resB0
  let m2 := m1.setB1 e resB1
  let m3 := m2.setB2 e resB2
  m3

/-- The method `Fp6Elmt.Mul`, with receiver `e` and arguments `e1` and `e2`, statement by
statement; the nine products are local variables. -/
def Fp6Elmt.Mul {F : Type} (ops : Fp2Ops F) (m : Fp6Memory F) (e e1 e2 : Nat)
    (ext : Extension F) : Fp6Memory F :=
  let ad := ops.Mul ext (m e1).B0 (m e2).B0
  let bf := ops.Mul ext (m e1).B1 (m e2).B2
  let bf := ops.MulByIm ext bf
  let ce := ops.Mul ext (m e1).B2 (m e2).B1
  let ce := ops.MulByIm ext ce
  let cf := ops.Mul ext (m e1).B2 (m e2).B2
  let cf := ops.MulByIm ext cf
  let ae := ops.Mul ext (m e1).B0 (m e2).B1
  let bd := ops.Mul ext (m e1).B1 (m e2).B0
  let af := ops.Mul ext (m e1).B0 (m e2).B2
  let be := ops.Mul ext (m e1).B1 (m e2).B1
  let cd := ops.Mul ext (m e1).B2 (m e2).B0
  let m1 := m.setB0 e (ops.Add ad bf)
  let m2 := m1.setB0 e (ops.Add (m1 e).B0 ce)
  let m3 := m2.setB1 e (ops.Add cf ae)
  let m4 := m3.setB1 e (ops.Add (m3 e).B1 bd)
  let m5 := m4.setB2 e (ops.Add af be)
  let m6 := m5.setB2 e (ops.Add (m5 e).B2 cd)
  m6

/-- The operations of `Fp2Elmt` read in a commutative ring: product, sum, and for
`MulByIm` the product by the non-residue `xi`. -/
def ringOps {F : Type} [CommRing F] (xi : F) : Fp2Ops F :=
  { Mul := fun _ a b => a * b
    Add := fun a b => a + b
    MulByIm := fun _ a => xi * a }

/-- A memory over the integers in which every address holds the element (1, 2, 3). -/
def sampleMemory : Fp6Memory Int := fun _ => ⟨1, 2, 3⟩

/-! ## Specification-level vocabulary for the coefficient table -/

/-- The terms of the constraints in the order of the traversal: constraint after
constraint, and within a constraint `L`, then `R`, then `O`. -/
def allTerms : List R1C → List Term
  | [] => []
  | c :: cs => c.L ++ c.R ++ c.O ++ allTerms cs

/-- The reduced value that a term references in the coefficient table, when it is none of
the special values -1, 0, 1, 2. -/
def referenced (coefficients : List Int) (t : Term) : Option Element :=
  match t.special with
  | some _ => none
  | none =>
    match coefficients[t.coeffID]? with
    | none => none
    | some b => if specialOf (Element.SetBigInt b) = none then some (Element.SetBigInt b) else none

/-- The list with, of each of its values, the first occurrence only. -/
def firstOccurrences {α : Type} [DecidableEq α] : List α → List α
  | [] => []
  | x :: xs => x :: (firstOccurrences xs).filter (fun y => decide (y ≠ x))

/-- The table that the specification describes: the distinct reduced values outside
-1, 0, 1, 2 that the terms reference, in the order of their first occurrence. -/
def expectedTable (r1cs : UntypedR1CS) : List Element :=
  firstOccurrences ((allTerms r1cs.Constraints).filterMap (referenced r1cs.Coefficients))

/-- What one call of `getCoeffIdx` does to the table: a referenced value that is not in
the table yet is appended. -/
def tableStep (coefficients : List Int) (table : List Element) (t : Term) : List Element :=
  match referenced coefficients t with
  | none => table
  | some e => if e ∈ table then table else table ++ [e]

/-! ## Lemmas: Go maps -/

theorem GoMap.get_set_self {κ ν : Type} [DecidableEq κ] (m : GoMap κ ν) (k : κ) (v : ν) :
    GoMap.get (GoMap.set m k v) k = some v := by
  induction m with
  | nil => simp [GoMap.set, GoMap.get]
  | cons a m ih =>
    obtain ⟨k', v'⟩ := a
    by_cases h : k' = k
    · simp [GoMap.set, GoMap.get, h]
    · simp [GoMap.set, GoMap.get, h, ih]

theorem GoMap.get_set_ne {κ ν : Type} [DecidableEq κ] (m : GoMap κ ν) (k k' : κ) (v : ν)
    (hne : k' ≠ k) :
    GoMap.get (GoMap.set m k v) k' = GoMap.get m k' := by
  have hne' : ¬ k = k' := fun e => hne e.symm
  induction m with
  | nil => simp [GoMap.set, GoMap.get, hne']
  | cons a m ih =>
    obtain ⟨k₀, v₀⟩ := a
    by_cases h : k₀ = k
    · subst h
      simp [GoMap.set, GoMap.get, hne']
    · by_cases h2 : k₀ = k'
      · subst h2
        simp [GoMap.set, GoMap.get, h]
      · simp [GoMap.set, GoMap.get, h, h2, ih]

/-! ## Lemmas: the lookup key is injective -/

theorem bytesBE_length (n e : Nat) : (bytesBE n e).length = n := by
  induction n generalizing e with
  | zero => simp [bytesBE]
  | succ n ih => simp [bytesBE, ih]

theorem bytesBE_lt (n e : Nat) : ∀ b ∈ bytesBE n e, b < 256 := by
  induction n generalizing e with
  | zero => simp [bytesBE]
  | succ n ih =>
    intro b hb
    simp only [bytesBE, List.mem_append, List.mem_singleton] at hb
    rcases hb with hb | hb
    · exact ih _ b hb
    · omega

theorem bytesBE_inj (n a b : Nat) (ha : a < 256 ^ n) (hb : b < 256 ^ n)
    (h : bytesBE n a = bytesBE n b) : a = b := by
  induction n generalizing a b with
  | zero => simp at ha hb; omega
  | succ n ih =>
    simp only [bytesBE] at h
    have hlen : (bytesBE n (a / 256)).length = (bytesBE n (b / 256)).length := by
      simp [bytesBE_length]
    obtain ⟨h1, h2⟩ := List.append_inj h hlen
    have h3 : a % 256 = b % 256 := by simpa using h2
    have h4 : a / 256 = b / 256 := by
      apply ih _ _ _ _ h1
      · rw [pow_succ] at ha; omega
      · rw [pow_succ] at hb; omega
    omega

theorem hexDigit_inj : ∀ x < 16, ∀ y < 16, hexDigit x = hexDigit y → x = y := by
  decide

theorem hexChars_inj (l l' : List Nat) (hl : ∀ b ∈ l, b < 256) (hl' : ∀ b ∈ l', b < 256)
    (h : hexChars l = hexChars l') : l = l' := by
  induction l generalizing l' with
  | nil =>
    cases l' with
    | nil => rfl
    | cons b bs => simp [hexChars] at h
  | cons a as ih =>
    cases l' with
    | nil => simp [hexChars] at h
    | cons b bs =>
      simp only [hexChars, List.cons.injEq] at h
      obtain ⟨h1, h2, h3⟩ := h
      have ha : a < 256 := hl a (by simp)
      have hb : b < 256 := hl' b (by simp)
      have e1 := hexDigit_inj (a / 16) (by omega) (b / 16) (by omega) h1
      have e2 := hexDigit_inj (a % 16) (by omega) (b % 16) (by omega) h2
      have e3 := ih bs (fun x hx => hl x (by simp [hx])) (fun x hx => hl' x (by simp [hx])) h3
      have : a = b := by omega
      rw [this, e3]

theorem frModulus_lt : frModulus < 256 ^ 32 := by
  unfold frModulus
  norm_num

/-- The lookup key `hex.EncodeToString(e.Bytes())` determines the field element. -/
theorem key_inj (a b : Element) (ha : a < frModulus) (hb : b < frModulus)
    (h : hexEncodeToString (Element.Bytes a) = hexEncodeToString (Element.Bytes b)) : a = b := by
  unfold hexEncodeToString Element.Bytes at h
  have h1 : hexChars (bytesBE 32 a) = hexChars (bytesBE 32 b) := by
    injection h
  have h2 := hexChars_inj _ _ (bytesBE_lt 32 a) (bytesBE_lt 32 b) h1
  exact bytesBE_inj 32 a b (lt_trans ha frModulus_lt) (lt_trans hb frModulus_lt) h2

/-! ## Lemmas: one call of `getCoeffIdx` -/

theorem SetBigInt_lt (b : Int) : Element.SetBigInt b < frModulus := by
  unfold Element.SetBigInt
  have hp : (0 : Int) < (frModulus : Int) := by
    unfold frModulus
    norm_num
  have h1 := Int.emod_lt_of_pos b hp
  have h2 := Int.emod_nonneg b (ne_of_gt hp)
  exact (Int.toNat_lt h2).mpr h1

theorem specialOf_toInt (s : SpecialValue) :
    specialOf (Element.SetBigInt s.toInt) = some s := by
  cases s <;> decide

theorem SpecialValueInt_ne_maxInt (t : Term) (s : SpecialValue) (h : t.special = some s) :
    t.SpecialValueInt ≠ maxInt := by
  unfold Term.SpecialValueInt
  rw [h]
  cases s <;> decide

theorem SpecialValueInt_none (t : Term) (h : t.special = none) :
    t.SpecialValueInt = maxInt := by
  unfold Term.SpecialValueInt
  rw [h]

theorem NewTerm_toInt (c k : Nat) (s : SpecialValue) :
    NewTerm c k s.toInt = ⟨c, k, some s⟩ := by
  cases s <;> rfl

theorem NewTerm_maxInt (c k : Nat) : NewTerm c k maxInt = ⟨c, k, none⟩ := by
  rfl

/-- A term with an inline special value is returned as it is; the state is untouched. -/
theorem getCoeffIdx_inline (coefficients : List Int) (st : CoeffState) (t : Term)
    (s : SpecialValue) (h : t.special = some s) :
    getCoeffIdx coefficients st t = some ((t.constraintID, 0, s.toInt), st) := by
  have h1 := SpecialValueInt_ne_maxInt t s h
  have h2 : t.SpecialValueInt = s.toInt := by
    unfold Term.SpecialValueInt
    rw [h]
  simp only [getCoeffIdx, Term.ConstraintID]
  rw [if_pos h1, h2]

/-- A table coefficient that reduces to a special value is returned inline; the state is
untouched. -/
theorem getCoeffIdx_reduced (coefficients : List Int) (st : CoeffState) (t : Term)
    (b : Int) (s : SpecialValue) (h : t.special = none)
    (hb : coefficients[t.coeffID]? = some b)
    (hs : specialOf (Element.SetBigInt b) = some s) :
    getCoeffIdx coefficients st t = some ((t.constraintID, 0, s.toInt), st) := by
  have h1 := SpecialValueInt_none t h
  simp only [getCoeffIdx, Term.ConstraintID, Term.CoeffID, h1, hb, ne_eq, not_true_eq_false,
    if_false]
  unfold specialOf at hs
  by_cases c0 : (Element.SetBigInt b).IsZero = true
  · simp only [c0, if_true] at hs ⊢
    cases hs
    rfl
  · by_cases c1 : (Element.SetBigInt b).Equal eOne = true
    · simp only [c0, c1, if_true, if_false] at hs ⊢
      cases hs
      rfl
    · by_cases c2 : (Element.SetBigInt b).Equal eMinusOne = true
      · simp only [c0, c1, c2, if_true, if_false] at hs ⊢
        cases hs
        rfl
      · by_cases c3 : (Element.SetBigInt b).Equal eTwo = true
        · simp only [c0, c1, c2, c3, if_true, if_false] at hs ⊢
          cases hs
          rfl
        · simp [c0, c1, c2, c3] at hs

/-- A table coefficient that reduces to no special value goes through the lookup table. -/
theorem getCoeffIdx_general (coefficients : List Int) (st : CoeffState) (t : Term)
    (b : Int) (h : t.special = none) (hb : coefficients[t.coeffID]? = some b)
    (hs : specialOf (Element.SetBigInt b) = none) :
    getCoeffIdx coefficients st t =
      match st.lookupTable.get (hexEncodeToString (Element.Bytes (Element.SetBigInt b))) with
      | some idx => some ((t.constraintID, idx, maxInt), st)
      | none =>
        some ((t.constraintID, st.Coefficients.length, maxInt),
          { Coefficients := st.Coefficients ++ [Element.SetBigInt b]
            lookupTable := st.lookupTable.set
              (hexEncodeToString (Element.Bytes (Element.SetBigInt b)))
              st.Coefficients.length }) := by
  have h1 := SpecialValueInt_none t h
  unfold specialOf at hs
  by_cases c0 : (Element.SetBigInt b).IsZero = true
  · simp [c0] at hs
  · by_cases c1 : (Element.SetBigInt b).Equal eOne = true
    · simp [c0, c1] at hs
    · by_cases c2 : (Element.SetBigInt b).Equal eMinusOne = true
      · simp [c0, c1, c2] at hs
      · by_cases c3 : (Element.SetBigInt b).Equal eTwo = true
        · simp [c0, c1, c2, c3] at hs
        · simp only [getCoeffIdx, Term.ConstraintID, Term.CoeffID, h1, hb, ne_eq,
            not_true_eq_false, if_false, c0, c1, c2, c3, Bool.false_eq_true]

theorem getElem?_of_extends {α : Type} (l l' : List α) (i : Nat) (a : α) (h : l <+: l')
    (hi : l[i]? = some a) : l'[i]? = some a := by
  obtain ⟨t, rfl⟩ := h
  have hlt : i < l.length := by
    by_contra hge
    rw [List.getElem?_eq_none (by omega)] at hi
    cases hi
  rw [List.getElem?_append_left hlt]
  exact hi

theorem TermRel_mono (coefficients : List Int) (T T' : List Element) (t u : Term)
    (h : T <+: T') (hr : TermRel coefficients T t u) : TermRel coefficients T' t u := by
  obtain ⟨h1, b, h2, h3, h4, h5⟩ := hr
  exact ⟨h1, b, h2, h3, h4, fun hn => getElem?_of_extends T T' _ _ h (h5 hn)⟩

theorem Inv_init : CoeffState.Inv ⟨[], []⟩ where
  nodup := List.nodup_nil
  lt := by simp
  notSpecial := by simp
  sound := by simp [GoMap.get]
  complete := by simp

/-- Appending an element that is reduced, not special and absent from the lookup table
keeps the invariant. -/
theorem Inv_append (st : CoeffState) (e : Element) (hinv : st.Inv) (hlt : e < frModulus)
    (hs : specialOf e = none)
    (hl : st.lookupTable.get (hexEncodeToString (Element.Bytes e)) = none) :
    CoeffState.Inv
      { Coefficients := st.Coefficients ++ [e]
        lookupTable := st.lookupTable.set (hexEncodeToString (Element.Bytes e))
          st.Coefficients.length } := by
  have hnotin : e ∉ st.Coefficients := by
    intro hmem
    obtain ⟨idx, hidx⟩ := List.mem_iff_getElem?.mp hmem
    have := hinv.complete e idx hidx
    rw [hl] at this
    cases this
  constructor
  · show (st.Coefficients ++ [e]).Nodup
    rw [List.nodup_append]
    refine ⟨hinv.nodup, List.nodup_singleton e, ?_⟩
    intro a ha hb
    rw [List.mem_singleton] at hb
    exact hnotin (hb ▸ ha)
  · intro a ha
    rcases List.mem_append.mp ha with h | h
    · exact hinv.lt a h
    · rw [List.mem_singleton] at h
      rw [h]
      exact hlt
  · intro a ha
    rcases List.mem_append.mp ha with h | h
    · exact hinv.notSpecial a h
    · rw [List.mem_singleton] at h
      rw [h]
      exact hs
  · intro a idx ha hget
    show (st.Coefficients ++ [e])[idx]? = some a
    by_cases hk : hexEncodeToString (Element.Bytes a) = hexEncodeToString (Element.Bytes e)
    · have hae : a = e := key_inj a e ha hlt hk
      subst hae
      rw [GoMap.get_set_self] at hget
      cases hget
      simp
    · rw [GoMap.get_set_ne _ _ _ _ hk] at hget
      exact getElem?_of_extends _ _ _ _ (List.prefix_append _ _) (hinv.sound a idx ha hget)
  · intro a idx hidx
    have hidx' : (st.Coefficients ++ [e])[idx]? = some a := hidx
    by_cases hi : idx < st.Coefficients.length
    · rw [List.getElem?_append_left hi] at hidx'
      have hmem : a ∈ st.Coefficients := List.mem_iff_getElem?.mpr ⟨idx, hidx'⟩
      have hk : hexEncodeToString (Element.Bytes a) ≠ hexEncodeToString (Element.Bytes e) := by
        intro hk
        have hae : a = e := key_inj a e (hinv.lt a hmem) hlt hk
        exact hnotin (hae ▸ hmem)
      show GoMap.get (GoMap.set _ _ _) _ = some idx
      rw [GoMap.get_set_ne _ _ _ _ hk]
      exact hinv.complete a idx hidx'
    · rw [List.getElem?_append_right (by omega)] at hidx'
      have h0 : idx - st.Coefficients.length = 0 := by
        by_contra hne
        rw [List.getElem?_eq_none (by simp; omega)] at hidx'
        cases hidx'
      rw [h0] at hidx'
      have hae : e = a := by simpa using hidx'
      have hidx2 : idx = st.Coefficients.length := by omega
      subst hae
      show GoMap.get (GoMap.set _ _ _) _ = some idx
      rw [GoMap.get_set_self, hidx2]

/-- What one call of `getCoeffIdx` on a term with a valid coefficient index does: it
succeeds, keeps the invariant, only ever appends to the table and emits a term related to
its argument. -/
theorem getCoeffIdx_post (coefficients : List Int) (st : CoeffState) (t : Term) (b : Int)
    (hinv : st.Inv) (hv : termValue coefficients t = some b) :
    ∃ r st', getCoeffIdx coefficients st t = some (r, st') ∧ st'.Inv ∧
      st.Coefficients <+: st'.Coefficients ∧
      TermRel coefficients st'.Coefficients t (NewTerm r.1 r.2.1 r.2.2) := by
  cases hsp : t.special with
  | some s =>
    have hb : b = s.toInt := by
      unfold termValue at hv
      rw [hsp] at hv
      cases hv
      rfl
    refine ⟨_, st, getCoeffIdx_inline coefficients st t s hsp, hinv, List.prefix_refl _, ?_⟩
    rw [NewTerm_toInt]
    refine ⟨rfl, b, hv, ?_, fun _ => rfl, fun h => by cases h⟩
    rw [hb, specialOf_toInt]
  | none =>
    have hb : coefficients[t.coeffID]? = some b := by
      unfold termValue at hv
      rw [hsp] at hv
      exact hv
    cases hs : specialOf (Element.SetBigInt b) with
    | some s =>
      refine ⟨_, st, getCoeffIdx_reduced coefficients st t b s hsp hb hs, hinv,
        List.prefix_refl _, ?_⟩
      rw [NewTerm_toInt]
      exact ⟨rfl, b, hv, hs.symm, fun _ => rfl, fun h => by cases h⟩
    | none =>
      have hg := getCoeffIdx_general coefficients st t b hsp hb hs
      cases hl : st.lookupTable.get (hexEncodeToString (Element.Bytes (Element.SetBigInt b))) with
      | some idx =>
        rw [hl] at hg
        refine ⟨_, st, hg, hinv, List.prefix_refl _, ?_⟩
        rw [NewTerm_maxInt]
        exact ⟨rfl, b, hv, hs.symm, fun h => absurd rfl h,
          fun _ => hinv.sound _ idx (SetBigInt_lt b) hl⟩
      | none =>
        rw [hl] at hg
        refine ⟨_, _, hg, Inv_append st _ hinv (SetBigInt_lt b) hs hl,
          List.prefix_append _ _, ?_⟩
        rw [NewTerm_maxInt]
        refine ⟨rfl, b, hv, hs.symm, fun h => absurd rfl h, fun _ => ?_⟩
        show (st.Coefficients ++ [Element.SetBigInt b])[st.Coefficients.length]? = _
        simp

/-! ## Lemmas: the loops of `toBLS381` -/

theorem convertExpression_post (coefficients : List Int) (ts : List Term) :
    ∀ st : CoeffState, st.Inv → (∀ t ∈ ts, ∃ b, termValue coefficients t = some b) →
    ∃ out st', convertExpression coefficients st ts = some (out, st') ∧ st'.Inv ∧
      st.Coefficients <+: st'.Coefficients ∧
      List.Forall₂ (TermRel coefficients st'.Coefficients) ts out := by
  induction ts with
  | nil =>
    intro st hinv _
    exact ⟨[], st, rfl, hinv, List.prefix_refl _, List.Forall₂.nil⟩
  | cons t ts ih =>
    intro st hinv hv
    obtain ⟨b, hb⟩ := hv t (by simp)
    obtain ⟨r, st1, h1, hinv1, hp1, hr1⟩ := getCoeffIdx_post coefficients st t b hinv hb
    obtain ⟨out, st2, h2, hinv2, hp2, hr2⟩ :=
      ih st1 hinv1 (fun t' ht' => hv t' (by simp [ht']))
    refine ⟨NewTerm r.1 r.2.1 r.2.2 :: out, st2, ?_, hinv2, hp1.trans hp2, ?_⟩
    · simp only [convertExpression, h1, h2]
    · exact List.Forall₂.cons (TermRel_mono _ _ _ _ _ hp2 hr1) hr2

theorem Forall₂_TermRel_mono (coefficients : List Int) (T T' : List Element)
    (ts us : List Term) (h : T <+: T')
    (hr : List.Forall₂ (TermRel coefficients T) ts us) :
    List.Forall₂ (TermRel coefficients T') ts us :=
  hr.imp (fun _ _ hab => TermRel_mono coefficients T T' _ _ h hab)

theorem convertConstraint_post (coefficients : List Int) (c : R1C) (st : CoeffState)
    (hinv : st.Inv)
    (hv : ∀ s : Side, ∀ t ∈ c.side s, ∃ b, termValue coefficients t = some b) :
    ∃ d st', convertConstraint coefficients st c = some (d, st') ∧ st'.Inv ∧
      st.Coefficients <+: st'.Coefficients ∧
      ConstraintRel coefficients st'.Coefficients c d := by
  obtain ⟨l, st1, h1, hinv1, hp1, hr1⟩ :=
    convertExpression_post coefficients c.L st hinv (hv .L)
  obtain ⟨r, st2, h2, hinv2, hp2, hr2⟩ :=
    convertExpression_post coefficients c.R st1 hinv1 (hv .R)
  obtain ⟨o, st3, h3, hinv3, hp3, hr3⟩ :=
    convertExpression_post coefficients c.O st2 hinv2 (hv .O)
  refine ⟨{ L := l, R := r, O := o, Solver := c.Solver }, st3, ?_, hinv3,
    (hp1.trans hp2).trans hp3, rfl, ?_⟩
  · simp only [convertConstraint, h1, h2, h3]
  · intro s
    cases s
    · exact Forall₂_TermRel_mono _ _ _ _ _ (hp2.trans hp3) hr1
    · exact Forall₂_TermRel_mono _ _ _ _ _ hp3 hr2
    · exact hr3

theorem ConstraintRel_mono (coefficients : List Int) (T T' : List Element) (c d : R1C)
    (h : T <+: T') (hr : ConstraintRel coefficients T c d) :
    ConstraintRel coefficients T' c d :=
  ⟨hr.1, fun s => Forall₂_TermRel_mono _ _ _ _ _ h (hr.2 s)⟩

theorem convertConstraints_post (coefficients : List Int) (cs : List R1C) :
    ∀ st : CoeffState, st.Inv →
    (∀ c ∈ cs, ∀ s : Side, ∀ t ∈ c.side s, ∃ b, termValue coefficients t = some b) →
    ∃ ds st', convertConstraints coefficients st cs = some (ds, st') ∧ st'.Inv ∧
      st.Coefficients <+: st'.Coefficients ∧
      List.Forall₂ (ConstraintRel coefficients st'.Coefficients) cs ds := by
  induction cs with
  | nil =>
    intro st hinv _
    exact ⟨[], st, rfl, hinv, List.prefix_refl _, List.Forall₂.nil⟩
  | cons c cs ih =>
    intro st hinv hv
    obtain ⟨d, st1, h1, hinv1, hp1, hr1⟩ :=
      convertConstraint_post coefficients c st hinv (hv c (by simp))
    obtain ⟨ds, st2, h2, hinv2, hp2, hr2⟩ :=
      ih st1 hinv1 (fun c' hc' => hv c' (by simp [hc']))
    refine ⟨d :: ds, st2, ?_, hinv2, hp1.trans hp2, ?_⟩
    · simp only [convertConstraints, h1, h2]
    · exact List.Forall₂.cons (ConstraintRel_mono _ _ _ _ _ hp2 hr1) hr2

theorem termValue_of_valid (r1cs : UntypedR1CS) (hv : ValidIndices r1cs) :
    ∀ c ∈ r1cs.Constraints, ∀ s : Side, ∀ t ∈ c.side s,
      ∃ b, termValue r1cs.Coefficients t = some b := by
  intro c hc s t ht
  have hmem : t ∈ c.L ++ c.R ++ c.O := by
    cases s <;> simp only [R1C.side] at ht <;> simp [ht]
  unfold termValue
  cases hsp : t.special with
  | some v => exact ⟨_, rfl⟩
  | none =>
    have hlt := hv c hc t hmem hsp
    exact ⟨r1cs.Coefficients[t.coeffID], by simp [hlt]⟩

/-- The run of `toBLS381` on an R1CS with valid coefficient indices: it returns, the
output table satisfies the invariant, and every output constraint is related to the input
constraint of the same index. -/
theorem toBLS381_post (r1cs : UntypedR1CS) (hv : ValidIndices r1cs) :
    ∃ out, toBLS381 r1cs = some out ∧
      (∃ tbl, CoeffState.Inv ⟨out.Coefficients, tbl⟩) ∧
      List.Forall₂ (ConstraintRel r1cs.Coefficients out.Coefficients)
        r1cs.Constraints out.Constraints := by
  obtain ⟨ds, st, h, hinv, _, hr⟩ :=
    convertConstraints_post r1cs.Coefficients r1cs.Constraints ⟨[], []⟩ Inv_init
      (termValue_of_valid r1cs hv)
  have hout : toBLS381 r1cs = some
      { NbWires := r1cs.NbWires
        NbPublicWires := r1cs.NbPublicWires
        NbPrivateWires := r1cs.NbPrivateWires
        PrivateWires := r1cs.PrivateWires
        PublicWires := r1cs.PublicWires
        WireTags := r1cs.WireTags
        NbConstraints := r1cs.NbConstraints
        NbCOConstraints := r1cs.NbCOConstraints
        Constraints := ds
        Coefficients := st.Coefficients } := by
    simp only [toBLS381, h]
  exact ⟨_, hout, ⟨st.lookupTable, hinv⟩, hr⟩

theorem Forall₂_getElem? {α β : Type} (R : α → β → Prop) (l : List α) (l' : List β)
    (h : List.Forall₂ R l l') (i : Nat) (a : α) (b : β)
    (ha : l[i]? = some a) (hb : l'[i]? = some b) : R a b := by
  induction h generalizing i with
  | nil => simp at ha
  | cons hab _ ih =>
    cases i with
    | zero =>
      simp at ha hb
      subst ha hb
      exact hab
    | succ i =>
      simp at ha hb
      exact ih i ha hb

theorem Forall₂_getElem?_some {α β : Type} (R : α → β → Prop) (l : List α) (l' : List β)
    (h : List.Forall₂ R l l') (i : Nat) (a : α) (ha : l[i]? = some a) :
    ∃ b, l'[i]? = some b ∧ R a b := by
  induction h generalizing i with
  | nil => simp at ha
  | cons hab _ ih =>
    cases i with
    | zero =>
      simp at ha
      subst ha
      exact ⟨_, by simp, hab⟩
    | succ i =>
      simp at ha
      obtain ⟨b, hb, hr⟩ := ih i ha
      exact ⟨b, by simpa using hb, hr⟩

/-- Position-wise reading of the relation between input and output constraints. -/
theorem termAt_rel (R : Term → Term → Prop) (cs ds : List R1C)
    (h : List.Forall₂ (fun c d : R1C => ∀ s : Side, List.Forall₂ R (c.side s) (d.side s)) cs ds)
    (i : Nat) (s : Side) (j : Nat) (t : Term) (ht : termAt cs i s j = some t) :
    ∃ u, termAt ds i s j = some u ∧ R t u := by
  unfold termAt at ht ⊢
  cases hc : cs[i]? with
  | none => simp [hc] at ht
  | some c =>
    rw [hc] at ht
    obtain ⟨d, hd, hcd⟩ := Forall₂_getElem?_some _ cs ds h i c hc
    obtain ⟨u, hu, hr⟩ := Forall₂_getElem?_some R _ _ (hcd s) j t ht
    exact ⟨u, by simp [hd, hu], hr⟩

/-! ## Lemmas: topology, with no assumption on the indices -/

theorem getCoeffIdx_fst (coefficients : List Int) (st st' : CoeffState) (t : Term)
    (r : Nat × Nat × Int) (h : getCoeffIdx coefficients st t = some (r, st')) :
    r.1 = t.constraintID := by
  cases hsp : t.special with
  | some s =>
    rw [getCoeffIdx_inline coefficients st t s hsp] at h
    cases h
    rfl
  | none =>
    cases hb : coefficients[t.coeffID]? with
    | none =>
      have h1 := SpecialValueInt_none t hsp
      simp [getCoeffIdx, Term.CoeffID, h1, hb] at h
    | some b =>
      cases hs : specialOf (Element.SetBigInt b) with
      | some s =>
        rw [getCoeffIdx_reduced coefficients st t b s hsp hb hs] at h
        cases h
        rfl
      | none =>
        rw [getCoeffIdx_general coefficients st t b hsp hb hs] at h
        cases hl : st.lookupTable.get
            (hexEncodeToString (Element.Bytes (Element.SetBigInt b))) with
        | some idx =>
          rw [hl] at h
          cases h
          rfl
        | none =>
          rw [hl] at h
          cases h
          rfl

theorem convertExpression_shape (coefficients : List Int) (ts : List Term) :
    ∀ (st st' : CoeffState) (out : List Term),
      convertExpression coefficients st ts = some (out, st') →
      List.Forall₂ (fun t u : Term => u.constraintID = t.constraintID) ts out := by
  induction ts with
  | nil =>
    intro st st' out h
    simp only [convertExpression, Option.some.injEq, Prod.mk.injEq] at h
    rw [← h.1]
    exact List.Forall₂.nil
  | cons t ts ih =>
    intro st st' out h
    simp only [convertExpression] at h
    cases h1 : getCoeffIdx coefficients st t with
    | none => simp [h1] at h
    | some p =>
      obtain ⟨r, st1⟩ := p
      cases h2 : convertExpression coefficients st1 ts with
      | none => simp [h1, h2] at h
      | some q =>
        obtain ⟨out', st2⟩ := q
        simp only [h1, h2, Option.some.injEq, Prod.mk.injEq] at h
        rw [← h.1]
        exact List.Forall₂.cons (getCoeffIdx_fst coefficients st st1 t r h1)
          (ih st1 st2 out' h2)

theorem convertConstraint_shape (coefficients : List Int) (st st' : CoeffState) (c d : R1C)
    (h : convertConstraint coefficients st c = some (d, st')) : SameShape c d := by
  simp only [convertConstraint] at h
  cases h1 : convertExpression coefficients st c.L with
  | none => simp [h1] at h
  | some p1 =>
    obtain ⟨l, st1⟩ := p1
    cases h2 : convertExpression coefficients st1 c.R with
    | none => simp [h1, h2] at h
    | some p2 =>
      obtain ⟨r, st2⟩ := p2
      cases h3 : convertExpression coefficients st2 c.O with
      | none => simp [h1, h2, h3] at h
      | some p3 =>
        obtain ⟨o, st3⟩ := p3
        simp only [h1, h2, h3, Option.some.injEq, Prod.mk.injEq] at h
        rw [← h.1]
        refine ⟨rfl, fun s => ?_⟩
        cases s
        · exact convertExpression_shape coefficients c.L st st1 l h1
        · exact convertExpression_shape coefficients c.R st1 st2 r h2
        · exact convertExpression_shape coefficients c.O st2 st3 o h3

theorem convertConstraints_shape (coefficients : List Int) (cs : List R1C) :
    ∀ (st st' : CoeffState) (ds : List R1C),
      convertConstraints coefficients st cs = some (ds, st') →
      List.Forall₂ SameShape cs ds := by
  induction cs with
  | nil =>
    intro st st' ds h
    simp only [convertConstraints, Option.some.injEq, Prod.mk.injEq] at h
    rw [← h.1]
    exact List.Forall₂.nil
  | cons c cs ih =>
    intro st st' ds h
    simp only [convertConstraints] at h
    cases h1 : convertConstraint coefficients st c with
    | none => simp [h1] at h
    | some p =>
      obtain ⟨d, st1⟩ := p
      cases h2 : convertConstraints coefficients st1 cs with
      | none => simp [h1, h2] at h
      | some q =>
        obtain ⟨ds', st2⟩ := q
        simp only [h1, h2, Option.some.injEq, Prod.mk.injEq] at h
        rw [← h.1]
        exact List.Forall₂.cons (convertConstraint_shape coefficients st st1 c d h1)
          (ih st1 st2 ds' h2)

/-- What `toBLS381` returns, when it returns: the converted constraints and the table of
the final state, around the copied header fields. -/
theorem toBLS381_some (r1cs : UntypedR1CS) (out : R1CS) (h : toBLS381 r1cs = some out) :
    ∃ ds st, convertConstraints r1cs.Coefficients ⟨[], []⟩ r1cs.Constraints = some (ds, st) ∧
      out =
        { NbWires := r1cs.NbWires
          NbPublicWires := r1cs.NbPublicWires
          NbPrivateWires := r1cs.NbPrivateWires
          PrivateWires := r1cs.PrivateWires
          PublicWires := r1cs.PublicWires
          WireTags := r1cs.WireTags
          NbConstraints := r1cs.NbConstraints
          NbCOConstraints := r1cs.NbCOConstraints
          Constraints := ds
          Coefficients := st.Coefficients } := by
  simp only [toBLS381] at h
  cases hc : convertConstraints r1cs.Coefficients ⟨[], []⟩ r1cs.Constraints with
  | none => simp [hc] at h
  | some p =>
    obtain ⟨ds, st⟩ := p
    simp only [hc, Option.some.injEq] at h
    exact ⟨ds, st, rfl, h.symm⟩

theorem specialOf_some (e : Element) (s : SpecialValue) (h : specialOf e = some s) :
    e = Element.SetBigInt s.toInt := by
  unfold specialOf Element.IsZero Element.Equal at h
  by_cases c0 : e = 0
  · rw [if_pos (by simpa using c0)] at h
    cases h
    rw [c0]
    decide
  · rw [if_neg (by simpa using c0)] at h
    by_cases c1 : e = eOne
    · rw [if_pos (by simpa using c1)] at h
      cases h
      rw [c1]
      decide
    · rw [if_neg (by simpa using c1)] at h
      by_cases c2 : e = eMinusOne
      · rw [if_pos (by simpa using c2)] at h
        cases h
        rw [c2]
        decide
      · rw [if_neg (by simpa using c2)] at h
        by_cases c3 : e = eTwo
        · rw [if_pos (by simpa using c3)] at h
          cases h
          rw [c3]
          decide
        · rw [if_neg (by simpa using c3)] at h
          cases h

theorem specialOf_none_iff (e : Element) :
    specialOf e = none ↔ ∀ s : SpecialValue, e ≠ Element.SetBigInt s.toInt := by
  constructor
  · intro h s hs
    rw [hs, specialOf_toInt] at h
    cases h
  · intro h
    cases hs : specialOf e with
    | none => rfl
    | some s => exact absurd (specialOf_some e s hs) (h s)

theorem getElem?_inj_of_nodup {α : Type} (l : List α) (hn : l.Nodup) (i j : Nat) (a : α)
    (hi : l[i]? = some a) (hj : l[j]? = some a) : i = j := by
  induction l generalizing i j with
  | nil => simp at hi
  | cons x xs ih =>
    rw [List.nodup_cons] at hn
    cases i with
    | zero =>
      cases j with
      | zero => rfl
      | succ j =>
        simp at hi hj
        subst hi
        exact absurd (List.mem_iff_getElem?.mpr ⟨j, hj⟩) hn.1
    | succ i =>
      cases j with
      | zero =>
        simp at hi hj
        subst hj
        exact absurd (List.mem_iff_getElem?.mpr ⟨i, hi⟩) hn.1
      | succ j =>
        simp at hi hj
        rw [ih hn.2 i j hi hj]

/-! ## The specialization pass: deduplication, inline values, denotation, frame -/

theorem termRel_of_post (r1cs : UntypedR1CS) (out : R1CS)
    (hr : List.Forall₂ (ConstraintRel r1cs.Coefficients out.Coefficients)
      r1cs.Constraints out.Constraints)
    (i : Nat) (s : Side) (j : Nat) (t : Term)
    (ht : termAt r1cs.Constraints i s j = some t) :
    ∃ u, termAt out.Constraints i s j = some u ∧
      TermRel r1cs.Coefficients out.Coefficients t u :=
  termAt_rel _ _ _ (hr.imp (fun _ _ h => h.2)) i s j t ht

/-- C1: on a generic R1CS whose terms without inline special value all carry a valid
coefficient index, `toBLS381` returns; any two terms, at any two positions, whose input
coefficients reduce modulo the field modulus to the same value `K` outside -1, 0, 1, 2
are emitted without inline value and with the same coefficient index; the output table
holds `K` at that index and exactly once, and it has no repeated entry. -/
theorem toBLS381_dedup (r1cs : UntypedR1CS) (hv : ValidIndices r1cs) :
    ∃ out, toBLS381 r1cs = some out ∧ out.Coefficients.Nodup ∧
      ∀ (i : Nat) (s : Side) (j : Nat) (i' : Nat) (s' : Side) (j' : Nat) (t t' : Term)
        (b b' : Int),
        termAt r1cs.Constraints i s j = some t →
        termAt r1cs.Constraints i' s' j' = some t' →
        termValue r1cs.Coefficients t = some b →
        termValue r1cs.Coefficients t' = some b' →
        Element.SetBigInt b = Element.SetBigInt b' →
        (∀ sv : SpecialValue, Element.SetBigInt b ≠ Element.SetBigInt sv.toInt) →
        ∃ u u', termAt out.Constraints i s j = some u ∧
          termAt out.Constraints i' s' j' = some u' ∧
          u.special = none ∧ u'.special = none ∧ u.coeffID = u'.coeffID ∧
          out.Coefficients[u.coeffID]? = some (Element.SetBigInt b) ∧
          out.Coefficients.count (Element.SetBigInt b) = 1 := by
  obtain ⟨out, hout, ⟨tbl, hinv⟩, hr⟩ := toBLS381_post r1cs hv
  refine ⟨out, hout, hinv.nodup, ?_⟩
  intro i s j i' s' j' t t' b b' ht ht' hb hb' hbb hK
  obtain ⟨u, hu, _, c, hc, hsp, _, hget⟩ := termRel_of_post r1cs out hr i s j t ht
  obtain ⟨u', hu', _, c', hc', hsp', _, hget'⟩ := termRel_of_post r1cs out hr i' s' j' t' ht'
  have hcb : c = b := by
    rw [hb] at hc
    cases hc
    rfl
  have hcb' : c' = b' := by
    rw [hb'] at hc'
    cases hc'
    rfl
  subst hcb hcb'
  have hnone : specialOf (Element.SetBigInt c) = none := (specialOf_none_iff _).mpr hK
  have hu0 : u.special = none := hsp.trans hnone
  have hu0' : u'.special = none := by
    rw [hsp', ← hbb]
    exact hnone
  have hg : out.Coefficients[u.coeffID]? = some (Element.SetBigInt c) := hget hu0
  have hg' : out.Coefficients[u'.coeffID]? = some (Element.SetBigInt c) := by
    rw [hbb]
    exact hget' hu0'
  refine ⟨u, u', hu, hu', hu0, hu0', ?_, hg, ?_⟩
  · exact getElem?_inj_of_nodup _ hinv.nodup _ _ _ hg hg'
  · exact List.count_eq_one_of_mem hinv.nodup (List.mem_iff_getElem?.mpr ⟨_, hg⟩)

/-- C1, at `sampleR1CS`: the coefficients `5` and `frModulus + 5` of the first constraint
share one index. -/
theorem toBLS381_dedup_witness :
    ValidIndices sampleR1CS ∧
    ∃ out, toBLS381 sampleR1CS = some out ∧ out.Coefficients.Nodup ∧
      ∃ u u', termAt out.Constraints 0 Side.L 0 = some u ∧
        termAt out.Constraints 0 Side.R 0 = some u' ∧
        u.special = none ∧ u'.special = none ∧ u.coeffID = u'.coeffID ∧
        out.Coefficients[u.coeffID]? = some (Element.SetBigInt 5) ∧
        out.Coefficients.count (Element.SetBigInt 5) = 1 := by
  have hv : ValidIndices sampleR1CS := by
    unfold ValidIndices
    decide
  obtain ⟨out, h1, h2, h3⟩ := toBLS381_dedup sampleR1CS hv
  exact ⟨hv, out, h1, h2,
    h3 0 Side.L 0 0 Side.R 0 ⟨1, 0, none⟩ ⟨1, 1, none⟩ 5 ((frModulus : Int) + 5) rfl rfl rfl rfl
      (by decide) (by intro sv; cases sv <;> decide)⟩

/-- C2: a term whose coefficient reduces modulo the field modulus to -1, 0, 1 or 2, given
inline or as an entry of the big-integer table, makes `getCoeffIdx` return that value as
the special value, with coefficient index 0 and the state (table and lookup table) as it
was, in whatever state it is called; in the output of `toBLS381` the term at its position
carries the value inline, and no entry of the output table is 0, 1, -1 or 2 in the
field. -/
theorem toBLS381_special_inline (r1cs : UntypedR1CS) (hv : ValidIndices r1cs) :
    (∀ (st : CoeffState) (t : Term) (b : Int) (sv : SpecialValue),
        termValue r1cs.Coefficients t = some b →
        Element.SetBigInt b = Element.SetBigInt sv.toInt →
        getCoeffIdx r1cs.Coefficients st t = some ((t.constraintID, 0, sv.toInt), st) ∧
        (NewTerm t.constraintID 0 sv.toInt).special = some sv) ∧
    ∃ out, toBLS381 r1cs = some out ∧
      (∀ (i : Nat) (s : Side) (j : Nat) (t : Term) (b : Int) (sv : SpecialValue),
        termAt r1cs.Constraints i s j = some t →
        termValue r1cs.Coefficients t = some b →
        Element.SetBigInt b = Element.SetBigInt sv.toInt →
        ∃ u, termAt out.Constraints i s j = some u ∧ u.special = some sv) ∧
      ∀ e ∈ out.Coefficients, ∀ sv : SpecialValue, e ≠ Element.SetBigInt sv.toInt := by
  refine ⟨?_, ?_⟩
  · intro st t b sv hb hsv
    have hs : specialOf (Element.SetBigInt b) = some sv := by
      rw [hsv]
      exact specialOf_toInt sv
    refine ⟨?_, by rw [NewTerm_toInt]⟩
    cases hsp : t.special with
    | some s =>
      have hbs : b = s.toInt := by
        unfold termValue at hb
        rw [hsp] at hb
        cases hb
        rfl
      have hss : s = sv := by
        rw [hbs, specialOf_toInt] at hs
        cases hs
        rfl
      rw [← hss]
      exact getCoeffIdx_inline _ st t s hsp
    | none =>
      have hb' : r1cs.Coefficients[t.coeffID]? = some b := by
        unfold termValue at hb
        rw [hsp] at hb
        exact hb
      exact getCoeffIdx_reduced _ st t b sv hsp hb' hs
  · obtain ⟨out, hout, ⟨tbl, hinv⟩, hr⟩ := toBLS381_post r1cs hv
    refine ⟨out, hout, ?_, ?_⟩
    · intro i s j t b sv ht hb hsv
      obtain ⟨u, hu, _, c, hc, hsp, _, _⟩ := termRel_of_post r1cs out hr i s j t ht
      refine ⟨u, hu, ?_⟩
      rw [hb] at hc
      cases hc
      rw [hsp, hsv]
      exact specialOf_toInt sv
    · intro e he
      exact (specialOf_none_iff e).mp (hinv.notSpecial e he)

/-- C2, at `sampleR1CS`: the table entry `frModulus + 1` is emitted as the inline
value 1. -/
theorem toBLS381_special_inline_witness :
    ValidIndices sampleR1CS ∧
    getCoeffIdx sampleR1CS.Coefficients ⟨[5], []⟩ ⟨1, 2, none⟩
      = some ((1, 0, 1), ⟨[5], []⟩) := by
  have hv : ValidIndices sampleR1CS := by
    unfold ValidIndices
    decide
  exact ⟨hv, ((toBLS381_special_inline sampleR1CS hv).1 ⟨[5], []⟩ ⟨1, 2, none⟩
    ((frModulus : Int) + 1) SpecialValue.one rfl (by decide)).1⟩

/-- C3: on a generic R1CS with valid coefficient indices, at every term position the
field element denoted by the output term of `toBLS381` is the integer denoted by the
input term at that position, reduced modulo the field modulus. -/
theorem toBLS381_value (r1cs : UntypedR1CS) (hv : ValidIndices r1cs) :
    ∃ out, toBLS381 r1cs = some out ∧
      ∀ (i : Nat) (s : Side) (j : Nat) (t : Term),
        termAt r1cs.Constraints i s j = some t →
        ∃ b u, termValue r1cs.Coefficients t = some b ∧
          termAt out.Constraints i s j = some u ∧
          elementValue out.Coefficients u = some (Element.SetBigInt b) := by
  obtain ⟨out, hout, _, hr⟩ := toBLS381_post r1cs hv
  refine ⟨out, hout, ?_⟩
  intro i s j t ht
  obtain ⟨u, hu, _, b, hb, hsp, _, hget⟩ := termRel_of_post r1cs out hr i s j t ht
  refine ⟨b, u, hb, hu, ?_⟩
  unfold elementValue
  cases hus : u.special with
  | some sv =>
    rw [hus] at hsp
    rw [specialOf_some _ sv hsp.symm]
  | none => exact hget hus

/-- C3, at `sampleR1CS`: the term with table entry `-1` denotes `frModulus - 1`. -/
theorem toBLS381_value_witness :
    ValidIndices sampleR1CS ∧
    ∃ out, toBLS381 sampleR1CS = some out ∧
      ∃ b u, termValue sampleR1CS.Coefficients ⟨2, 3, none⟩ = some b ∧
        termAt out.Constraints 1 Side.R 0 = some u ∧
        elementValue out.Coefficients u = some (Element.SetBigInt b) := by
  have hv : ValidIndices sampleR1CS := by
    unfold ValidIndices
    decide
  obtain ⟨out, h1, h2⟩ := toBLS381_value sampleR1CS hv
  exact ⟨hv, out, h1, h2 1 Side.R 0 ⟨2, 3, none⟩ rfl⟩

/-- C4: whenever `toBLS381` returns (and it does on valid coefficient indices), the
output has as many constraints as the input, and the constraint at each index has the
same solver hint, the same number of terms on each of the sides L, R and O, and at each
term position the same wire id as the input constraint at that index. -/
theorem toBLS381_topology (r1cs : UntypedR1CS) :
    (ValidIndices r1cs → ∃ out, toBLS381 r1cs = some out) ∧
    ∀ out, toBLS381 r1cs = some out →
      out.Constraints.length = r1cs.Constraints.length ∧
      ∀ (i : Nat) (c : R1C), r1cs.Constraints[i]? = some c →
        ∃ d, out.Constraints[i]? = some d ∧ d.Solver = c.Solver ∧
          ∀ s : Side, (d.side s).length = (c.side s).length ∧
            ∀ (j : Nat) (t : Term), (c.side s)[j]? = some t →
              ∃ u, (d.side s)[j]? = some u ∧ u.constraintID = t.constraintID := by
  refine ⟨fun hv => ?_, ?_⟩
  · obtain ⟨out, hout, _⟩ := toBLS381_post r1cs hv
    exact ⟨out, hout⟩
  · intro out hout
    obtain ⟨ds, st, hc, rfl⟩ := toBLS381_some r1cs out hout
    have hshape := convertConstraints_shape _ _ _ _ _ hc
    refine ⟨hshape.length_eq.symm, ?_⟩
    intro i c hi
    obtain ⟨d, hd, hsolver, hsides⟩ := Forall₂_getElem?_some _ _ _ hshape i c hi
    refine ⟨d, hd, hsolver, fun s => ⟨(hsides s).length_eq.symm, ?_⟩⟩
    intro j t hj
    exact Forall₂_getElem?_some _ _ _ (hsides s) j t hj

/-- C4, at `sampleR1CS`. -/
theorem toBLS381_topology_witness :
    ValidIndices sampleR1CS ∧ toBLS381 sampleR1CS = some sampleBLS381 ∧
    sampleBLS381.Constraints.length = sampleR1CS.Constraints.length := by
  have hv : ValidIndices sampleR1CS := by
    unfold ValidIndices
    decide
  have hout : toBLS381 sampleR1CS = some sampleBLS381 := by decide
  exact ⟨hv, hout, ((toBLS381_topology sampleR1CS).2 sampleBLS381 hout).1⟩

/-- C5: whenever `toBLS381` returns (and it does on valid coefficient indices), the
output has the total, public and private wire counts, the private and public wire name
tables, the per-wire tags and the two constraint counters of the input. -/
theorem toBLS381_frame (r1cs : UntypedR1CS) :
    (ValidIndices r1cs → ∃ out, toBLS381 r1cs = some out) ∧
    ∀ out, toBLS381 r1cs = some out →
      out.NbWires = r1cs.NbWires ∧
      out.NbPublicWires = r1cs.NbPublicWires ∧
      out.NbPrivateWires = r1cs.NbPrivateWires ∧
      out.PrivateWires = r1cs.PrivateWires ∧
      out.PublicWires = r1cs.PublicWires ∧
      out.WireTags = r1cs.WireTags ∧
      out.NbConstraints = r1cs.NbConstraints ∧
      out.NbCOConstraints = r1cs.NbCOConstraints := by
  refine ⟨fun hv => ?_, ?_⟩
  · obtain ⟨out, hout, _⟩ := toBLS381_post r1cs hv
    exact ⟨out, hout⟩
  · intro out hout
    obtain ⟨ds, st, _, rfl⟩ := toBLS381_some r1cs out hout
    exact ⟨rfl, rfl, rfl, rfl, rfl, rfl, rfl, rfl⟩

/-- C5, at `sampleR1CS`. -/
theorem toBLS381_frame_witness :
    toBLS381 sampleR1CS = some sampleBLS381 ∧
    sampleBLS381.NbWires = sampleR1CS.NbWires ∧
    sampleBLS381.WireTags = sampleR1CS.WireTags := by
  have hout : toBLS381 sampleR1CS = some sampleBLS381 := by decide
  have h := (toBLS381_frame sampleR1CS).2 sampleBLS381 hout
  exact ⟨hout, h.1, h.2.2.2.2.2.1⟩

/-! ## Lemmas: Go maps, fresh keys -/

theorem GoMap.set_of_fresh {κ ν : Type} [DecidableEq κ] (m : GoMap κ ν) (k : κ) (v : ν)
    (h : ∀ e ∈ m, e.1 ≠ k) : GoMap.set m k v = m ++ [(k, v)] := by
  induction m with
  | nil => rfl
  | cons a m ih =>
    obtain ⟨k', v'⟩ := a
    have hk : k' ≠ k := h (k', v') (by simp)
    have hrest : ∀ e ∈ m, e.1 ≠ k := fun e he => h e (by simp [he])
    simp [GoMap.set, hk, ih hrest]

theorem GoMap.get_eq_none_iff {κ ν : Type} [DecidableEq κ] (m : GoMap κ ν) (k : κ) :
    GoMap.get m k = none ↔ ∀ e ∈ m, e.1 ≠ k := by
  induction m with
  | nil => simp [GoMap.get]
  | cons a m ih =>
    obtain ⟨k', v'⟩ := a
    by_cases hk : k' = k
    · simp [GoMap.get, hk]
    · simp [GoMap.get, hk, ih]

theorem GoMap.get_isSome_iff {κ ν : Type} [DecidableEq κ] (m : GoMap κ ν) (k : κ) :
    (∃ v, GoMap.get m k = some v) ↔ ∃ v, (k, v) ∈ m := by
  constructor
  · rintro ⟨v, hv⟩
    by_contra hne
    have hnone : GoMap.get m k = none := by
      rw [GoMap.get_eq_none_iff]
      intro e he hek
      apply hne
      refine ⟨e.2, ?_⟩
      rw [← hek]
      exact he
    rw [hnone] at hv
    cases hv
  · rintro ⟨v, hv⟩
    cases hg : GoMap.get m k with
    | some w => exact ⟨w, rfl⟩
    | none =>
      rw [GoMap.get_eq_none_iff] at hg
      exact absurd rfl (hg (k, v) hv)

/-! ## Lemmas: `MUSTBE_BOOLEAN` and `addConstraint` -/

theorem any_isBooleanFor_iff (l : List Expression) (id : Nat) :
    l.any (fun e => e.isBooleanFor id) = true ↔ Expression.booleanExpression id ∈ l := by
  rw [List.any_eq_true]
  constructor
  · rintro ⟨e, he, hb⟩
    cases e <;> simp [Expression.isBooleanFor] at hb
    rw [hb] at he
    exact he
  · intro h
    exact ⟨_, h, by simp [Expression.isBooleanFor]⟩

theorem isXorExpression_iff (e : Option Expression) :
    isXorExpression e = true ↔ ∃ a b, e = some (.xorExpression a b) := by
  constructor
  · intro h
    match e, h with
    | some (.xorExpression a b), _ => exact ⟨a, b, rfl⟩
  · rintro ⟨a, b, rfl⟩
    rfl

/-- The test of the second loop of `MUSTBE_BOOLEAN`, read on the expression table. -/
theorem any_xor_iff (cs : CS) (id : Nat) :
    cs.constraints.any
        (fun e => decide (e.1 ≠ 0) && (decide (e.1 = id) && isXorExpression e.2.exp)) = true ↔
      id ≠ 0 ∧ cs.isXorOutput id := by
  rw [List.any_eq_true]
  constructor
  · rintro ⟨⟨k, c⟩, he, hb⟩
    simp only [Bool.and_eq_true, decide_eq_true_eq] at hb
    obtain ⟨h0, hk, hx⟩ := hb
    obtain ⟨a, b, hab⟩ := (isXorExpression_iff _).mp hx
    subst hk
    refine ⟨h0, a, b, ?_⟩
    have hc : c = ⟨some (.xorExpression a b)⟩ := by
      cases c
      simp only [Constraint.mk.injEq]
      exact hab
    rw [← hc]
    exact he
  · rintro ⟨h0, a, b, hab⟩
    refine ⟨_, hab, ?_⟩
    simp [h0, isXorExpression]

/-- The first return of `MUSTBE_BOOLEAN`: a Boolean gate is recorded for the wire. -/
theorem MUSTBE_BOOLEAN_of_gate (cs : CS) (c : Variable) (h : cs.hasBooleanGate c.id) :
    cs.MUSTBE_BOOLEAN c = cs := by
  unfold CS.MUSTBE_BOOLEAN
  rw [if_pos ((any_isBooleanFor_iff _ _).mpr h)]

/-- The second return of `MUSTBE_BOOLEAN`: the wire, other than wire 0, is the output of
an XOR gate. -/
theorem MUSTBE_BOOLEAN_of_xor (cs : CS) (c : Variable) (h0 : c.id ≠ 0)
    (h : cs.isXorOutput c.id) : cs.MUSTBE_BOOLEAN c = cs := by
  unfold CS.MUSTBE_BOOLEAN
  by_cases hb : cs.noExpressions.any (fun e => e.isBooleanFor c.id) = true
  · rw [if_pos hb]
  · rw [if_neg hb, if_pos ((any_xor_iff cs c.id).mpr ⟨h0, h⟩)]

/-- The fall-through of `MUSTBE_BOOLEAN`: a Boolean gate is appended. -/
theorem MUSTBE_BOOLEAN_append (cs : CS) (c : Variable) (hb : ¬ cs.hasBooleanGate c.id)
    (hx : ¬ (c.id ≠ 0 ∧ cs.isXorOutput c.id)) :
    cs.MUSTBE_BOOLEAN c =
      { cs with noExpressions := cs.noExpressions ++ [.booleanExpression c.id] } := by
  unfold CS.MUSTBE_BOOLEAN
  rw [if_neg (fun h => hb ((any_isBooleanFor_iff _ _).mp h)),
    if_neg (fun h => hx ((any_xor_iff cs c.id).mp h))]

/-- In every case `MUSTBE_BOOLEAN` leaves the system as it is or appends one Boolean
gate for the wire. -/
theorem MUSTBE_BOOLEAN_cases (cs : CS) (c : Variable) :
    cs.MUSTBE_BOOLEAN c = cs ∨
    cs.MUSTBE_BOOLEAN c =
      { cs with noExpressions := cs.noExpressions ++ [.booleanExpression c.id] } := by
  by_cases hb : cs.hasBooleanGate c.id
  · exact Or.inl (MUSTBE_BOOLEAN_of_gate cs c hb)
  · by_cases hx : c.id ≠ 0 ∧ cs.isXorOutput c.id
    · exact Or.inl (MUSTBE_BOOLEAN_of_xor cs c hx.1 hx.2)
    · exact Or.inr (MUSTBE_BOOLEAN_append cs c hb hx)

theorem MUSTBE_BOOLEAN_constraints (cs : CS) (c : Variable) :
    (cs.MUSTBE_BOOLEAN c).constraints = cs.constraints ∧
    (cs.MUSTBE_BOOLEAN c).nbConstraints = cs.nbConstraints := by
  rcases MUSTBE_BOOLEAN_cases cs c with h | h <;> rw [h] <;> exact ⟨rfl, rfl⟩

theorem knownBoolean_MUSTBE_BOOLEAN_self (cs : CS) (c : Variable) :
    (cs.MUSTBE_BOOLEAN c).knownBoolean c.id := by
  by_cases hb : cs.hasBooleanGate c.id
  · rw [MUSTBE_BOOLEAN_of_gate cs c hb]
    exact Or.inl hb
  · by_cases hx : c.id ≠ 0 ∧ cs.isXorOutput c.id
    · rw [MUSTBE_BOOLEAN_of_xor cs c hx.1 hx.2]
      exact Or.inr hx.2
    · rw [MUSTBE_BOOLEAN_append cs c hb hx]
      left
      show Expression.booleanExpression c.id ∈ cs.noExpressions ++ [_]
      simp

theorem knownBoolean_MUSTBE_BOOLEAN (cs : CS) (c : Variable) (id : Nat)
    (h : cs.knownBoolean id) : (cs.MUSTBE_BOOLEAN c).knownBoolean id := by
  rcases MUSTBE_BOOLEAN_cases cs c with e | e
  · rw [e]
    exact h
  · rw [e]
    rcases h with h | h
    · left
      show Expression.booleanExpression id ∈ cs.noExpressions ++ [_]
      exact List.mem_append_left _ h
    · exact Or.inr h

theorem addConstraint_constraints (cs : CS) (exp : Option Expression)
    (hA : ∀ e ∈ cs.constraints, e.1 < cs.nbConstraints) :
    (cs.addConstraint exp).2.constraints = cs.constraints ++ [(cs.nbConstraints, ⟨exp⟩)] := by
  show GoMap.set cs.constraints cs.nbConstraints ⟨exp⟩ = _
  exact GoMap.set_of_fresh _ _ _ (fun e he => Nat.ne_of_lt (hA e he))

theorem knownBoolean_addConstraint (cs : CS) (exp : Option Expression) (id : Nat)
    (hA : ∀ e ∈ cs.constraints, e.1 < cs.nbConstraints) (h : cs.knownBoolean id) :
    (cs.addConstraint exp).2.knownBoolean id := by
  rcases h with h | h
  · exact Or.inl h
  · right
    obtain ⟨a, b, hab⟩ := h
    refine ⟨a, b, ?_⟩
    rw [addConstraint_constraints cs exp hA]
    exact List.mem_append_left _ hab

theorem packLoop_constraints (cs : CS) (bits : List Nat) (b : List Variable) :
    (cs.packLoop bits b).1.constraints = cs.constraints ∧
    (cs.packLoop bits b).1.nbConstraints = cs.nbConstraints := by
  induction b generalizing cs bits with
  | nil => exact ⟨rfl, rfl⟩
  | cons c rest ih =>
    simp only [CS.packLoop]
    obtain ⟨h1, h2⟩ := ih (cs.MUSTBE_BOOLEAN c) (bits ++ [c.id])
    obtain ⟨h3, h4⟩ := MUSTBE_BOOLEAN_constraints cs c
    exact ⟨h1.trans h3, h2.trans h4⟩

theorem packLoop_mono (cs : CS) (bits : List Nat) (b : List Variable) (id : Nat)
    (h : cs.knownBoolean id) : (cs.packLoop bits b).1.knownBoolean id := by
  induction b generalizing cs bits with
  | nil => exact h
  | cons c rest ih =>
    simp only [CS.packLoop]
    exact ih _ _ (knownBoolean_MUSTBE_BOOLEAN cs c id h)

theorem packLoop_known (cs : CS) (bits : List Nat) (b : List Variable) :
    ∀ c ∈ b, (cs.packLoop bits b).1.knownBoolean c.id := by
  induction b generalizing cs bits with
  | nil => simp
  | cons c rest ih =>
    intro x hx
    simp only [CS.packLoop]
    rcases List.mem_cons.mp hx with hx | hx
    · rw [hx]
      exact packLoop_mono _ _ _ _ (knownBoolean_MUSTBE_BOOLEAN_self cs c)
    · exact ih _ _ x hx

/-- Allocating a wire keeps every recorded wire id below the allocation counter. -/
theorem Allocated_addConstraint (cs : CS) (exp : Option Expression) (hA : cs.Allocated) :
    (cs.addConstraint exp).2.Allocated := by
  obtain ⟨hA1, hA2, hA3⟩ := hA
  refine ⟨?_, ?_, ?_⟩
  · rw [addConstraint_constraints cs exp hA1]
    intro e he
    rcases List.mem_append.mp he with h | h
    · exact Nat.lt_succ_of_lt (hA1 e h)
    · rw [List.mem_singleton] at h
      rw [h]
      exact Nat.lt_succ_self _
  · exact fun e he => Nat.lt_succ_of_lt (hA2 e he)
  · exact fun e he => Nat.lt_succ_of_lt (hA3 e he)

/-- A boolean assertion keeps every recorded wire id below the allocation counter. -/
theorem Allocated_MUSTBE_BOOLEAN (cs : CS) (c : Variable) (hA : cs.Allocated) :
    (cs.MUSTBE_BOOLEAN c).Allocated := by
  rcases MUSTBE_BOOLEAN_cases cs c with h | h <;> rw [h] <;> exact hA

/-! ## The constraint-building API: selection, boolean assertions, input names -/

/-- What `SELECT` builds on two constant operands: the returned wire is governed by the
linear expression `(x - y) * b + 1 * one`. -/
theorem SELECT_constants (cs : CS) (b : Variable) (x y : Int) :
    ∃ v cs', cs.SELECT b (.bigInt x) (.bigInt y) = some (v, cs') ∧
      cs'.constraints.get v.id =
        some ⟨some (.linearExpression [⟨b.id, x - y⟩, ⟨oneWireID, 1⟩])⟩ ∧
      ∀ w : Nat → Int, evalLinear w [⟨b.id, x - y⟩, ⟨oneWireID, 1⟩] =
        (x - y) * w b.id + w oneWireID := by
  refine ⟨_, _, rfl, ?_, ?_⟩
  · exact GoMap.get_set_self _ _ _
  · intro w
    simp [evalLinear]

/-- C6, at `SELECT(b, 5, 3)` on `sampleCS`: the returned wire is governed by the linear
expression `2 * b + 1 * one`, which is 3 and not `x = 5` when `b = 1`, and 1 and not
`y = 3` when `b = 0`. -/
theorem SELECT_constants_at_5_3 :
    ∃ v cs', CS.SELECT sampleCS ⟨1, none⟩ (.bigInt 5) (.bigInt 3) = some (v, cs') ∧
      cs'.constraints.get v.id = some ⟨some (.linearExpression [⟨1, 2⟩, ⟨0, 1⟩])⟩ ∧
      evalLinear allOnes [⟨1, 2⟩, ⟨0, 1⟩] = 3 ∧
      evalLinear onlyOneWire [⟨1, 2⟩, ⟨0, 1⟩] = 1 :=
  ⟨_, _, rfl, by decide, by decide, by decide⟩

/-- C7: for a wire `w` that has no Boolean gate yet and is not the output of an XOR
gate, the first call of `MUSTBE_BOOLEAN(w)` appends one Boolean gate for `w` and changes
nothing else, one more call leaves the system as the first call left it, and so do `k`
calls for every `k` from 1 upwards: the assertion list then holds exactly one Boolean gate
for `w`. -/
theorem MUSTBE_BOOLEAN_idempotent (cs : CS) (w : Variable) (k : Nat)
    (hb : ¬ cs.hasBooleanGate w.id) (hx : ¬ cs.isXorOutput w.id) (hk : 1 ≤ k) :
    cs.MUSTBE_BOOLEAN w =
      { cs with noExpressions := cs.noExpressions ++ [.booleanExpression w.id] } ∧
    (cs.MUSTBE_BOOLEAN w).MUSTBE_BOOLEAN w = cs.MUSTBE_BOOLEAN w ∧
    (fun s : CS => s.MUSTBE_BOOLEAN w)^[k] cs = cs.MUSTBE_BOOLEAN w ∧
    (((fun s : CS => s.MUSTBE_BOOLEAN w)^[k] cs).noExpressions.count
      (.booleanExpression w.id)) = 1 := by
  have h1 := MUSTBE_BOOLEAN_append cs w hb (fun h => hx h.2)
  have hgate : (cs.MUSTBE_BOOLEAN w).hasBooleanGate w.id := by
    rw [h1]
    show Expression.booleanExpression w.id ∈ cs.noExpressions ++ [_]
    simp
  have h2 := MUSTBE_BOOLEAN_of_gate _ w hgate
  have h3 : (fun s : CS => s.MUSTBE_BOOLEAN w)^[k] cs = cs.MUSTBE_BOOLEAN w := by
    obtain ⟨n, rfl⟩ : ∃ n, k = n + 1 := ⟨k - 1, by omega⟩
    rw [Function.iterate_succ_apply]
    induction n with
    | zero => rfl
    | succ n ih =>
      rw [Function.iterate_succ_apply]
      show (fun s : CS => s.MUSTBE_BOOLEAN w)^[n] ((cs.MUSTBE_BOOLEAN w).MUSTBE_BOOLEAN w) = _
      rw [h2]
      exact ih (by omega)
  refine ⟨h1, h2, h3, ?_⟩
  rw [h3, h1]
  show List.count _ (cs.noExpressions ++ [Expression.booleanExpression w.id]) = 1
  rw [List.count_append, List.count_eq_zero_of_not_mem hb]
  simp

/-- C7, at wire 1 of `sampleCS` and three calls. -/
theorem MUSTBE_BOOLEAN_idempotent_witness :
    ((fun s : CS => s.MUSTBE_BOOLEAN ⟨1, none⟩)^[3] sampleCS).noExpressions.count
      (.booleanExpression 1) = 1 :=
  (MUSTBE_BOOLEAN_idempotent sampleCS ⟨1, none⟩ 3
    (by unfold CS.hasBooleanGate; decide)
    (by
      rintro ⟨a, b, h⟩
      simp [sampleCS, Variable.id] at h)
    (by decide)).2.2.2

/-- C8: for a wire `w` other than wire 0 that is the output of an XOR gate,
`MUSTBE_BOOLEAN(w)` leaves the constraint system as it is; in particular it records no
Boolean gate. -/
theorem MUSTBE_BOOLEAN_skips_xor_output (cs : CS) (w : Variable) (h0 : w.id ≠ 0)
    (hx : cs.isXorOutput w.id) :
    cs.MUSTBE_BOOLEAN w = cs ∧ (cs.MUSTBE_BOOLEAN w).noExpressions = cs.noExpressions := by
  have h := MUSTBE_BOOLEAN_of_xor cs w h0 hx
  exact ⟨h, by rw [h]⟩

/-- C8, at wire 3 of `sampleXorCS`, the output of its XOR gate. -/
theorem MUSTBE_BOOLEAN_skips_xor_output_witness :
    CS.isXorOutput sampleXorCS 3 ∧ CS.MUSTBE_BOOLEAN sampleXorCS ⟨3, none⟩ = sampleXorCS :=
  have hx : CS.isXorOutput sampleXorCS 3 := ⟨1, 2, by decide⟩
  ⟨hx, (MUSTBE_BOOLEAN_skips_xor_output sampleXorCS ⟨3, none⟩ (by decide) hx).1⟩

/-- C9: in a constraint system whose expression table holds allocated wire ids only,
after `XOR(c1, c2)`, after a `SELECT(b, i1, i2)` that returns, after
`SELECT_LUT(c1, c0, table)` and after `FROM_BINARY(bits...)`, every operand that the gate
requires to be boolean is known boolean in the resulting state: it has a Boolean gate in
the assertion list or is the output of an XOR gate. -/
theorem boolean_operands_known (cs : CS)
    (hA : ∀ e ∈ cs.constraints, e.1 < cs.nbConstraints) :
    (∀ c1 c2 : Variable,
      (cs.XOR c1 c2).2.knownBoolean c1.id ∧ (cs.XOR c1 c2).2.knownBoolean c2.id) ∧
    (∀ (b : Variable) (i1 i2 : Operand) (v : Variable) (cs' : CS),
      cs.SELECT b i1 i2 = some (v, cs') → cs'.knownBoolean b.id) ∧
    (∀ (c1 c0 : Variable) (table : List Int),
      (cs.SELECT_LUT c1 c0 table).2.knownBoolean c0.id ∧
      (cs.SELECT_LUT c1 c0 table).2.knownBoolean c1.id) ∧
    (∀ bits : List Variable, ∀ c ∈ bits, (cs.FROM_BINARY bits).2.knownBoolean c.id) := by
  have hA1 : ∀ c : Variable,
      ∀ e ∈ (cs.MUSTBE_BOOLEAN c).constraints, e.1 < (cs.MUSTBE_BOOLEAN c).nbConstraints := by
    intro c
    rw [(MUSTBE_BOOLEAN_constraints cs c).1, (MUSTBE_BOOLEAN_constraints cs c).2]
    exact hA
  have hA2 : ∀ c d : Variable,
      ∀ e ∈ ((cs.MUSTBE_BOOLEAN c).MUSTBE_BOOLEAN d).constraints,
        e.1 < ((cs.MUSTBE_BOOLEAN c).MUSTBE_BOOLEAN d).nbConstraints := by
    intro c d
    rw [(MUSTBE_BOOLEAN_constraints _ d).1, (MUSTBE_BOOLEAN_constraints _ d).2]
    exact hA1 c
  refine ⟨?_, ?_, ?_, ?_⟩
  · intro c1 c2
    constructor
    · exact knownBoolean_addConstraint _ _ _ (hA2 c1 c2)
        (knownBoolean_MUSTBE_BOOLEAN _ c2 _ (knownBoolean_MUSTBE_BOOLEAN_self cs c1))
    · exact knownBoolean_addConstraint _ _ _ (hA2 c1 c2)
        (knownBoolean_MUSTBE_BOOLEAN_self _ c2)
  · intro b i1 i2 v cs' h
    have hk : ∀ exp, ((cs.MUSTBE_BOOLEAN b).addConstraint exp).2.knownBoolean b.id :=
      fun exp => knownBoolean_addConstraint _ exp _ (hA1 b)
        (knownBoolean_MUSTBE_BOOLEAN_self cs b)
    unfold CS.SELECT at h
    split at h
    · split at h
      · cases h
        exact hk _
      · cases h
    · split at h
      · cases h
      · split at h
        · cases h
        · cases h
          exact hk _
  · intro c1 c0 table
    constructor
    · exact knownBoolean_addConstraint _ _ _ (hA2 c0 c1)
        (knownBoolean_MUSTBE_BOOLEAN _ c1 _ (knownBoolean_MUSTBE_BOOLEAN_self cs c0))
    · exact knownBoolean_addConstraint _ _ _ (hA2 c0 c1)
        (knownBoolean_MUSTBE_BOOLEAN_self _ c1)
  · intro bits c hc
    have hP : ∀ e ∈ (cs.packLoop [] bits).1.constraints,
        e.1 < (cs.packLoop [] bits).1.nbConstraints := by
      rw [(packLoop_constraints cs [] bits).1, (packLoop_constraints cs [] bits).2]
      exact hA
    exact knownBoolean_addConstraint _ _ _ hP (packLoop_known cs [] bits c hc)

/-- C9, at `SELECT(b, 5, 3)` on `sampleCS`. -/
theorem boolean_operands_known_witness :
    ∃ v cs', CS.SELECT sampleCS ⟨1, none⟩ (.bigInt 5) (.bigInt 3) = some (v, cs') ∧
      cs'.knownBoolean 1 :=
  ⟨_, _, rfl, (boolean_operands_known sampleCS (by decide)).2.1 ⟨1, none⟩ (.bigInt 5)
    (.bigInt 3) _ _ rfl⟩

/-! ## Input names -/

theorem newConstraintSystem_inv :
    newConstraintSystem.Allocated ∧ newConstraintSystem.NamesInSync := by
  refine ⟨⟨?_, ?_, ?_⟩, ?_⟩
  · intro e he
    simp [newConstraintSystem] at he
    rw [he]
    decide
  · intro e he
    simp [newConstraintSystem] at he
  · intro e he
    simp [newConstraintSystem] at he
  · intro name
    simp [newConstraintSystem, CS.isSecretName, CS.isPublicName]

/-- When `SECRET_INPUT` fails: on the empty name, and on a name of the global name set. -/
theorem SECRET_INPUT_eq_none_iff (cs : CS) (name : String) :
    cs.SECRET_INPUT name = none ↔ name = "" ∨ ∃ u, (name, u) ∈ cs.wireNames := by
  unfold CS.SECRET_INPUT
  by_cases hn : name = ""
  · simp [hn]
  · rw [if_neg hn]
    have hw : (cs.addConstraint none).2.wireNames = cs.wireNames := rfl
    simp only [hw]
    cases hg : GoMap.get cs.wireNames name with
    | some u =>
      have := (GoMap.get_isSome_iff cs.wireNames name).mp ⟨u, hg⟩
      simp [this]
    | none =>
      have hno : ¬ ∃ u, (name, u) ∈ cs.wireNames := by
        intro h
        obtain ⟨u, hu⟩ := (GoMap.get_isSome_iff cs.wireNames name).mpr h
        rw [hg] at hu
        cases hu
      simp [hn, hno]

/-- When `PUBLIC_INPUT` fails: on the empty name, and on a name of the global name set. -/
theorem PUBLIC_INPUT_eq_none_iff (cs : CS) (name : String) :
    cs.PUBLIC_INPUT name = none ↔ name = "" ∨ ∃ u, (name, u) ∈ cs.wireNames := by
  unfold CS.PUBLIC_INPUT
  by_cases hn : name = ""
  · simp [hn]
  · rw [if_neg hn]
    have hw : (cs.addConstraint none).2.wireNames = cs.wireNames := rfl
    simp only [hw]
    cases hg : GoMap.get cs.wireNames name with
    | some u =>
      have := (GoMap.get_isSome_iff cs.wireNames name).mp ⟨u, hg⟩
      simp [this]
    | none =>
      have hno : ¬ ∃ u, (name, u) ∈ cs.wireNames := by
        intro h
        obtain ⟨u, hu⟩ := (GoMap.get_isSome_iff cs.wireNames name).mpr h
        rw [hg] at hu
        cases hu
      simp [hn, hno]

/-- What a successful `SECRET_INPUT` leaves: the next wire is allocated as an input, and
the name is appended to the global name set and to the secret registry. -/
theorem SECRET_INPUT_some (cs : CS) (name : String) (v : Variable) (cs' : CS)
    (hA : cs.Allocated) (h : cs.SECRET_INPUT name = some (v, cs')) :
    v = ⟨cs.nbConstraints, none⟩ ∧
    cs' =
      { cs with
        constraints := cs.constraints ++ [(cs.nbConstraints, ⟨none⟩)]
        nbConstraints := cs.nbConstraints + 1
        wireNames := cs.wireNames ++ [(name, ())]
        secretWireNames := cs.secretWireNames ++ [(cs.nbConstraints, name)] } := by
  unfold CS.SECRET_INPUT at h
  by_cases hn : name = ""
  · simp [hn] at h
  · rw [if_neg hn] at h
    have hw : (cs.addConstraint none).2.wireNames = cs.wireNames := rfl
    simp only [hw] at h
    cases hg : GoMap.get cs.wireNames name with
    | some u => simp [hg] at h
    | none =>
      simp only [hg, Option.some.injEq, Prod.mk.injEq] at h
      obtain ⟨hv, hcs⟩ := h
      refine ⟨hv.symm, ?_⟩
      rw [← hcs]
      have h1 := addConstraint_constraints cs none hA.1
      have h2 : GoMap.set cs.wireNames name () = cs.wireNames ++ [(name, ())] :=
        GoMap.set_of_fresh _ _ _ ((GoMap.get_eq_none_iff _ _).mp hg)
      have h3 : GoMap.set cs.secretWireNames cs.nbConstraints name =
          cs.secretWireNames ++ [(cs.nbConstraints, name)] :=
        GoMap.set_of_fresh _ _ _ (fun e he => Nat.ne_of_lt (hA.2.1 e he))
      show CS.mk _ _ _ _ _ _ _ _ = CS.mk _ _ _ _ _ _ _ _
      simp only [CS.mk.injEq]
      exact ⟨h1, rfl, rfl, rfl, h2, h3, rfl, rfl⟩

/-- What a successful `PUBLIC_INPUT` leaves: the next wire is allocated as an input, and
the name is appended to the global name set and to the public registry. -/
theorem PUBLIC_INPUT_some (cs : CS) (name : String) (v : Variable) (cs' : CS)
    (hA : cs.Allocated) (h : cs.PUBLIC_INPUT name = some (v, cs')) :
    v = ⟨cs.nbConstraints, none⟩ ∧
    cs' =
      { cs with
        constraints := cs.constraints ++ [(cs.nbConstraints, ⟨none⟩)]
        nbConstraints := cs.nbConstraints + 1
        wireNames := cs.wireNames ++ [(name, ())]
        publicWireNames := cs.publicWireNames ++ [(cs.nbConstraints, name)] } := by
  unfold CS.PUBLIC_INPUT at h
  by_cases hn : name = ""
  · simp [hn] at h
  · rw [if_neg hn] at h
    have hw : (cs.addConstraint none).2.wireNames = cs.wireNames := rfl
    simp only [hw] at h
    cases hg : GoMap.get cs.wireNames name with
    | some u => simp [hg] at h
    | none =>
      simp only [hg, Option.some.injEq, Prod.mk.injEq] at h
      obtain ⟨hv, hcs⟩ := h
      refine ⟨hv.symm, ?_⟩
      rw [← hcs]
      have h1 := addConstraint_constraints cs none hA.1
      have h2 : GoMap.set cs.wireNames name () = cs.wireNames ++ [(name, ())] :=
        GoMap.set_of_fresh _ _ _ ((GoMap.get_eq_none_iff _ _).mp hg)
      have h3 : GoMap.set cs.publicWireNames cs.nbConstraints name =
          cs.publicWireNames ++ [(cs.nbConstraints, name)] :=
        GoMap.set_of_fresh _ _ _ (fun e he => Nat.ne_of_lt (hA.2.2 e he))
      show CS.mk _ _ _ _ _ _ _ _ = CS.mk _ _ _ _ _ _ _ _
      simp only [CS.mk.injEq]
      exact ⟨h1, rfl, rfl, rfl, h2, rfl, h3, rfl⟩

/-- Allocating an input wire and appending its name to the name set and to one of the two
registries keeps the table ids allocated and the name set in sync with the registries. -/
theorem inv_of_input (cs : CS) (name : String) (hA : cs.Allocated) (hS : cs.NamesInSync)
    (secretNames publicNames : GoMap Nat String)
    (hreg : (secretNames = cs.secretWireNames ++ [(cs.nbConstraints, name)] ∧
        publicNames = cs.publicWireNames) ∨
      (secretNames = cs.secretWireNames ∧
        publicNames = cs.publicWireNames ++ [(cs.nbConstraints, name)])) :
    CS.Allocated
      { cs with
        constraints := cs.constraints ++ [(cs.nbConstraints, ⟨none⟩)]
        nbConstraints := cs.nbConstraints + 1
        wireNames := cs.wireNames ++ [(name, ())]
        secretWireNames := secretNames
        publicWireNames := publicNames } ∧
    CS.NamesInSync
      { cs with
        constraints := cs.constraints ++ [(cs.nbConstraints, ⟨none⟩)]
        nbConstraints := cs.nbConstraints + 1
        wireNames := cs.wireNames ++ [(name, ())]
        secretWireNames := secretNames
        publicWireNames := publicNames } := by
  obtain ⟨hA1, hA2, hA3⟩ := hA
  have step : ∀ (m : GoMap Nat String), (∀ e ∈ m, e.1 < cs.nbConstraints) →
      ∀ e ∈ m ++ [(cs.nbConstraints, name)], e.1 < cs.nbConstraints + 1 := by
    intro m hm e he
    rcases List.mem_append.mp he with h | h
    · exact Nat.lt_succ_of_lt (hm e h)
    · rw [List.mem_singleton] at h
      rw [h]
      exact Nat.lt_succ_self _
  have weaken : ∀ (m : GoMap Nat String), (∀ e ∈ m, e.1 < cs.nbConstraints) →
      ∀ e ∈ m, e.1 < cs.nbConstraints + 1 :=
    fun m hm e he => Nat.lt_succ_of_lt (hm e he)
  refine ⟨⟨?_, ?_, ?_⟩, ?_⟩
  · intro e he
    rcases List.mem_append.mp he with h | h
    · exact Nat.lt_succ_of_lt (hA1 e h)
    · rw [List.mem_singleton] at h
      rw [h]
      exact Nat.lt_succ_self _
  · rcases hreg with ⟨h1, _⟩ | ⟨h1, _⟩
    · show ∀ e ∈ secretNames, e.1 < cs.nbConstraints + 1
      rw [h1]
      exact step _ hA2
    · show ∀ e ∈ secretNames, e.1 < cs.nbConstraints + 1
      rw [h1]
      exact weaken _ hA2
  · rcases hreg with ⟨_, h2⟩ | ⟨_, h2⟩
    · show ∀ e ∈ publicNames, e.1 < cs.nbConstraints + 1
      rw [h2]
      exact weaken _ hA3
    · show ∀ e ∈ publicNames, e.1 < cs.nbConstraints + 1
      rw [h2]
      exact step _ hA3
  · intro n
    have hS' := hS n
    unfold CS.isSecretName CS.isPublicName at hS' ⊢
    show (∃ u, (n, u) ∈ cs.wireNames ++ [(name, ())]) ↔
      ((∃ id, (id, n) ∈ secretNames) ∨ ∃ id, (id, n) ∈ publicNames)
    have hl : (∃ u, (n, u) ∈ cs.wireNames ++ [(name, ())]) ↔
        ((∃ u, (n, u) ∈ cs.wireNames) ∨ n = name) := by
      simp only [List.mem_append, List.mem_singleton, Prod.mk.injEq]
      constructor
      · rintro ⟨u, h | h⟩
        · exact Or.inl ⟨u, h⟩
        · exact Or.inr h.1
      · rintro (⟨u, h⟩ | h)
        · exact ⟨u, Or.inl h⟩
        · exact ⟨(), Or.inr ⟨h, trivial⟩⟩
    have hr : ∀ m : GoMap Nat String,
        (∃ id, (id, n) ∈ m ++ [(cs.nbConstraints, name)]) ↔ ((∃ id, (id, n) ∈ m) ∨ n = name) := by
      intro m
      simp only [List.mem_append, List.mem_singleton, Prod.mk.injEq]
      constructor
      · rintro ⟨id, h | h⟩
        · exact Or.inl ⟨id, h⟩
        · exact Or.inr h.2
      · rintro (⟨id, h⟩ | h)
        · exact ⟨id, Or.inl h⟩
        · exact ⟨cs.nbConstraints, Or.inr ⟨rfl, h⟩⟩
    rw [hl, hS']
    rcases hreg with ⟨h1, h2⟩ | ⟨h1, h2⟩
    · rw [h1, h2, hr]
      tauto
    · rw [h1, h2, hr]
      tauto

/-- C10: in a constraint system whose name set holds exactly the names of the two
registries (which is so in a new system and stays so after every successful input
declaration), `SECRET_INPUT(name)` and `PUBLIC_INPUT(name)` fail if and only if the name
is empty or registered, in the secret or in the public registry; after a successful
`SECRET_INPUT(name)` the name is in the secret registry and both `PUBLIC_INPUT(name)` and
`SECRET_INPUT(name)` fail, and likewise with the roles exchanged. -/
theorem input_name_collision (cs : CS) (name : String) (hA : cs.Allocated)
    (hS : cs.NamesInSync) :
    (cs.SECRET_INPUT name = none ↔
      name = "" ∨ cs.isSecretName name ∨ cs.isPublicName name) ∧
    (cs.PUBLIC_INPUT name = none ↔
      name = "" ∨ cs.isSecretName name ∨ cs.isPublicName name) ∧
    (∀ (v : Variable) (cs' : CS), cs.SECRET_INPUT name = some (v, cs') →
      cs'.isSecretName name ∧ cs'.PUBLIC_INPUT name = none ∧ cs'.SECRET_INPUT name = none ∧
      cs'.Allocated ∧ cs'.NamesInSync) ∧
    (∀ (v : Variable) (cs' : CS), cs.PUBLIC_INPUT name = some (v, cs') →
      cs'.isPublicName name ∧ cs'.SECRET_INPUT name = none ∧ cs'.PUBLIC_INPUT name = none ∧
      cs'.Allocated ∧ cs'.NamesInSync) := by
  refine ⟨?_, ?_, ?_, ?_⟩
  · rw [SECRET_INPUT_eq_none_iff, hS name]
  · rw [PUBLIC_INPUT_eq_none_iff, hS name]
  · intro v cs' h
    obtain ⟨_, hcs⟩ := SECRET_INPUT_some cs name v cs' hA h
    have hmem : ∃ u, (name, u) ∈ cs'.wireNames := by
      rw [hcs]
      exact ⟨(), by simp⟩
    have hinv := inv_of_input cs name hA hS _ _ (Or.inl ⟨rfl, rfl⟩)
    refine ⟨?_, ?_, ?_, ?_, ?_⟩
    · rw [hcs]
      exact ⟨cs.nbConstraints, by simp⟩
    · exact (PUBLIC_INPUT_eq_none_iff cs' name).mpr (Or.inr hmem)
    · exact (SECRET_INPUT_eq_none_iff cs' name).mpr (Or.inr hmem)
    · rw [hcs]
      exact hinv.1
    · rw [hcs]
      exact hinv.2
  · intro v cs' h
    obtain ⟨_, hcs⟩ := PUBLIC_INPUT_some cs name v cs' hA h
    have hmem : ∃ u, (name, u) ∈ cs'.wireNames := by
      rw [hcs]
      exact ⟨(), by simp⟩
    have hinv := inv_of_input cs name hA hS _ _ (Or.inr ⟨rfl, rfl⟩)
    refine ⟨?_, ?_, ?_, ?_, ?_⟩
    · rw [hcs]
      exact ⟨cs.nbConstraints, by simp⟩
    · exact (SECRET_INPUT_eq_none_iff cs' name).mpr (Or.inr hmem)
    · exact (PUBLIC_INPUT_eq_none_iff cs' name).mpr (Or.inr hmem)
    · rw [hcs]
      exact hinv.1
    · rw [hcs]
      exact hinv.2

/-- C10, at a new constraint system: after `SECRET_INPUT("x")` the call
`PUBLIC_INPUT("x")` fails. -/
theorem input_name_collision_witness :
    ∃ v cs', CS.SECRET_INPUT newConstraintSystem "x" = some (v, cs') ∧
      cs'.isSecretName "x" ∧ cs'.PUBLIC_INPUT "x" = none :=
  have h := (input_name_collision newConstraintSystem "x" newConstraintSystem_inv.1
    newConstraintSystem_inv.2).2.2.1 _ _ rfl
  ⟨_, _, rfl, h.1, h.2.1⟩

/-! ## Input registration -/

theorem GoMap.get_append_fresh {κ ν : Type} [DecidableEq κ] (m : GoMap κ ν) (k : κ) (v : ν)
    (h : ∀ e ∈ m, e.1 ≠ k) : GoMap.get (m ++ [(k, v)]) k = some v := by
  rw [← GoMap.set_of_fresh m k v h]
  exact GoMap.get_set_self m k v

theorem GoMap.get_append_of_some {κ ν : Type} [DecidableEq κ] (m m' : GoMap κ ν) (k : κ)
    (v : ν) (h : GoMap.get m k = some v) : GoMap.get (m ++ m') k = some v := by
  induction m with
  | nil => simp [GoMap.get] at h
  | cons a m ih =>
    obtain ⟨k', v'⟩ := a
    by_cases hk : k' = k
    · simp only [GoMap.get, hk, if_true] at h
      simp [GoMap.get, hk, h]
    · simp only [GoMap.get, hk, if_false] at h
      simp [GoMap.get, hk, ih h]

/-- C11: in a constraint system whose name set holds exactly the names of the two
registries, for a non-empty name that is registered in neither, `SECRET_INPUT(name)`
returns a variable whose wire id the secret registry maps to the name, the name set
holds the name and keeps what it held, the public registry is as it was and so is every
earlier entry of the secret registry (the new entry is appended); `PUBLIC_INPUT(name)`
does the same with the two registries exchanged. -/
theorem input_registration (cs : CS) (name : String) (hA : cs.Allocated)
    (hS : cs.NamesInSync) (hne : name ≠ "") (hs : ¬ cs.isSecretName name)
    (hp : ¬ cs.isPublicName name) :
    (∃ v cs', cs.SECRET_INPUT name = some (v, cs') ∧
      cs'.secretWireNames.get v.id = some name ∧
      (∃ u, (name, u) ∈ cs'.wireNames) ∧
      (∀ e ∈ cs.wireNames, e ∈ cs'.wireNames) ∧
      cs'.publicWireNames = cs.publicWireNames ∧
      cs'.secretWireNames = cs.secretWireNames ++ [(v.id, name)] ∧
      (∀ id n, cs.secretWireNames.get id = some n → cs'.secretWireNames.get id = some n)) ∧
    (∃ v cs', cs.PUBLIC_INPUT name = some (v, cs') ∧
      cs'.publicWireNames.get v.id = some name ∧
      (∃ u, (name, u) ∈ cs'.wireNames) ∧
      (∀ e ∈ cs.wireNames, e ∈ cs'.wireNames) ∧
      cs'.secretWireNames = cs.secretWireNames ∧
      cs'.publicWireNames = cs.publicWireNames ++ [(v.id, name)] ∧
      (∀ id n, cs.publicWireNames.get id = some n → cs'.publicWireNames.get id = some n)) := by
  have hfresh : ¬ (name = "" ∨ ∃ u, (name, u) ∈ cs.wireNames) := by
    rintro (h | h)
    · exact hne h
    · rcases (hS name).mp h with h | h
      · exact hs h
      · exact hp h
  constructor
  · cases h : cs.SECRET_INPUT name with
    | none => exact absurd ((SECRET_INPUT_eq_none_iff cs name).mp h) hfresh
    | some r =>
      obtain ⟨v, cs'⟩ := r
      obtain ⟨hv, hcs⟩ := SECRET_INPUT_some cs name v cs' hA h
      have hid : v.id = cs.nbConstraints := by rw [hv]; rfl
      have hsec : cs'.secretWireNames = cs.secretWireNames ++ [(cs.nbConstraints, name)] := by
        rw [hcs]
      have hnames : cs'.wireNames = cs.wireNames ++ [(name, ())] := by rw [hcs]
      have hpub : cs'.publicWireNames = cs.publicWireNames := by rw [hcs]
      refine ⟨v, cs', rfl, ?_, ?_, ?_, hpub, ?_, ?_⟩
      · rw [hsec, hid]
        exact GoMap.get_append_fresh _ _ _ (fun e he => Nat.ne_of_lt (hA.2.1 e he))
      · rw [hnames]
        exact ⟨(), by simp⟩
      · intro e he
        rw [hnames]
        exact List.mem_append_left _ he
      · rw [hsec, hid]
      · intro id n hget
        rw [hsec]
        exact GoMap.get_append_of_some _ _ _ _ hget
  · cases h : cs.PUBLIC_INPUT name with
    | none => exact absurd ((PUBLIC_INPUT_eq_none_iff cs name).mp h) hfresh
    | some r =>
      obtain ⟨v, cs'⟩ := r
      obtain ⟨hv, hcs⟩ := PUBLIC_INPUT_some cs name v cs' hA h
      have hid : v.id = cs.nbConstraints := by rw [hv]; rfl
      have hpub : cs'.publicWireNames = cs.publicWireNames ++ [(cs.nbConstraints, name)] := by
        rw [hcs]
      have hnames : cs'.wireNames = cs.wireNames ++ [(name, ())] := by rw [hcs]
      have hsec : cs'.secretWireNames = cs.secretWireNames := by rw [hcs]
      refine ⟨v, cs', rfl, ?_, ?_, ?_, hsec, ?_, ?_⟩
      · rw [hpub, hid]
        exact GoMap.get_append_fresh _ _ _ (fun e he => Nat.ne_of_lt (hA.2.2 e he))
      · rw [hnames]
        exact ⟨(), by simp⟩
      · intro e he
        rw [hnames]
        exact List.mem_append_left _ he
      · rw [hpub, hid]
      · intro id n hget
        rw [hpub]
        exact GoMap.get_append_of_some _ _ _ _ hget

/-- C11, at `sampleCS` and the name `a0`, as in `newPointCircuitG1`. -/
theorem input_registration_witness :
    ∃ v cs', CS.SECRET_INPUT sampleCS "a0" = some (v, cs') ∧
      cs'.secretWireNames.get v.id = some "a0" ∧
      cs'.publicWireNames = sampleCS.publicWireNames := by
  have hA : sampleCS.Allocated := by
    unfold CS.Allocated
    decide
  have hS : sampleCS.NamesInSync := by
    intro name
    simp [sampleCS, CS.isSecretName, CS.isPublicName]
  have hs : ¬ sampleCS.isSecretName "a0" := by
    simp [sampleCS, CS.isSecretName]
  have hp : ¬ sampleCS.isPublicName "a0" := by
    simp [sampleCS, CS.isPublicName]
  obtain ⟨v, cs', h1, h2, _, _, h5, _⟩ :=
    (input_registration sampleCS "a0" hA hS (by decide) hs hp).1
  exact ⟨v, cs', h1, h2, h5⟩

/-! ## Tags -/

/-- When `Tag` panics: the label occurs in the tag list of an entry of the registry. -/
theorem Tag_eq_none_iff (cs : CS) (v : Variable) (tag : String) :
    cs.Tag v tag = none ↔ cs.isTagged tag := by
  unfold CS.Tag CS.isTagged
  by_cases h : cs.wireTags.any (fun e => e.2.any (fun t => decide (tag = t))) = true
  · rw [if_pos h]
    simp only [true_iff]
    rw [List.any_eq_true] at h
    obtain ⟨e, he, hany⟩ := h
    rw [List.any_eq_true] at hany
    obtain ⟨t, ht, heq⟩ := hany
    have : tag = t := by simpa using heq
    exact ⟨e, he, this ▸ ht⟩
  · rw [if_neg h]
    constructor
    · intro hsome
      cases hsome
    rintro ⟨e, he, ht⟩
    apply absurd _ h
    rw [List.any_eq_true]
    refine ⟨e, he, ?_⟩
    rw [List.any_eq_true]
    exact ⟨tag, ht, by simp⟩

/-- What a `Tag` that returns leaves: the tag list of the wire with the label appended,
written back under the id of the wire. -/
theorem Tag_some (cs cs' : CS) (v : Variable) (tag : String) (h : cs.Tag v tag = some cs') :
    cs' = { cs with wireTags := cs.wireTags.set v.id (cs.tagsOf v.id ++ [tag]) } := by
  unfold CS.Tag at h
  by_cases hany : cs.wireTags.any (fun e => e.2.any (fun t => decide (tag = t))) = true
  · rw [if_pos hany] at h
    cases h
  · rw [if_neg hany] at h
    simp only [Option.some.injEq] at h
    rw [← h]
    rfl

/-- C12: `Tag(v, t)` fails if and only if `t` occurs in the tag list of some wire of the
system; when it returns, the tag list of the wire of `v` is its former tag list with `t`
appended at the end, the tag list of every other wire is as it was, and nothing else of
the constraint system has changed. -/
theorem Tag_duplicate_iff (cs : CS) (v : Variable) (t : String) :
    (cs.Tag v t = none ↔ cs.isTagged t) ∧
    (¬ cs.isTagged t → ∃ cs', cs.Tag v t = some cs') ∧
    (∀ cs', cs.Tag v t = some cs' →
      cs'.tagsOf v.id = cs.tagsOf v.id ++ [t] ∧
      (∀ w, w ≠ v.id → cs'.tagsOf w = cs.tagsOf w) ∧
      cs' = { cs with wireTags := cs'.wireTags }) := by
  refine ⟨Tag_eq_none_iff cs v t, ?_, ?_⟩
  · intro hnot
    cases h : cs.Tag v t with
    | none => exact absurd ((Tag_eq_none_iff cs v t).mp h) hnot
    | some cs' => exact ⟨cs', rfl⟩
  · intro cs' h
    have hcs := Tag_some cs cs' v t h
    refine ⟨?_, ?_, ?_⟩
    · rw [hcs]
      show (GoMap.get (GoMap.set cs.wireTags v.id _) v.id).getD [] = _
      rw [GoMap.get_set_self]
      rfl
    · intro w hw
      rw [hcs]
      show (GoMap.get (GoMap.set cs.wireTags v.id _) w).getD [] = _
      rw [GoMap.get_set_ne _ _ _ _ hw]
      rfl
    · rw [hcs]

/-- C12, at `sampleCS`, as in `tagPointG1`: after `Tag(b, "c0")` the wire of `b` carries
the tag `c0` and a second `Tag` with the same label fails, on any wire. -/
theorem Tag_duplicate_iff_witness :
    ∃ cs', CS.Tag sampleCS ⟨1, none⟩ "c0" = some cs' ∧ cs'.tagsOf 1 = ["c0"] ∧
      cs'.Tag ⟨0, none⟩ "c0" = none := by
  have hnot : ¬ sampleCS.isTagged "c0" := by
    simp [CS.isTagged, sampleCS]
  obtain ⟨cs', h⟩ := (Tag_duplicate_iff sampleCS ⟨1, none⟩ "c0").2.1 hnot
  have h1 := ((Tag_duplicate_iff sampleCS ⟨1, none⟩ "c0").2.2 cs' h).1
  refine ⟨cs', h, h1, ?_⟩
  rw [Tag_eq_none_iff]
  have hcs := Tag_some _ _ _ _ h
  rw [hcs]
  exact ⟨(1, ["c0"]), by decide, by decide⟩

/-! ## Tag uniqueness -/

theorem allTags_set (m : GoMap Nat (List String)) (k : Nat) (t : String) :
    List.Perm (allTags (GoMap.set m k ((GoMap.get m k).getD [] ++ [t]))) (t :: allTags m) := by
  induction m with
  | nil =>
    simp [GoMap.set, GoMap.get, allTags]
  | cons a m ih =>
    obtain ⟨k', l⟩ := a
    by_cases hk : k' = k
    · simp only [GoMap.set, GoMap.get, hk, if_true, Option.getD_some, allTags]
      rw [List.append_assoc]
      exact List.perm_middle
    · simp only [GoMap.set, GoMap.get, hk, if_false, allTags]
      exact (List.Perm.append_left l ih).trans List.perm_middle

theorem keys_set (m : GoMap Nat (List String)) (k : Nat) (v : List String) :
    ∀ x, x ∈ (GoMap.set m k v).map Prod.fst ↔ (x ∈ m.map Prod.fst ∨ x = k) := by
  induction m with
  | nil =>
    intro x
    simp [GoMap.set]
  | cons a m ih =>
    obtain ⟨k', l⟩ := a
    intro x
    by_cases hk : k' = k
    · simp only [GoMap.set, hk, if_true, List.map_cons, List.mem_cons]
      tauto
    · simp only [GoMap.set, hk, if_false, List.map_cons, List.mem_cons, ih x]
      tauto

theorem keys_nodup_set (m : GoMap Nat (List String)) (k : Nat) (v : List String)
    (h : (m.map Prod.fst).Nodup) : ((GoMap.set m k v).map Prod.fst).Nodup := by
  induction m with
  | nil => simp [GoMap.set]
  | cons a m ih =>
    obtain ⟨k', l⟩ := a
    rw [List.map_cons, List.nodup_cons] at h
    by_cases hk : k' = k
    · simp only [GoMap.set, hk, if_true, List.map_cons, List.nodup_cons]
      rw [← hk]
      exact h
    · simp only [GoMap.set, hk, if_false, List.map_cons, List.nodup_cons]
      refine ⟨?_, ih h.2⟩
      intro hmem
      rcases (keys_set m k v k').mp hmem with h' | h'
      · exact h.1 h'
      · exact hk h'

theorem mem_allTags_of_get (m : GoMap Nat (List String)) (w : Nat) (l : List String)
    (h : GoMap.get m w = some l) : ∀ t ∈ l, t ∈ allTags m := by
  induction m with
  | nil => simp [GoMap.get] at h
  | cons a m ih =>
    obtain ⟨k', l'⟩ := a
    intro t ht
    by_cases hk : k' = w
    · simp only [GoMap.get, hk, if_true, Option.some.injEq] at h
      simp only [allTags, List.mem_append]
      exact Or.inl (h ▸ ht)
    · simp only [GoMap.get, hk, if_false] at h
      simp only [allTags, List.mem_append]
      exact Or.inr (ih h t ht)

theorem nodup_of_get (m : GoMap Nat (List String)) (w : Nat) (l : List String)
    (hn : (allTags m).Nodup) (h : GoMap.get m w = some l) : l.Nodup := by
  induction m with
  | nil => simp [GoMap.get] at h
  | cons a m ih =>
    obtain ⟨k', l'⟩ := a
    simp only [allTags] at hn
    rw [List.nodup_append] at hn
    by_cases hk : k' = w
    · simp only [GoMap.get, hk, if_true, Option.some.injEq] at h
      exact h ▸ hn.1
    · simp only [GoMap.get, hk, if_false] at h
      exact ih hn.2.1 h

theorem wire_unique_of_get (m : GoMap Nat (List String)) (w w' : Nat) (l l' : List String)
    (t : String) (hn : (allTags m).Nodup) (h : GoMap.get m w = some l)
    (h' : GoMap.get m w' = some l') (ht : t ∈ l) (ht' : t ∈ l') : w = w' := by
  induction m with
  | nil => simp [GoMap.get] at h
  | cons a m ih =>
    obtain ⟨k, x⟩ := a
    simp only [allTags] at hn
    rw [List.nodup_append] at hn
    obtain ⟨_, hrest, hdisj⟩ := hn
    by_cases hk : k = w
    · by_cases hk' : k = w'
      · exact hk.symm.trans hk'
      · simp only [GoMap.get, hk, if_true, Option.some.injEq] at h
        simp only [GoMap.get, hk', if_false] at h'
        exact absurd (mem_allTags_of_get m w' l' h' t ht') (fun hm => hdisj (h ▸ ht) hm)
    · by_cases hk' : k = w'
      · simp only [GoMap.get, hk, if_false] at h
        simp only [GoMap.get, hk', if_true, Option.some.injEq] at h'
        exact absurd (mem_allTags_of_get m w l h t ht) (fun hm => hdisj (h' ▸ ht') hm)
      · simp only [GoMap.get, hk, if_false] at h
        simp only [GoMap.get, hk', if_false] at h'
        exact ih hrest h h'

theorem mem_allTags_iff (m : GoMap Nat (List String)) (t : String) :
    t ∈ allTags m ↔ ∃ e ∈ m, t ∈ e.2 := by
  induction m with
  | nil => simp [allTags]
  | cons a m ih =>
    simp only [allTags, List.mem_append, ih, List.mem_cons]
    constructor
    · rintro (h | ⟨e, he, ht⟩)
      · exact ⟨a, Or.inl rfl, h⟩
      · exact ⟨e, Or.inr he, ht⟩
    · rintro ⟨e, he | he, ht⟩
      · exact Or.inl (he ▸ ht)
      · exact Or.inr ⟨e, he, ht⟩

/-- One `Tag` call, returning or panicking, keeps the labels of the registry distinct and
its wire ids distinct. -/
theorem tagStep_inv (cs : CS) (call : Variable × String)
    (h : (allTags cs.wireTags).Nodup ∧ (cs.wireTags.map Prod.fst).Nodup) :
    (allTags (cs.tagStep call).wireTags).Nodup ∧
    ((cs.tagStep call).wireTags.map Prod.fst).Nodup := by
  unfold CS.tagStep
  cases ht : cs.Tag call.1 call.2 with
  | none => exact h
  | some cs' =>
    have hcs := Tag_some cs cs' call.1 call.2 ht
    have hnot : ¬ cs.isTagged call.2 := by
      intro hm
      rw [(Tag_eq_none_iff cs call.1 call.2).mpr hm] at ht
      cases ht
    have hw : cs'.wireTags =
        GoMap.set cs.wireTags call.1.id ((GoMap.get cs.wireTags call.1.id).getD [] ++ [call.2]) := by
      rw [hcs]
      rfl
    show (allTags cs'.wireTags).Nodup ∧ (cs'.wireTags.map Prod.fst).Nodup
    rw [hw]
    refine ⟨?_, keys_nodup_set _ _ _ h.2⟩
    rw [(allTags_set cs.wireTags call.1.id call.2).nodup_iff, List.nodup_cons]
    exact ⟨fun hm => hnot ((mem_allTags_iff _ _).mp hm), h.1⟩

theorem tagAll_inv (calls : List (Variable × String)) :
    ∀ cs : CS, (allTags cs.wireTags).Nodup ∧ (cs.wireTags.map Prod.fst).Nodup →
      (allTags (cs.tagAll calls).wireTags).Nodup ∧
      ((cs.tagAll calls).wireTags.map Prod.fst).Nodup := by
  induction calls with
  | nil =>
    intro cs h
    exact h
  | cons c rest ih =>
    intro cs h
    exact ih (cs.tagStep c) (tagStep_inv cs c h)

/-- C13: starting from a constraint system with an empty tag registry, after any sequence
of `Tag` calls, returning or panicking, the labels of the registry, taken wire after
wire, are pairwise distinct and each wire id has one entry: no wire carries a label
twice, and no label is carried by two different wires. -/
theorem tags_unique (cs : CS) (calls : List (Variable × String))
    (hempty : cs.wireTags = []) :
    (allTags (cs.tagAll calls).wireTags).Nodup ∧
    ((cs.tagAll calls).wireTags.map Prod.fst).Nodup ∧
    (∀ w, ((cs.tagAll calls).tagsOf w).Nodup) ∧
    (∀ w w' t, t ∈ (cs.tagAll calls).tagsOf w → t ∈ (cs.tagAll calls).tagsOf w' → w = w') := by
  have h0 : (allTags cs.wireTags).Nodup ∧ (cs.wireTags.map Prod.fst).Nodup := by
    rw [hempty]
    exact ⟨List.nodup_nil, List.nodup_nil⟩
  obtain ⟨h1, h2⟩ := tagAll_inv calls cs h0
  refine ⟨h1, h2, ?_, ?_⟩
  · intro w
    unfold CS.tagsOf
    cases hg : GoMap.get (cs.tagAll calls).wireTags w with
    | none => exact List.nodup_nil
    | some l => exact nodup_of_get _ w l h1 hg
  · intro w w' t ht ht'
    unfold CS.tagsOf at ht ht'
    cases hg : GoMap.get (cs.tagAll calls).wireTags w with
    | none =>
      rw [hg] at ht
      simp at ht
    | some l =>
      cases hg' : GoMap.get (cs.tagAll calls).wireTags w' with
      | none =>
        rw [hg'] at ht'
        simp at ht'
      | some l' =>
        rw [hg] at ht
        rw [hg'] at ht'
        exact wire_unique_of_get _ w w' l l' t h1 hg hg' ht ht'

/-- C13, at `sampleCS` and four calls, of which the third and the fourth repeat a label:
the registry ends with the two labels of the first two calls. -/
theorem tags_unique_witness :
    (CS.tagAll sampleCS
      [(⟨1, none⟩, "c0"), (⟨1, none⟩, "c1"), (⟨0, none⟩, "c0"), (⟨1, none⟩, "c1")]).wireTags
      = [(1, ["c0", "c1"])] ∧
    (allTags (CS.tagAll sampleCS
      [(⟨1, none⟩, "c0"), (⟨1, none⟩, "c1"), (⟨0, none⟩, "c0"), (⟨1, none⟩, "c1")]).wireTags).Nodup :=
  ⟨by decide, (tags_unique sampleCS _ rfl).1⟩

/-! ## The arithmetic API: which operand pairings are accepted -/

theorem FromInterface_variable (v : Variable) : FromInterface (.variable v) = none := rfl

theorem FromInterface_linearCombination (l : LinearCombination) :
    FromInterface (.linearCombination l) = none := rfl

/-- A constant operand is neither a variable nor a linear combination. -/
theorem isPlain_of_constant (i : Operand) (b : Int) (h : FromInterface i = some b) :
    i.isPlain := by
  constructor
  · intro v hv
    rw [hv, FromInterface_variable] at h
    cases h
  · intro l hl
    rw [hl, FromInterface_linearCombination] at h
    cases h

/-- The dispatch of `MUSTBE_EQ` on a variable and a second operand that is not one. -/
theorem MUSTBE_EQ_variable_left (h : Helpers) (cs : CS) (v : Variable) (i2 : Operand)
    (h2 : ∀ v2, i2 ≠ .variable v2) :
    cs.MUSTBE_EQ h (.variable v) i2 =
      match FromInterface i2 with
      | none => .panic fromInterfacePanic cs
      | some b2 => .ok () (h.equalConstant cs v b2) := by
  rcases i2 with v2 | l | b | i | n | s | _
  · exact absurd rfl (h2 v2)
  all_goals rfl

/-- The dispatch of `MUSTBE_EQ` on a first operand that is not a variable. -/
theorem MUSTBE_EQ_other_left (h : Helpers) (cs : CS) (i1 i2 : Operand)
    (h1 : ∀ v1, i1 ≠ .variable v1) :
    cs.MUSTBE_EQ h i1 i2 =
      match FromInterface i1 with
      | none => .panic fromInterfacePanic cs
      | some b1 =>
        match i2 with
        | .variable c2 => .ok () (h.equalConstant cs c2 b1)
        | _ => .panic "invalid type: MUSTBE_EQ takes Variables and big.Int only" cs := by
  rcases i1 with v1 | l | b | i | n | s | _
  · exact absurd rfl (h1 v1)
  all_goals rfl

/-- C14: `MUSTBE_EQ(i1, i2)` returns exactly when both operands are variables, or one is
a variable and the other a constant; on two variables it is the variable equality, on a
variable and a constant it is the variable-constant equality, the same whichever side the
constant is on; on every other pairing it panics and leaves the constraint system as it
was. -/
theorem MUSTBE_EQ_pairings (h : Helpers) (cs : CS) (i1 i2 : Operand) :
    ((cs.MUSTBE_EQ h i1 i2).isOk = true ↔
      ((∃ v1 v2, i1 = .variable v1 ∧ i2 = .variable v2) ∨
       (∃ v b, i1 = .variable v ∧ FromInterface i2 = some b) ∨
       (∃ v b, FromInterface i1 = some b ∧ i2 = .variable v))) ∧
    (∀ v1 v2, i1 = .variable v1 → i2 = .variable v2 →
      cs.MUSTBE_EQ h i1 i2 = .ok () (h.equal cs v1 v2)) ∧
    (∀ v b, i1 = .variable v → FromInterface i2 = some b →
      cs.MUSTBE_EQ h i1 i2 = .ok () (h.equalConstant cs v b)) ∧
    (∀ v b, FromInterface i1 = some b → i2 = .variable v →
      cs.MUSTBE_EQ h i1 i2 = .ok () (h.equalConstant cs v b)) ∧
    ((cs.MUSTBE_EQ h i1 i2).isOk = false →
      ∃ m, cs.MUSTBE_EQ h i1 i2 = .panic m cs) := by
  have hvv : ∀ v1 v2, i1 = .variable v1 → i2 = .variable v2 →
      cs.MUSTBE_EQ h i1 i2 = .ok () (h.equal cs v1 v2) := by
    intro v1 v2 e1 e2
    rw [e1, e2]
    rfl
  have hvc : ∀ v b, i1 = .variable v → FromInterface i2 = some b →
      cs.MUSTBE_EQ h i1 i2 = .ok () (h.equalConstant cs v b) := by
    intro v b e1 e2
    rw [e1, MUSTBE_EQ_variable_left h cs v i2 (isPlain_of_constant i2 b e2).1, e2]
  have hcv : ∀ v b, FromInterface i1 = some b → i2 = .variable v →
      cs.MUSTBE_EQ h i1 i2 = .ok () (h.equalConstant cs v b) := by
    intro v b e1 e2
    rw [MUSTBE_EQ_other_left h cs i1 i2 (isPlain_of_constant i1 b e1).1, e1, e2]
  refine ⟨?_, hvv, hvc, hcv, ?_⟩
  · constructor
    · intro hok
      by_cases h1 : ∃ v1, i1 = .variable v1
      · obtain ⟨v1, e1⟩ := h1
        by_cases h2 : ∃ v2, i2 = .variable v2
        · obtain ⟨v2, e2⟩ := h2
          exact Or.inl ⟨v1, v2, e1, e2⟩
        · have h2' : ∀ v2, i2 ≠ .variable v2 := fun v2 e => h2 ⟨v2, e⟩
          rw [e1, MUSTBE_EQ_variable_left h cs v1 i2 h2'] at hok
          cases hf : FromInterface i2 with
          | none =>
            rw [hf] at hok
            cases hok
          | some b => exact Or.inr (Or.inl ⟨v1, b, e1, rfl⟩)
      · have h1' : ∀ v1, i1 ≠ .variable v1 := fun v1 e => h1 ⟨v1, e⟩
        rw [MUSTBE_EQ_other_left h cs i1 i2 h1'] at hok
        cases hf : FromInterface i1 with
        | none =>
          rw [hf] at hok
          cases hok
        | some b =>
          rw [hf] at hok
          rcases i2 with v2 | l | b' | i | n | s | _
          · exact Or.inr (Or.inr ⟨v2, b, rfl, rfl⟩)
          all_goals cases hok
    · rintro (⟨v1, v2, e1, e2⟩ | ⟨v, b, e1, e2⟩ | ⟨v, b, e1, e2⟩)
      · rw [hvv v1 v2 e1 e2]
        rfl
      · rw [hvc v b e1 e2]
        rfl
      · rw [hcv v b e1 e2]
        rfl
  · intro hfail
    by_cases h1 : ∃ v1, i1 = .variable v1
    · obtain ⟨v1, e1⟩ := h1
      by_cases h2 : ∃ v2, i2 = .variable v2
      · obtain ⟨v2, e2⟩ := h2
        rw [hvv v1 v2 e1 e2] at hfail
        cases hfail
      · have h2' : ∀ v2, i2 ≠ .variable v2 := fun v2 e => h2 ⟨v2, e⟩
        rw [e1, MUSTBE_EQ_variable_left h cs v1 i2 h2'] at hfail ⊢
        cases hf : FromInterface i2 with
        | none => exact ⟨_, rfl⟩
        | some b =>
          rw [hf] at hfail
          cases hfail
    · have h1' : ∀ v1, i1 ≠ .variable v1 := fun v1 e => h1 ⟨v1, e⟩
      rw [MUSTBE_EQ_other_left h cs i1 i2 h1'] at hfail ⊢
      cases hf : FromInterface i1 with
      | none => exact ⟨_, rfl⟩
      | some b =>
        rw [hf] at hfail
        rcases i2 with v2 | l | b' | i | n | s | _
        · cases hfail
        all_goals exact ⟨_, rfl⟩

/-- C14, at `sampleCS`: the constant 5 on the right and on the left of the variable of
wire 1 give the same assertion, and two constants are rejected. -/
theorem MUSTBE_EQ_pairings_witness :
    CS.MUSTBE_EQ sampleHelpers sampleCS (.variable ⟨1, none⟩) (.int 5) =
      CS.MUSTBE_EQ sampleHelpers sampleCS (.bigInt 5) (.variable ⟨1, none⟩) ∧
    (CS.MUSTBE_EQ sampleHelpers sampleCS (.int 5) (.int 5)).isOk = false := by
  have h1 := (MUSTBE_EQ_pairings sampleHelpers sampleCS (.variable ⟨1, none⟩) (.int 5)).2.2.1
    ⟨1, none⟩ 5 rfl rfl
  have h2 := (MUSTBE_EQ_pairings sampleHelpers sampleCS (.bigInt 5) (.variable ⟨1, none⟩)).2.2.2.1
    ⟨1, none⟩ 5 rfl rfl
  exact ⟨h1.trans h2.symm, by decide⟩

/-- The dispatch of the closure `add` of `ADD` on a variable and a constant, in either
order: the constant is added to the variable. -/
theorem addPair_constant (h : Helpers) (cs : CS) (v : Variable) (c : Operand) (b : Int)
    (hc : FromInterface c = some b) :
    CS.addPair h cs (.variable v) c = returned (h.addConstant cs v b) ∧
    CS.addPair h cs c (.variable v) = returned (h.addConstant cs v b) := by
  rcases c with v2 | l | k | i | n | s | _
  · cases hc
  · cases hc
  all_goals exact ⟨by simp only [CS.addPair, hc], by simp only [CS.addPair, hc]⟩

/-- The dispatch of `SUB` on a variable and a constant: a constant on the left is
converted by `backend.FromInterface`, whatever its representation; a constant on the
right is accepted as a `big.Int` only. -/
theorem SUB_constant (h : Helpers) (cs : CS) (v : Variable) (c : Operand) (b : Int)
    (hc : FromInterface c = some b) :
    CS.SUB h cs c (.variable v) = returned (h.subConstraint cs b v) ∧
    CS.SUB h cs (.variable v) c =
      match c with
      | .bigInt k => returned (h.subConstant cs v k)
      | _ => .panic "invalid type" cs := by
  rcases c with v2 | l | k | i | n | s | _
  · cases hc
  · cases hc
  all_goals exact ⟨by simp only [CS.SUB, hc], by simp only [CS.SUB, hc]⟩

/-- C15, at `SUB(v, 5)` with the machine integer 5 on `sampleCS`: `ADD(v, 5)` returns the
variable-plus-constant result and `SUB(5, v)` the constant-minus-variable result, and so
does `SUB(v, 5)` for the big integer 5, but `SUB(v, 5)` for the machine integer panics
with `invalid type` and leaves the constraint system as it was. -/
theorem SUB_at_machine_integer :
    CS.ADD sampleHelpers sampleCS (.variable ⟨1, none⟩) (.int 5) [] =
      returned (sampleHelpers.addConstant sampleCS ⟨1, none⟩ 5) ∧
    CS.SUB sampleHelpers sampleCS (.int 5) (.variable ⟨1, none⟩) =
      returned (sampleHelpers.subConstraint sampleCS 5 ⟨1, none⟩) ∧
    CS.SUB sampleHelpers sampleCS (.variable ⟨1, none⟩) (.bigInt 5) =
      returned (sampleHelpers.subConstant sampleCS ⟨1, none⟩ 5) ∧
    CS.SUB sampleHelpers sampleCS (.variable ⟨1, none⟩) (.int 5) =
      .panic "invalid type" sampleCS :=
  ⟨rfl, rfl, rfl, rfl⟩

/-- The dispatch of the closure `mul` of `MUL` on a variable and a constant, in either
order. -/
theorem mulPair_constant (h : Helpers) (cs : CS) (v : Variable) (c : Operand) (b : Int)
    (hc : FromInterface c = some b) :
    CS.mulPair h cs (.variable v) c = returned (h.mulConstant cs v b) ∧
    CS.mulPair h cs c (.variable v) = returned (h.mulConstant cs v b) := by
  rcases c with v2 | l | k | i | n | s | _
  · cases hc
  · cases hc
  all_goals exact ⟨by simp only [CS.mulPair, hc], by simp only [CS.mulPair, hc]⟩

/-- C16: for a variable `v` and a constant `c` of value `b`, `MUL(v, c)` and `MUL(c, v)`
both return what the constant scaling `mulConstant(v, b)` returns, whatever the bilinear
`mul` would do; for two variables, `MUL(v1, v2)` returns what the bilinear `mul(v1, v2)`
returns. -/
theorem MUL_paths (h : Helpers) (cs : CS) (v : Variable) (c : Operand) (b : Int)
    (hc : FromInterface c = some b) :
    CS.MUL h cs (.variable v) c [] = returned (h.mulConstant cs v b) ∧
    CS.MUL h cs c (.variable v) [] = returned (h.mulConstant cs v b) ∧
    (∀ v1 v2 : Variable,
      CS.MUL h cs (.variable v1) (.variable v2) [] = returned (h.mul cs v1 v2)) := by
  obtain ⟨h1, h2⟩ := mulPair_constant h cs v c b hc
  refine ⟨?_, ?_, ?_⟩
  · simp only [CS.MUL, h1, returned, CS.mulRest]
  · simp only [CS.MUL, h2, returned, CS.mulRest]
  · intro v1 v2
    rfl

/-- C16, at `sampleCS`: the machine integer 3 scales the variable of wire 1 from either
side, and the product of the variable with itself is bilinear. -/
theorem MUL_paths_witness :
    CS.MUL sampleHelpers sampleCS (.variable ⟨1, none⟩) (.int 3) [] =
      CS.MUL sampleHelpers sampleCS (.int 3) (.variable ⟨1, none⟩) [] ∧
    CS.MUL sampleHelpers sampleCS (.variable ⟨1, none⟩) (.variable ⟨1, none⟩) [] =
      returned (sampleHelpers.mul sampleCS ⟨1, none⟩ ⟨1, none⟩) := by
  obtain ⟨h1, h2, h3⟩ := MUL_paths sampleHelpers sampleCS ⟨1, none⟩ (.int 3) 3 rfl
  exact ⟨h1.trans h2.symm, h3 _ _⟩

/-- C17: on two operands neither of which is a `Variable` or a `LinearCombination`, each
of `ADD`, `SUB`, `MUL`, `DIV` and `MUSTBE_EQ` panics, whatever operands follow the first
two, and the constraint system at the panic is the one of the call. -/
theorem constants_rejected (h : Helpers) (cs : CS) (i1 i2 : Operand) (rest : List Operand)
    (h1 : i1.isPlain) (h2 : i2.isPlain) :
    (∃ m, CS.ADD h cs i1 i2 rest = .panic m cs) ∧
    (∃ m, CS.SUB h cs i1 i2 = .panic m cs) ∧
    (∃ m, CS.MUL h cs i1 i2 rest = .panic m cs) ∧
    (∃ m, CS.DIV h cs i1 i2 = .panic m cs) ∧
    (∃ m, CS.MUSTBE_EQ h cs i1 i2 = .panic m cs) := by
  have hadd : CS.addPair h cs i1 i2 = .panic "invalid type" cs := by
    rcases i1 with v1 | l1 | k1 | j1 | n1 | s1 | _
    · exact absurd rfl (h1.1 v1)
    · exact absurd rfl (h1.2 l1)
    all_goals
      rcases i2 with v2 | l2 | k2 | j2 | n2 | s2 | _
      · exact absurd rfl (h2.1 v2)
      · exact absurd rfl (h2.2 l2)
      all_goals rfl
  have hmul : CS.mulPair h cs i1 i2 = .panic "invalid type" cs := by
    rcases i1 with v1 | l1 | k1 | j1 | n1 | s1 | _
    · exact absurd rfl (h1.1 v1)
    · exact absurd rfl (h1.2 l1)
    all_goals
      rcases i2 with v2 | l2 | k2 | j2 | n2 | s2 | _
      · exact absurd rfl (h2.1 v2)
      · exact absurd rfl (h2.2 l2)
      all_goals rfl
  have hdiv : CS.DIV h cs i1 i2 = .panic "invalid type" cs := by
    rcases i1 with v1 | l1 | k1 | j1 | n1 | s1 | _
    · exact absurd rfl (h1.1 v1)
    · exact absurd rfl (h1.2 l1)
    all_goals
      rcases i2 with v2 | l2 | k2 | j2 | n2 | s2 | _
      · exact absurd rfl (h2.1 v2)
      · exact absurd rfl (h2.2 l2)
      all_goals rfl
  have hsub : CS.SUB h cs i1 i2 =
      match FromInterface i1 with
      | none => .panic fromInterfacePanic cs
      | some _ => .panic "invalid type" cs := by
    rcases i1 with v1 | l1 | k1 | j1 | n1 | s1 | _
    · exact absurd rfl (h1.1 v1)
    · exact absurd rfl (h1.2 l1)
    all_goals
      rcases i2 with v2 | l2 | k2 | j2 | n2 | s2 | _
      · exact absurd rfl (h2.1 v2)
      · exact absurd rfl (h2.2 l2)
      all_goals rfl
  have heq : CS.MUSTBE_EQ h cs i1 i2 =
      match FromInterface i1 with
      | none => .panic fromInterfacePanic cs
      | some _ => .panic "invalid type: MUSTBE_EQ takes Variables and big.Int only" cs := by
    rw [MUSTBE_EQ_other_left h cs i1 i2 h1.1]
    rcases i2 with v2 | l2 | k2 | j2 | n2 | s2 | _
    · exact absurd rfl (h2.1 v2)
    all_goals rfl
  refine ⟨?_, ?_, ?_, ⟨_, hdiv⟩, ?_⟩
  · exact ⟨"invalid type", by simp only [CS.ADD, hadd]⟩
  · rw [hsub]
    cases FromInterface i1 with
    | none => exact ⟨_, rfl⟩
    | some b => exact ⟨_, rfl⟩
  · exact ⟨"invalid type", by simp only [CS.MUL, hmul]⟩
  · rw [heq]
    cases FromInterface i1 with
    | none => exact ⟨_, rfl⟩
    | some b => exact ⟨_, rfl⟩

/-- C17, at `sampleCS` and the constants 2 and 3. -/
theorem constants_rejected_witness :
    CS.ADD sampleHelpers sampleCS (.int 2) (.bigInt 3) [.variable ⟨1, none⟩] =
      .panic "invalid type" sampleCS ∧
    ∃ m, CS.MUSTBE_EQ sampleHelpers sampleCS (.int 2) (.bigInt 3) = .panic m sampleCS := by
  have hp2 : (Operand.int 2).isPlain := isPlain_of_constant _ 2 rfl
  have hp3 : (Operand.bigInt 3).isPlain := isPlain_of_constant _ 3 rfl
  have h := constants_rejected sampleHelpers sampleCS (.int 2) (.bigInt 3)
    [.variable ⟨1, none⟩] hp2 hp3
  exact ⟨rfl, h.2.2.2.2⟩

/-! ## The leaf handler of `Compile` -/

/-- C18: on a settable leaf, the handler returns the error `circuit was already compiled`
when the variable of the leaf holds a non-zero wire id, otherwise the error
`circuit has some assigned values, can't compile` when it holds a value; in both cases
the leaf and the constraint system are returned as they were. When it returns without
error, the leaf held wire id 0 and no value. -/
theorem handler_state_errors (cs : CS) (visibility : attrVisibility) (name : String)
    (tInput : Leaf) (hset : tInput.canSet = true) :
    (tInput.value.constraintID ≠ 0 →
      Compile.handler cs visibility name tInput =
        .returned (some "circuit was already compiled") tInput cs) ∧
    (tInput.value.constraintID = 0 → tInput.value.val ≠ none →
      Compile.handler cs visibility name tInput =
        .returned (some "circuit has some assigned values, can't compile") tInput cs) ∧
    (∀ (leaf' : Leaf) (cs' : CS),
      Compile.handler cs visibility name tInput = .returned none leaf' cs' →
      tInput.value.constraintID = 0 ∧ tInput.value.val = none) := by
  refine ⟨?_, ?_, ?_⟩
  · intro hid
    unfold Compile.handler
    rw [if_pos hset, if_pos hid]
  · intro hid hval
    unfold Compile.handler
    rw [if_pos hset, if_neg (not_not.mpr hid), if_pos hval]
  · intro leaf' cs' h
    unfold Compile.handler at h
    rw [if_pos hset] at h
    by_cases hid : tInput.value.constraintID ≠ 0
    · rw [if_pos hid] at h
      cases h
    · rw [if_neg hid] at h
      by_cases hval : tInput.value.val ≠ none
      · rw [if_pos hval] at h
        cases h
      · exact ⟨not_not.mp hid, not_not.mp hval⟩

/-- C18, at `sampleCS`: a leaf already bound to wire 1, and a leaf holding the value 7. -/
theorem handler_state_errors_witness :
    Compile.handler sampleCS .unset "x" ⟨true, ⟨1, none⟩⟩ =
      .returned (some "circuit was already compiled") ⟨true, ⟨1, none⟩⟩ sampleCS ∧
    Compile.handler sampleCS .public "x" ⟨true, ⟨0, some 7⟩⟩ =
      .returned (some "circuit has some assigned values, can't compile")
        ⟨true, ⟨0, some 7⟩⟩ sampleCS :=
  ⟨(handler_state_errors sampleCS .unset "x" ⟨true, ⟨1, none⟩⟩ rfl).1 (by decide),
   (handler_state_errors sampleCS .public "x" ⟨true, ⟨0, some 7⟩⟩ rfl).2.1 rfl (by decide)⟩

/-- A successful `SECRET_INPUT` exists for a non-empty name outside the name set. -/
theorem SECRET_INPUT_of_fresh (cs : CS) (name : String) (hA : cs.Allocated) (hne : name ≠ "")
    (hfresh : ¬ ∃ u, (name, u) ∈ cs.wireNames) :
    cs.SECRET_INPUT name = some (⟨cs.nbConstraints, none⟩,
      { cs with
        constraints := cs.constraints ++ [(cs.nbConstraints, ⟨none⟩)]
        nbConstraints := cs.nbConstraints + 1
        wireNames := cs.wireNames ++ [(name, ())]
        secretWireNames := cs.secretWireNames ++ [(cs.nbConstraints, name)] }) := by
  cases h : cs.SECRET_INPUT name with
  | none =>
    rcases (SECRET_INPUT_eq_none_iff cs name).mp h with h' | h'
    · exact absurd h' hne
    · exact absurd h' hfresh
  | some r =>
    obtain ⟨v, cs'⟩ := r
    obtain ⟨hv, hcs⟩ := SECRET_INPUT_some cs name v cs' hA h
    rw [hv, hcs]

/-- A successful `PUBLIC_INPUT` exists for a non-empty name outside the name set. -/
theorem PUBLIC_INPUT_of_fresh (cs : CS) (name : String) (hA : cs.Allocated) (hne : name ≠ "")
    (hfresh : ¬ ∃ u, (name, u) ∈ cs.wireNames) :
    cs.PUBLIC_INPUT name = some (⟨cs.nbConstraints, none⟩,
      { cs with
        constraints := cs.constraints ++ [(cs.nbConstraints, ⟨none⟩)]
        nbConstraints := cs.nbConstraints + 1
        wireNames := cs.wireNames ++ [(name, ())]
        publicWireNames := cs.publicWireNames ++ [(cs.nbConstraints, name)] }) := by
  cases h : cs.PUBLIC_INPUT name with
  | none =>
    rcases (PUBLIC_INPUT_eq_none_iff cs name).mp h with h' | h'
    · exact absurd h' hne
    · exact absurd h' hfresh
  | some r =>
    obtain ⟨v, cs'⟩ := r
    obtain ⟨hv, hcs⟩ := PUBLIC_INPUT_some cs name v cs' hA h
    rw [hv, hcs]

/-- C19 as stated fails: on `sampleCS`, where the name `b` is registered, the handler
called on an unbound, unassigned, settable leaf with the name `b` panics in
`SECRET_INPUT` and stores no wire in the leaf. -/
theorem handler_duplicate_name :
    Compile.handler sampleCS .unset "b" ⟨true, ⟨0, none⟩⟩ = .panicked ∧
    ¬ ∃ leaf' cs', Compile.handler sampleCS .unset "b" ⟨true, ⟨0, none⟩⟩ =
      .returned none leaf' cs' := by
  have h : Compile.handler sampleCS .unset "b" ⟨true, ⟨0, none⟩⟩ = .panicked := by decide
  refine ⟨h, ?_⟩
  rintro ⟨leaf', cs', h'⟩
  rw [h] at h'
  cases h'

/-- C19, amended: for an unbound, unassigned, settable leaf whose name is non-empty and
registered in neither registry, the handler returns without error, stores in the leaf
the variable of the next wire and allocates that wire, and no other, as an input: under
the name in the secret registry and not in the public one when the visibility is unset
or secret, under the name in the public registry and not in the secret one when it is
public. -/
theorem handler_allocates (cs : CS) (visibility : attrVisibility) (name : String)
    (tInput : Leaf) (hA : cs.Allocated) (hS : cs.NamesInSync)
    (hset : tInput.canSet = true) (hid : tInput.value.constraintID = 0)
    (hval : tInput.value.val = none) (hne : name ≠ "")
    (hs : ¬ cs.isSecretName name) (hp : ¬ cs.isPublicName name) :
    ∃ cs', Compile.handler cs visibility name tInput =
        .returned none { tInput with value := ⟨cs.nbConstraints, none⟩ } cs' ∧
      cs'.nbConstraints = cs.nbConstraints + 1 ∧
      cs'.constraints = cs.constraints ++ [(cs.nbConstraints, ⟨none⟩)] ∧
      (visibility ≠ .public →
        cs'.secretWireNames.get cs.nbConstraints = some name ∧
        cs'.isSecretName name ∧ ¬ cs'.isPublicName name) ∧
      (visibility = .public →
        cs'.publicWireNames.get cs.nbConstraints = some name ∧
        cs'.isPublicName name ∧ ¬ cs'.isSecretName name) := by
  have hfresh : ¬ ∃ u, (name, u) ∈ cs.wireNames := by
    intro h
    rcases (hS name).mp h with h | h
    · exact hs h
    · exact hp h
  have hsec := SECRET_INPUT_of_fresh cs name hA hne hfresh
  have hpub := PUBLIC_INPUT_of_fresh cs name hA hne hfresh
  have hgs : GoMap.get (cs.secretWireNames ++ [(cs.nbConstraints, name)]) cs.nbConstraints
      = some name :=
    GoMap.get_append_fresh _ _ _ (fun e he => Nat.ne_of_lt (hA.2.1 e he))
  have hgp : GoMap.get (cs.publicWireNames ++ [(cs.nbConstraints, name)]) cs.nbConstraints
      = some name :=
    GoMap.get_append_fresh _ _ _ (fun e he => Nat.ne_of_lt (hA.2.2 e he))
  have hhandler : Compile.handler cs visibility name tInput =
      match visibility with
      | .unset | .secret =>
        match cs.SECRET_INPUT name with
        | none => .panicked
        | some r => .returned none { tInput with value := r.1 } r.2
      | .public =>
        match cs.PUBLIC_INPUT name with
        | none => .panicked
        | some r => .returned none { tInput with value := r.1 } r.2 := by
    unfold Compile.handler
    rw [if_pos hset, if_neg (not_not.mpr hid), if_neg (not_not.mpr hval)]
  rcases visibility with _ | _ | _
  · rw [hhandler, hsec]
    refine ⟨_, rfl, rfl, rfl, fun _ => ⟨hgs, ⟨cs.nbConstraints, ?_⟩, hp⟩, fun h => by cases h⟩
    show (cs.nbConstraints, name) ∈ cs.secretWireNames ++ [(cs.nbConstraints, name)]
    simp
  · rw [hhandler, hsec]
    refine ⟨_, rfl, rfl, rfl, fun _ => ⟨hgs, ⟨cs.nbConstraints, ?_⟩, hp⟩, fun h => by cases h⟩
    show (cs.nbConstraints, name) ∈ cs.secretWireNames ++ [(cs.nbConstraints, name)]
    simp
  · rw [hhandler, hpub]
    refine ⟨_, rfl, rfl, rfl, fun h => absurd rfl h, fun _ => ⟨hgp, ⟨cs.nbConstraints, ?_⟩, hs⟩⟩
    show (cs.nbConstraints, name) ∈ cs.publicWireNames ++ [(cs.nbConstraints, name)]
    simp

/-- C19, amended, at `sampleCS`: a public leaf named `c`. -/
theorem handler_allocates_witness :
    ∃ cs', Compile.handler sampleCS .public "c" ⟨true, ⟨0, none⟩⟩ =
        .returned none ⟨true, ⟨2, none⟩⟩ cs' ∧
      cs'.publicWireNames.get 2 = some "c" ∧ ¬ cs'.isSecretName "c" := by
  have hA : sampleCS.Allocated := by
    unfold CS.Allocated
    decide
  have hS : sampleCS.NamesInSync := by
    intro name
    simp [sampleCS, CS.isSecretName, CS.isPublicName]
  have hs : ¬ sampleCS.isSecretName "c" := by
    simp [sampleCS, CS.isSecretName]
  have hp : ¬ sampleCS.isPublicName "c" := by
    simp [sampleCS, CS.isPublicName]
  obtain ⟨cs', h1, _, _, _, h5⟩ :=
    handler_allocates sampleCS .public "c" ⟨true, ⟨0, none⟩⟩ hA hS rfl rfl rfl (by decide) hs hp
  exact ⟨cs', h1, (h5 rfl).1, (h5 rfl).2.2⟩

/-! ## Bit decomposition: `TO_BINARY` then `FROM_BINARY` -/

theorem unpackLoop_length (n : Nat) :
    ∀ (cs : CS) (bits : List Variable) (ids : List Nat),
      (cs.unpackLoop bits ids n).2.1.length = bits.length + n := by
  induction n with
  | zero =>
    intro cs bits ids
    rfl
  | succ n ih =>
    intro cs bits ids
    simp only [CS.unpackLoop]
    rw [ih]
    simp
    omega

theorem unpackLoop_ids (n : Nat) :
    ∀ (cs : CS) (bits : List Variable) (ids : List Nat), ids = bits.map Variable.id →
      (cs.unpackLoop bits ids n).2.2 = (cs.unpackLoop bits ids n).2.1.map Variable.id := by
  induction n with
  | zero =>
    intro cs bits ids h
    exact h
  | succ n ih =>
    intro cs bits ids h
    simp only [CS.unpackLoop]
    apply ih
    rw [h]
    simp

theorem MUSTBE_BOOLEAN_moExpressions (cs : CS) (c : Variable) :
    (cs.MUSTBE_BOOLEAN c).moExpressions = cs.moExpressions := by
  rcases MUSTBE_BOOLEAN_cases cs c with h | h <;> rw [h]

theorem unpackLoop_moExpressions (n : Nat) :
    ∀ (cs : CS) (bits : List Variable) (ids : List Nat),
      (cs.unpackLoop bits ids n).1.moExpressions = cs.moExpressions := by
  induction n with
  | zero =>
    intro cs bits ids
    rfl
  | succ n ih =>
    intro cs bits ids
    simp only [CS.unpackLoop]
    rw [ih, MUSTBE_BOOLEAN_moExpressions]
    rfl

theorem packLoop_bits (b : List Variable) :
    ∀ (cs : CS) (acc : List Nat), (cs.packLoop acc b).2 = acc ++ b.map Variable.id := by
  induction b with
  | nil =>
    intro cs acc
    simp [CS.packLoop]
  | cons c rest ih =>
    intro cs acc
    simp only [CS.packLoop]
    rw [ih]
    simp

theorem packLoop_moExpressions (b : List Variable) :
    ∀ (cs : CS) (acc : List Nat), (cs.packLoop acc b).1.moExpressions = cs.moExpressions := by
  induction b with
  | nil =>
    intro cs acc
    rfl
  | cons c rest ih =>
    intro cs acc
    simp only [CS.packLoop]
    rw [ih, MUSTBE_BOOLEAN_moExpressions]

/-- The weighted sum of bits that hold 0 or 1 lies between 0 and `2 ^ n - 1`. -/
theorem bitSum_bound (w : Nat → Int) (bits : List Nat)
    (h : ∀ b ∈ bits, w b = 0 ∨ w b = 1) :
    0 ≤ bitSum w bits ∧ bitSum w bits < 2 ^ bits.length := by
  induction bits with
  | nil => simp [bitSum]
  | cons b rest ih =>
    obtain ⟨h1, h2⟩ := ih (fun x hx => h x (by simp [hx]))
    have hb := h b (by simp)
    simp only [bitSum, List.length_cons, pow_succ]
    rcases hb with hb | hb <;> rw [hb] <;> constructor <;> omega

/-- C20: `TO_BINARY(c, n)` returns `n` variables and registers, as the last gate of the
multi-output list, an Unpack gate of `c` over their wires in order; `FROM_BINARY` of
these variables returns a wire governed by a Pack gate over the same wires in the same
order. So, under the semantics of the two gates, first bit least significant, the packed
wire holds the value `v` of `c`, and `v` is its own remainder modulo `2 ^ n`. -/
theorem unpack_pack_roundtrip (cs : CS) (c : Variable) (n : Nat) :
    (cs.TO_BINARY c n).1.length = n ∧
    (cs.TO_BINARY c n).2.moExpressions =
      cs.moExpressions ++ [.unpackExpression ((cs.TO_BINARY c n).1.map Variable.id) c.id] ∧
    ((cs.TO_BINARY c n).2.FROM_BINARY (cs.TO_BINARY c n).1).2.moExpressions =
      (cs.TO_BINARY c n).2.moExpressions ∧
    ((cs.TO_BINARY c n).2.FROM_BINARY (cs.TO_BINARY c n).1).2.constraints.get
        ((cs.TO_BINARY c n).2.FROM_BINARY (cs.TO_BINARY c n).1).1.id =
      some ⟨some (.packExpression ((cs.TO_BINARY c n).1.map Variable.id))⟩ ∧
    (∀ w : Nat → Int,
      unpackHolds w ((cs.TO_BINARY c n).1.map Variable.id) c.id →
      packHolds w ((cs.TO_BINARY c n).1.map Variable.id)
        ((cs.TO_BINARY c n).2.FROM_BINARY (cs.TO_BINARY c n).1).1.id →
      w ((cs.TO_BINARY c n).2.FROM_BINARY (cs.TO_BINARY c n).1).1.id = w c.id ∧
      w c.id % 2 ^ n = w c.id) := by
  have hlen : (cs.TO_BINARY c n).1.length = n := by
    show (cs.unpackLoop [] [] n).2.1.length = n
    rw [unpackLoop_length]
    simp
  have hids : (cs.unpackLoop [] [] n).2.2 = (cs.TO_BINARY c n).1.map Variable.id :=
    unpackLoop_ids n cs [] [] rfl
  refine ⟨hlen, ?_, ?_, ?_, ?_⟩
  · show (cs.unpackLoop [] [] n).1.moExpressions ++ [.unpackExpression _ c.id] = _
    rw [unpackLoop_moExpressions, hids]
  · show ((cs.TO_BINARY c n).2.packLoop [] (cs.TO_BINARY c n).1).1.moExpressions = _
    rw [packLoop_moExpressions]
  · show GoMap.get (GoMap.set _ _ _) _ = _
    rw [packLoop_bits]
    exact GoMap.get_set_self _ _ _
  · intro w hu hp
    obtain ⟨hbits, hsum⟩ := hu
    unfold packHolds at hp
    obtain ⟨h0, h1⟩ := bitSum_bound w _ hbits
    rw [List.length_map, hlen, hsum] at h1
    rw [hsum] at h0
    refine ⟨hp.trans hsum, Int.emod_eq_of_lt h0 h1⟩

/-- C20, at wire 1 of `sampleCS`, holding 5, on three bits. -/
theorem unpack_pack_roundtrip_witness :
    (CS.TO_BINARY sampleCS ⟨1, none⟩ 3).1.map Variable.id = [2, 3, 4] ∧
    sampleBits 5 = sampleBits 1 ∧ sampleBits 1 % 2 ^ 3 = sampleBits 1 :=
  ⟨by decide,
    (unpack_pack_roundtrip sampleCS ⟨1, none⟩ 3).2.2.2.2 sampleBits
      (by unfold unpackHolds; decide) (by unfold packHolds; decide)⟩

/-! ## The specialization pass: index bounds -/

/-- C26: on a generic R1CS in which every term without inline special value has its
coefficient index inside the input table, `toBLS381` returns, that is, the read
`r1cs.Coefficients[uTerm.CoeffID()]` is never out of range, and every output term that
carries no inline special value has a coefficient index below the length of the output
table. -/
theorem toBLS381_indices_in_range (r1cs : UntypedR1CS) (hv : ValidIndices r1cs) :
    ∃ out, toBLS381 r1cs = some out ∧
      (∀ (i : Nat) (s : Side) (j : Nat) (t : Term),
        termAt r1cs.Constraints i s j = some t →
        ∃ u, termAt out.Constraints i s j = some u) ∧
      ∀ (i : Nat) (s : Side) (j : Nat) (u : Term),
        termAt out.Constraints i s j = some u → u.special = none →
        u.coeffID < out.Coefficients.length := by
  obtain ⟨out, hout, _, hr⟩ := toBLS381_post r1cs hv
  refine ⟨out, hout, ?_, ?_⟩
  · intro i s j t ht
    obtain ⟨u, hu, _⟩ := termRel_of_post r1cs out hr i s j t ht
    exact ⟨u, hu⟩
  · intro i s j u hu hsp
    have hflip : List.Forall₂
        (fun d c : R1C => ∀ s : Side,
          List.Forall₂ (fun u t : Term => TermRel r1cs.Coefficients out.Coefficients t u)
            (d.side s) (c.side s))
        out.Constraints r1cs.Constraints :=
      hr.flip.imp (fun _ _ h s => (h.2 s).flip)
    obtain ⟨t, _, _, b, _, _, _, hget⟩ := termAt_rel _ _ _ hflip i s j u hu
    have hsome := hget hsp
    by_contra hge
    rw [List.getElem?_eq_none (by omega)] at hsome
    cases hsome

/-- C26, at `sampleR1CS`: the output term at the last position of the second constraint
has its index inside the output table. -/
theorem toBLS381_indices_in_range_witness :
    ValidIndices sampleR1CS ∧
    ∃ out, toBLS381 sampleR1CS = some out ∧
      ∃ u, termAt out.Constraints 1 Side.O 0 = some u := by
  have hv : ValidIndices sampleR1CS := by
    unfold ValidIndices
    decide
  obtain ⟨out, h1, h2, _⟩ := toBLS381_indices_in_range sampleR1CS hv
  exact ⟨hv, out, h1, h2 1 Side.O 0 ⟨3, 0, none⟩ rfl⟩

/-! ## The arithmetic API: `MUL` and linear combinations -/

/-- C27: for a linear combination `l` and a constant `c`, `MUL(l, c)` returns what
`mullcinterface(l, c)` returns, whereas `MUL(c, l)` panics with `invalid type` and leaves
the constraint system as it was; for a linear combination `l` and a variable `v`,
`MUL(l, v)` and `MUL(v, l)` both return what `mullcinterface(l, v)` returns. -/
theorem MUL_linear_combination (h : Helpers) (cs : CS) (l : LinearCombination)
    (c : Operand) (b : Int) (hc : FromInterface c = some b) :
    CS.MUL h cs (.linearCombination l) c [] = returned (h.mullcinterface cs l c) ∧
    CS.MUL h cs c (.linearCombination l) [] = .panic "invalid type" cs ∧
    (∀ v : Variable,
      CS.MUL h cs (.linearCombination l) (.variable v) [] =
        returned (h.mullcinterface cs l (.variable v)) ∧
      CS.MUL h cs (.variable v) (.linearCombination l) [] =
        returned (h.mullcinterface cs l (.variable v))) := by
  refine ⟨?_, ?_, fun v => ⟨rfl, rfl⟩⟩
  · rcases c with v2 | l2 | k | i | n | s | _
    · cases hc
    · cases hc
    all_goals rfl
  · rcases c with v2 | l2 | k | i | n | s | _
    · cases hc
    · cases hc
    all_goals rfl

/-- C27, at `sampleCS`, the linear combination `2 * b` and the constant 3. -/
theorem MUL_linear_combination_witness :
    (CS.MUL sampleHelpers sampleCS (.linearCombination [(⟨1, none⟩, 2)]) (.int 3) []).isOk
      = true ∧
    CS.MUL sampleHelpers sampleCS (.int 3) (.linearCombination [(⟨1, none⟩, 2)]) [] =
      .panic "invalid type" sampleCS := by
  obtain ⟨h1, h2, _⟩ :=
    MUL_linear_combination sampleHelpers sampleCS [(⟨1, none⟩, 2)] (.int 3) 3 rfl
  exact ⟨by rw [h1]; rfl, h2⟩

/-! ## `Save` -/

/-- C21: for an R1CS whose curve identifier is `UNKNOWN`, `Save` returns the error
`trying to serialize untyped R1CS` and leaves the outside world as it was, without
calling the writer; for an R1CS bound to a curve it returns what the writer returns,
called with the path, the R1CS and its curve identifier. -/
theorem Save_untyped {ρ W : Type} (GetCurveID : ρ → ID)
    (Write : W → String → ρ → ID → Option String × W) (world : W) (r1cs : ρ) (path : String) :
    (GetCurveID r1cs = ID.UNKNOWN →
      Save GetCurveID Write world r1cs path =
        (some "trying to serialize untyped R1CS", world)) ∧
    (GetCurveID r1cs ≠ ID.UNKNOWN →
      Save GetCurveID Write world r1cs path =
        Write world path r1cs (GetCurveID r1cs)) := by
  constructor
  · intro hu
    unfold Save
    rw [if_pos hu]
  · intro hb
    unfold Save
    rw [if_neg hb]

/-- C21, at the generic `sampleR1CS` and at its specialization `sampleBLS381`. -/
theorem Save_untyped_witness :
    Save sampleCurveID sampleWrite [] (.inl sampleR1CS) "circuit.r1cs" =
      (some "trying to serialize untyped R1CS", []) ∧
    Save sampleCurveID sampleWrite [] (.inr sampleBLS381) "circuit.r1cs" =
      (none, [("circuit.r1cs", ID.BLS381)]) :=
  ⟨(Save_untyped sampleCurveID sampleWrite [] (.inl sampleR1CS) "circuit.r1cs").1 rfl,
   (Save_untyped sampleCurveID sampleWrite [] (.inr sampleBLS381) "circuit.r1cs").2
     (by decide)⟩

/-! ## `ToAssignment` -/

theorem parseType_extract_cons_some (m : GoMap String Int) (l : VisitedLeaf)
    (rest : List VisitedLeaf) (x : Int) (hx : l.tInput.value.val = some x) :
    parseType extractHandler m (l :: rest) = parseType extractHandler (m.set l.name x) rest := by
  simp only [parseType, extractHandler, hx]

theorem parseType_extract_cons_none (m : GoMap String Int) (l : VisitedLeaf)
    (rest : List VisitedLeaf) (hx : l.tInput.value.val = none) :
    parseType extractHandler m (l :: rest) =
      (some (l.name ++ " has no assigned value."), m) := by
  simp only [parseType, extractHandler, hx]

/-- The traversal with `extractHandler` returns an error exactly when some leaf holds no
value. -/
theorem parseType_extract_error_iff (leaves : List VisitedLeaf) :
    ∀ m : GoMap String Int,
      (parseType extractHandler m leaves).1 ≠ none ↔
        ∃ l ∈ leaves, l.tInput.value.val = none := by
  induction leaves with
  | nil =>
    intro m
    simp [parseType]
  | cons l rest ih =>
    intro m
    cases hx : l.tInput.value.val with
    | none =>
      rw [parseType_extract_cons_none m l rest hx]
      simp only [ne_eq, not_false_eq_true, true_iff, reduceCtorEq]
      exact ⟨l, by simp, hx⟩
    | some x =>
      rw [parseType_extract_cons_some m l rest x hx, ih]
      constructor
      · rintro ⟨l', hl', hv⟩
        exact ⟨l', by simp [hl'], hv⟩
      · rintro ⟨l', hl', hv⟩
        rcases List.mem_cons.mp hl' with h | h
        · rw [h, hx] at hv
          cases hv
        · exact ⟨l', h, hv⟩

/-- A key that is the name of no leaf keeps the entry it had. -/
theorem parseType_extract_get_other (leaves : List VisitedLeaf) :
    ∀ (m : GoMap String Int) (k : String),
      (∀ l ∈ leaves, l.tInput.value.val ≠ none) → k ∉ leaves.map (fun l => l.name) →
      GoMap.get (parseType extractHandler m leaves).2 k = GoMap.get m k := by
  induction leaves with
  | nil =>
    intro m k _ _
    rfl
  | cons l rest ih =>
    intro m k hall hk
    cases hx : l.tInput.value.val with
    | none => exact absurd hx (hall l (by simp))
    | some x =>
      rw [parseType_extract_cons_some m l rest x hx,
        ih _ k (fun l' hl' => hall l' (by simp [hl'])) (fun h => hk (by simp [h]))]
      apply GoMap.get_set_ne
      intro hkl
      apply hk
      simp [hkl]

/-- With pairwise distinct names, the name of each leaf is mapped to its value. -/
theorem parseType_extract_get_mem (leaves : List VisitedLeaf) :
    ∀ (m : GoMap String Int),
      (∀ l ∈ leaves, l.tInput.value.val ≠ none) → (leaves.map (fun l => l.name)).Nodup →
      ∀ l ∈ leaves,
        GoMap.get (parseType extractHandler m leaves).2 l.name = l.tInput.value.val := by
  induction leaves with
  | nil =>
    intro m _ _ l hl
    simp at hl
  | cons l₀ rest ih =>
    intro m hall hnd l hl
    rw [List.map_cons, List.nodup_cons] at hnd
    have hrest : ∀ l' ∈ rest, l'.tInput.value.val ≠ none :=
      fun l' hl' => hall l' (by simp [hl'])
    cases hx : l₀.tInput.value.val with
    | none => exact absurd hx (hall l₀ (by simp))
    | some x =>
      rw [parseType_extract_cons_some m l₀ rest x hx]
      rcases List.mem_cons.mp hl with h | h
      · rw [h, parseType_extract_get_other rest _ l₀.name hrest hnd.1, GoMap.get_set_self, hx]
      · exact ih _ hrest hnd.2 l h

/-- C22 as stated fails: of two visited leaves with the name `x`, holding 1 and 2, the
mapping keeps the second value; the name of the first leaf is not mapped to its value. -/
theorem ToAssignment_duplicate_name :
    ToAssignment sampleDuplicate = ([("x", 2)], none) ∧
    (∀ l ∈ sampleDuplicate, l.tInput.value.val ≠ none) ∧
    ¬ ∀ l ∈ sampleDuplicate,
      (ToAssignment sampleDuplicate).1.get l.name = l.tInput.value.val := by
  refine ⟨by decide, by decide, ?_⟩
  intro h
  have h1 := h ⟨.unset, "x", ⟨true, ⟨0, some 1⟩⟩⟩ (by decide)
  revert h1
  decide

/-- C22, amended: `ToAssignment` returns an error if and only if some visited leaf holds
no assigned value; when every visited leaf holds a value and no two visited leaves have
the same name, the returned mapping maps the name of each visited leaf to its value and
has no other key. -/
theorem ToAssignment_mapping (circuit : List VisitedLeaf) :
    ((ToAssignment circuit).2 ≠ none ↔ ∃ l ∈ circuit, l.tInput.value.val = none) ∧
    ((∀ l ∈ circuit, l.tInput.value.val ≠ none) →
      (circuit.map (fun l => l.name)).Nodup →
      (∀ l ∈ circuit, (ToAssignment circuit).1.get l.name = l.tInput.value.val) ∧
      (∀ k v, (ToAssignment circuit).1.get k = some v → ∃ l ∈ circuit, l.name = k)) := by
  refine ⟨parseType_extract_error_iff circuit [], ?_⟩
  intro hall hnd
  refine ⟨parseType_extract_get_mem circuit [] hall hnd, ?_⟩
  intro k v hget
  by_contra hno
  have hk : k ∉ circuit.map (fun l => l.name) := by
    intro hmem
    obtain ⟨l, hl, hlk⟩ := List.mem_map.mp hmem
    exact hno ⟨l, hl, hlk⟩
  have h := parseType_extract_get_other circuit [] k hall hk
  have hget' : GoMap.get (parseType extractHandler [] circuit).2 k = some v := hget
  rw [h] at hget'
  simp [GoMap.get] at hget'

/-- C22, amended, at `sampleAssigned`: the names `a` and `b` are mapped to 3 and 9. -/
theorem ToAssignment_mapping_witness :
    (ToAssignment sampleAssigned).2 = none ∧
    (ToAssignment sampleAssigned).1.get "b" = some 9 := by
  have hall : ∀ l ∈ sampleAssigned, l.tInput.value.val ≠ none := by decide
  have hnd : (sampleAssigned.map (fun l => l.name)).Nodup := by decide
  have h := ((ToAssignment_mapping sampleAssigned).2 hall hnd).1
    ⟨.public, "b", ⟨true, ⟨0, some 9⟩⟩⟩ (by decide)
  exact ⟨by decide, h⟩

/-! ## `Fp6Elmt`: multiplication by the non-residue, product -/

/-- With a receiver other than its argument, `MulByNonResidue` leaves in the receiver the
argument multiplied by `V`: `(B2 * vCube, B0, B1)`. -/
theorem MulByNonResidue_apart {F : Type} (ops : Fp2Ops F) (m : Fp6Memory F) (e e1 : Nat)
    (ext : Extension F) (hne : e1 ≠ e) :
    Fp6Elmt.MulByNonResidue ops m e e1 ext e =
      ⟨ops.Mul ext (m e1).B2 ext.vCube, (m e1).B0, (m e1).B1⟩ := by
  simp [Fp6Elmt.MulByNonResidue, Fp6Memory.setB0, Fp6Memory.setB1, Fp6Memory.setB2, hne]

/-- With the receiver as its own argument, `MulByNonResidue` reads `B1` after it has
overwritten it with `B0`: it leaves `(B2 * vCube, B0, B0)`. -/
theorem MulByNonResidue_aliased {F : Type} (ops : Fp2Ops F) (m : Fp6Memory F) (e : Nat)
    (ext : Extension F) :
    Fp6Elmt.MulByNonResidue ops m e e ext e =
      ⟨ops.Mul ext (m e).B2 ext.vCube, (m e).B0, (m e).B0⟩ := by
  simp [Fp6Elmt.MulByNonResidue, Fp6Memory.setB0, Fp6Memory.setB1, Fp6Memory.setB2]

/-- The sibling `MulByFp2` computes its three coordinates before it writes the receiver:
it is the same with the receiver as its own argument. -/
theorem MulByFp2_any {F : Type} (ops : Fp2Ops F) (m : Fp6Memory F) (e e1 : Nat) (e2 : F)
    (ext : Extension F) :
    Fp6Elmt.MulByFp2 ops m e e1 e2 ext e =
      ⟨ops.Mul ext (m e1).B0 e2, ops.Mul ext (m e1).B1 e2, ops.Mul ext (m e1).B2 e2⟩ := by
  simp [Fp6Elmt.MulByFp2, Fp6Memory.setB0, Fp6Memory.setB1, Fp6Memory.setB2]

/-- C23, at the element (1, 2, 3) over the integers with `vCube = 5`: called with a
receiver other than its argument, `MulByNonResidue` leaves (15, 1, 2) in the receiver;
called in place, it leaves (15, 1, 1). -/
theorem MulByNonResidue_in_place :
    Fp6Elmt.MulByNonResidue (ringOps 0) sampleMemory 1 0 ⟨5⟩ 1 = ⟨15, 1, 2⟩ ∧
    Fp6Elmt.MulByNonResidue (ringOps 0) sampleMemory 0 0 ⟨5⟩ 0 = ⟨15, 1, 1⟩ :=
  ⟨by decide, by decide⟩

/-- C24: over a commutative ring, with `MulByIm` the product by `xi`, `Mul` leaves in the
receiver the product of `e1 = a + b*v + c*v^2` and `e2 = d + e*v + f*v^2` reduced by
`v^3 = xi`, whether or not the receiver is the same address as `e1` or `e2`, and it
writes no other address. -/
theorem Mul_product {F : Type} [CommRing F] (xi : F) (m : Fp6Memory F) (e e1 e2 : Nat)
    (ext : Extension F) :
    Fp6Elmt.Mul (ringOps xi) m e e1 e2 ext e =
      ⟨(m e1).B0 * (m e2).B0 + xi * ((m e1).B1 * (m e2).B2 + (m e1).B2 * (m e2).B1),
       (m e1).B0 * (m e2).B1 + (m e1).B1 * (m e2).B0 + xi * (m e1).B2 * (m e2).B2,
       (m e1).B0 * (m e2).B2 + (m e1).B1 * (m e2).B1 + (m e1).B2 * (m e2).B0⟩ ∧
    ∀ q : Nat, q ≠ e → Fp6Elmt.Mul (ringOps xi) m e e1 e2 ext q = m q := by
  constructor
  · simp only [Fp6Elmt.Mul, Fp6Memory.setB0, Fp6Memory.setB1, Fp6Memory.setB2, ringOps,
      if_true, Fp6Elmt.mk.injEq]
    refine ⟨?_, ?_, trivial⟩ <;> ring
  · intro q hq
    simp [Fp6Elmt.Mul, Fp6Memory.setB0, Fp6Memory.setB1, Fp6Memory.setB2, hq]

/-- C24, at the element (1, 2, 3) over the integers with `xi = 7`, squared in place: the
receiver holds (85, 67, 10) and the element at another address is as it was. -/
theorem Mul_product_witness :
    Fp6Elmt.Mul (ringOps 7) sampleMemory 0 0 0 ⟨5⟩ 0 = ⟨85, 67, 10⟩ ∧
    Fp6Elmt.Mul (ringOps 7) sampleMemory 0 0 0 ⟨5⟩ 1 = sampleMemory 1 :=
  ⟨(Mul_product 7 sampleMemory 0 0 0 ⟨5⟩).1.trans (by decide),
   (Mul_product 7 sampleMemory 0 0 0 ⟨5⟩).2 1 (by decide)⟩

/-! ## The specialization pass: the content of the coefficient table -/

theorem mem_firstOccurrences {α : Type} [DecidableEq α] (l : List α) (x : α) :
    x ∈ firstOccurrences l ↔ x ∈ l := by
  induction l with
  | nil => simp [firstOccurrences]
  | cons a l ih =>
    simp only [firstOccurrences, List.mem_cons, List.mem_filter, ih, decide_eq_true_eq]
    constructor
    · rintro (h | ⟨h, _⟩)
      · exact Or.inl h
      · exact Or.inr h
    · intro h
      by_cases hx : x = a
      · exact Or.inl hx
      · rcases h with h | h
        · exact Or.inl h
        · exact Or.inr ⟨h, hx⟩

/-- Appending the values that are not in the accumulator yet, one by one from the left,
gives the first occurrences of the values that the accumulator does not hold. -/
theorem foldl_firstOccurrences {α : Type} [DecidableEq α] (xs : List α) :
    ∀ acc : List α,
      xs.foldl (fun acc e => if e ∈ acc then acc else acc ++ [e]) acc =
        acc ++ (firstOccurrences xs).filter (fun y => decide (y ∉ acc)) := by
  induction xs with
  | nil =>
    intro acc
    simp [firstOccurrences]
  | cons x xs ih =>
    intro acc
    simp only [List.foldl_cons, firstOccurrences]
    by_cases hx : x ∈ acc
    · rw [if_pos hx, ih acc]
      congr 1
      rw [List.filter_cons_of_neg (by simpa using hx), List.filter_filter]
      apply List.filter_congr
      intro a _
      by_cases ha : a ∈ acc
      · simp [ha]
      · have hax : a ≠ x := fun e => ha (e ▸ hx)
        simp [ha, hax]
    · rw [if_neg hx, ih (acc ++ [x]), List.filter_cons_of_pos (by simpa using hx),
        List.filter_filter, List.append_assoc]
      congr 1
      simp only [List.singleton_append, List.cons.injEq, true_and]
      apply List.filter_congr
      intro a _
      by_cases ha : a ∈ acc
      · simp [ha]
      · by_cases hax : a = x
        · simp [hax]
        · simp [ha, hax]

/-- The table steps over the terms are the value steps over the referenced values. -/
theorem foldl_tableStep (coefficients : List Int) (ts : List Term) :
    ∀ acc : List Element,
      ts.foldl (tableStep coefficients) acc =
        (ts.filterMap (referenced coefficients)).foldl
          (fun acc e => if e ∈ acc then acc else acc ++ [e]) acc := by
  induction ts with
  | nil =>
    intro acc
    rfl
  | cons t ts ih =>
    intro acc
    cases hr : referenced coefficients t with
    | none =>
      rw [List.foldl_cons, List.filterMap_cons_none hr, ← ih]
      simp only [tableStep, hr]
    | some e =>
      rw [List.foldl_cons, List.filterMap_cons_some hr, List.foldl_cons, ← ih]
      simp only [tableStep, hr]

/-- One call of `getCoeffIdx` on a term with a valid coefficient index: the table it
leaves is the table step of the term. -/
theorem getCoeffIdx_table (coefficients : List Int) (st : CoeffState) (t : Term) (b : Int)
    (hinv : st.Inv) (hv : termValue coefficients t = some b) :
    ∃ r st', getCoeffIdx coefficients st t = some (r, st') ∧ st'.Inv ∧
      st'.Coefficients = tableStep coefficients st.Coefficients t := by
  cases hsp : t.special with
  | some s =>
    refine ⟨_, st, getCoeffIdx_inline coefficients st t s hsp, hinv, ?_⟩
    simp only [tableStep, referenced, hsp]
  | none =>
    have hb : coefficients[t.coeffID]? = some b := by
      unfold termValue at hv
      rw [hsp] at hv
      exact hv
    cases hs : specialOf (Element.SetBigInt b) with
    | some s =>
      refine ⟨_, st, getCoeffIdx_reduced coefficients st t b s hsp hb hs, hinv, ?_⟩
      simp [tableStep, referenced, hsp, hb, hs]
    | none =>
      have href : referenced coefficients t = some (Element.SetBigInt b) := by
        simp [referenced, hsp, hb, hs]
      have hg := getCoeffIdx_general coefficients st t b hsp hb hs
      cases hl : st.lookupTable.get
          (hexEncodeToString (Element.Bytes (Element.SetBigInt b))) with
      | some idx =>
        rw [hl] at hg
        have hmem : Element.SetBigInt b ∈ st.Coefficients :=
          List.mem_iff_getElem?.mpr ⟨idx, hinv.sound _ idx (SetBigInt_lt b) hl⟩
        refine ⟨_, st, hg, hinv, ?_⟩
        simp only [tableStep, href, if_pos hmem]
      | none =>
        rw [hl] at hg
        have hnot : Element.SetBigInt b ∉ st.Coefficients := by
          intro hmem
          obtain ⟨idx, hidx⟩ := List.mem_iff_getElem?.mp hmem
          have := hinv.complete _ idx hidx
          rw [hl] at this
          cases this
        refine ⟨_, _, hg, Inv_append st _ hinv (SetBigInt_lt b) hs hl, ?_⟩
        simp only [tableStep, href, if_neg hnot]

theorem convertExpression_table (coefficients : List Int) (ts : List Term) :
    ∀ st : CoeffState, st.Inv → (∀ t ∈ ts, ∃ b, termValue coefficients t = some b) →
    ∃ out st', convertExpression coefficients st ts = some (out, st') ∧ st'.Inv ∧
      st'.Coefficients = ts.foldl (tableStep coefficients) st.Coefficients := by
  induction ts with
  | nil =>
    intro st hinv _
    exact ⟨[], st, rfl, hinv, rfl⟩
  | cons t ts ih =>
    intro st hinv hv
    obtain ⟨b, hb⟩ := hv t (by simp)
    obtain ⟨r, st1, h1, hinv1, ht1⟩ := getCoeffIdx_table coefficients st t b hinv hb
    obtain ⟨out, st2, h2, hinv2, ht2⟩ :=
      ih st1 hinv1 (fun t' ht' => hv t' (by simp [ht']))
    refine ⟨NewTerm r.1 r.2.1 r.2.2 :: out, st2, ?_, hinv2, ?_⟩
    · simp only [convertExpression, h1, h2]
    · rw [ht2, ht1, List.foldl_cons]

theorem convertConstraint_table (coefficients : List Int) (c : R1C) (st : CoeffState)
    (hinv : st.Inv)
    (hv : ∀ s : Side, ∀ t ∈ c.side s, ∃ b, termValue coefficients t = some b) :
    ∃ d st', convertConstraint coefficients st c = some (d, st') ∧ st'.Inv ∧
      st'.Coefficients = (c.L ++ c.R ++ c.O).foldl (tableStep coefficients) st.Coefficients := by
  obtain ⟨l, st1, h1, hinv1, ht1⟩ := convertExpression_table coefficients c.L st hinv (hv .L)
  obtain ⟨r, st2, h2, hinv2, ht2⟩ := convertExpression_table coefficients c.R st1 hinv1 (hv .R)
  obtain ⟨o, st3, h3, hinv3, ht3⟩ := convertExpression_table coefficients c.O st2 hinv2 (hv .O)
  refine ⟨{ L := l, R := r, O := o, Solver := c.Solver }, st3, ?_, hinv3, ?_⟩
  · simp only [convertConstraint, h1, h2, h3]
  · rw [ht3, ht2, ht1, List.foldl_append, List.foldl_append]

theorem convertConstraints_table (coefficients : List Int) (cs : List R1C) :
    ∀ st : CoeffState, st.Inv →
    (∀ c ∈ cs, ∀ s : Side, ∀ t ∈ c.side s, ∃ b, termValue coefficients t = some b) →
    ∃ ds st', convertConstraints coefficients st cs = some (ds, st') ∧ st'.Inv ∧
      st'.Coefficients = (allTerms cs).foldl (tableStep coefficients) st.Coefficients := by
  induction cs with
  | nil =>
    intro st hinv _
    exact ⟨[], st, rfl, hinv, rfl⟩
  | cons c cs ih =>
    intro st hinv hv
    obtain ⟨d, st1, h1, hinv1, ht1⟩ :=
      convertConstraint_table coefficients c st hinv (hv c (by simp))
    obtain ⟨ds, st2, h2, hinv2, ht2⟩ :=
      ih st1 hinv1 (fun c' hc' => hv c' (by simp [hc']))
    refine ⟨d :: ds, st2, ?_, hinv2, ?_⟩
    · simp only [convertConstraints, h1, h2]
    · rw [ht2, ht1]
      simp only [allTerms, List.foldl_append]

/-- C25: on a generic R1CS with valid coefficient indices, the coefficient table that
`toBLS381` returns is the list of the distinct reduced values outside -1, 0, 1, 2 that
the terms reference, in the order of their first occurrence in the traversal of the
constraints, `L` then `R` then `O`; so every entry of the table is referenced by some
term, and the reduced value of an input coefficient is not in the table when no term
references a coefficient of that reduced value. -/
theorem toBLS381_table (r1cs : UntypedR1CS) (hv : ValidIndices r1cs) :
    ∃ out, toBLS381 r1cs = some out ∧
      out.Coefficients = expectedTable r1cs ∧
      (∀ e ∈ out.Coefficients,
        ∃ t ∈ allTerms r1cs.Constraints, referenced r1cs.Coefficients t = some e) ∧
      (∀ (k : Nat) (b : Int), r1cs.Coefficients[k]? = some b →
        (∀ t ∈ allTerms r1cs.Constraints,
          referenced r1cs.Coefficients t ≠ some (Element.SetBigInt b)) →
        Element.SetBigInt b ∉ out.Coefficients) := by
  obtain ⟨ds, st, hc, _, ht⟩ :=
    convertConstraints_table r1cs.Coefficients r1cs.Constraints ⟨[], []⟩ Inv_init
      (termValue_of_valid r1cs hv)
  have htable : st.Coefficients = expectedTable r1cs := by
    rw [ht, foldl_tableStep, foldl_firstOccurrences]
    simp [expectedTable]
  have hout : toBLS381 r1cs = some
      { NbWires := r1cs.NbWires
        NbPublicWires := r1cs.NbPublicWires
        NbPrivateWires := r1cs.NbPrivateWires
        PrivateWires := r1cs.PrivateWires
        PublicWires := r1cs.PublicWires
        WireTags := r1cs.WireTags
        NbConstraints := r1cs.NbConstraints
        NbCOConstraints := r1cs.NbCOConstraints
        Constraints := ds
        Coefficients := st.Coefficients } := by
    simp only [toBLS381, hc]
  have hmem : ∀ e ∈ st.Coefficients,
      ∃ t ∈ allTerms r1cs.Constraints, referenced r1cs.Coefficients t = some e := by
    intro e he
    rw [htable] at he
    unfold expectedTable at he
    rw [mem_firstOccurrences, List.mem_filterMap] at he
    exact he
  refine ⟨_, hout, htable, hmem, ?_⟩
  intro k b _ hno hin
  obtain ⟨t, ht', href⟩ := hmem _ hin
  exact hno t ht' href

/-- C25, at `sampleR1CS`: the table is `[5, 7]`; the input coefficient 11, which no term
references, is not in it. -/
theorem toBLS381_table_witness :
    ValidIndices sampleR1CS ∧
    ∃ out, toBLS381 sampleR1CS = some out ∧ out.Coefficients = [5, 7] ∧
      Element.SetBigInt 11 ∉ out.Coefficients := by
  have hv : ValidIndices sampleR1CS := by
    unfold ValidIndices
    decide
  obtain ⟨out, h1, h2, _, h4⟩ := toBLS381_table sampleR1CS hv
  have he : expectedTable sampleR1CS = [5, 7] := by decide
  exact ⟨hv, out, h1, h2.trans he, h4 5 11 rfl (by decide)⟩

end Gnark

